import Mathlib

/-!
# Verification of the ragts RAG data plane

A shallow embedding, in Lean 4, of the core of the `ragts` repository: the
hierarchical text chunker (`chunk.ts`), the hybrid search engine with graph
and community expansion (`search.ts`), the ingest pipeline (`ingest.ts`),
community detection (`community.ts`) and backup import (`backup.ts`).

Modelling conventions:
* JavaScript strings are modelled as `List Char` (`Str`); `.length`, `slice`,
  `indexOf`, `trim`, `split` are re-implemented with JS semantics.
* JavaScript numbers that carry scores / weights / embeddings are modelled
  as `ℚ` (exact arithmetic; division is total with `x / 0 = 0`).
* The PostgreSQL database is modelled as an explicit state (`Db`) holding the
  four tables as lists of rows plus fresh-id counters.  SQL queries written in
  the source are translated into Lean functions over that state.  The scalar
  operators supplied by database extensions (cosine distance of the vector
  index, the BM25 `<@>` operator) are abstracted as function parameters, and
  `ORDER BY` over them is modelled as a stable sort on table order.
* `Array.prototype.sort` (stable in modern engines) is modelled with the
  stable `List.insertionSort`.
* SHA-256 (`computeHash`) is abstracted as a function parameter
  `hash : Str → Str`; no claim depends on its definition, only on equalities
  between hash values.
-/

/-- JavaScript strings. -/
abbrev Str := List Char

/-- The character class `\s` of JavaScript regular expressions (and the set
trimmed by `String.prototype.trim`). -/
def jsWhitespace (c : Char) : Bool :=
  c = ' ' || c = '\t' || c = '\n' || c.toNat = 0xb || c.toNat = 0xc || c = '\r' ||
  c.toNat = 0xa0 || c.toNat = 0x1680 ||
  (0x2000 ≤ c.toNat && c.toNat ≤ 0x200a) ||
  c.toNat = 0x2028 || c.toNat = 0x2029 || c.toNat = 0x202f ||
  c.toNat = 0x205f || c.toNat = 0x3000 || c.toNat = 0xfeff

/-- `String.prototype.trim`. -/
def jsTrim (s : Str) : Str :=
  ((s.dropWhile jsWhitespace).reverse.dropWhile jsWhitespace).reverse

/-- First index `i ≥ i0` at which `needle` occurs in `s` (the suffix of the
source starting at `i0`), JS `String.prototype.indexOf` with `none` for `-1`. -/
def strIndexOfGo (needle : Str) : Nat → Str → Option Nat
  | i, s =>
    if needle.isPrefixOf s then some i
    else match s with
      | [] => none
      | _ :: rest => strIndexOfGo needle (i + 1) rest

/-- JS `source.indexOf(needle, from0)` (with `from0 ≥ 0`). -/
def strIndexOf (source needle : Str) (from0 : Nat) : Option Nat :=
  strIndexOfGo needle from0 (source.drop from0)

/-! ## Chunker (`chunk.ts`) -/

/-- Output record of the chunker (`ChunkOutput` in `chunk.ts`). -/
structure ChunkOutput where
  endIndex : Nat
  startIndex : Nat
  text : Str
  tokenCount : Nat
deriving Repr, DecidableEq, Inhabited

/-- `RE_HEADER = /^#{1,6}\s/mu` tested on a single line (no `\n` inside). -/
def reHeaderTest (s : Str) : Bool :=
  let n := (s.takeWhile (· = '#')).length
  decide (1 ≤ n ∧ n ≤ 6) &&
    (match s.drop n with
     | c :: _ => jsWhitespace c
     | [] => false)

/-- The second alternative of `RE_LIST = /^\s*[-*>|]|\d+\.\s/u`: an unanchored
occurrence of `\d+\.\s`. -/
def digitDotWs : Str → Bool
  | [] => false
  | c :: rest =>
    (c.isDigit &&
      (match (c :: rest).dropWhile Char.isDigit with
       | '.' :: d :: _ => jsWhitespace d
       | _ => false))
    || digitDotWs rest

/-- `RE_LIST.test` (note the unanchored second alternative in the source). -/
def reListTest (s : Str) : Bool :=
  (match s.dropWhile jsWhitespace with
   | c :: _ => c = '-' || c = '*' || c = '>' || c = '|'
   | [] => false)
  || digitDotWs s

/-- `isStructuralBreak` from `chunk.ts`. -/
def isStructuralBreak (line next : Str) : Bool :=
  (jsTrim line).isEmpty || (jsTrim next).isEmpty || reHeaderTest next || reListTest next

/-- The join of the `unwrapHardBreaks` loop: between consecutive lines insert
`\n` at structural breaks and a space otherwise. -/
def unwrapJoin : List Str → Str
  | [] => []
  | [l] => l
  | l :: l2 :: rest =>
    l ++ (if isStructuralBreak l l2 then ['\n'] else [' ']) ++ unwrapJoin (l2 :: rest)

/-- `unwrapHardBreaks` from `chunk.ts`. -/
def unwrapHardBreaks (text : Str) : Str :=
  unwrapJoin (text.splitOn '\n')

/-- `RE_OCR_GARBAGE = /\S{200,}/u` — scan for a run of ≥ 200 consecutive
non-whitespace characters, carrying the current run length. -/
def runReachGo (target : Nat) : Nat → Str → Bool
  | _, [] => false
  | cnt, c :: rest =>
    if jsWhitespace c then runReachGo target 0 rest
    else if target ≤ cnt + 1 then true
    else runReachGo target (cnt + 1) rest

/-- `RE_OCR_GARBAGE.test`. -/
def reOcrGarbage (s : Str) : Bool := runReachGo 200 0 s

/-!
The six `SPLIT_LEVELS` regular expressions, as `String.prototype.split`
functions.  Level 0 is a zero-width lookahead split; the others remove a
nonempty separator.  JS split semantics: a zero-width match at position 0
produces no leading empty piece; a nonzero separator at position 0 or at the
end produces empty pieces; matching is leftmost with greedy (maximal) runs.
-/

/-- The lookahead `(?=\n#{1,6}\s)` holds at a position. -/
def headerLookahead : Str → Bool
  | '\n' :: rest =>
    let n := (rest.takeWhile (· = '#')).length
    decide (1 ≤ n ∧ n ≤ 6) &&
      (match rest.drop n with
       | c :: _ => jsWhitespace c
       | [] => false)
  | _ => false

/-- Split before every position `> 0` where the zero-width predicate fires
(JS `split` on a pure-lookahead regex). -/
def splitLAGo (p : Str → Bool) : Str → Str → List Str
  | acc, [] => [acc.reverse]
  | acc, c :: rest =>
    if !acc.isEmpty && p (c :: rest) then acc.reverse :: splitLAGo p [c] rest
    else splitLAGo p (c :: acc) rest

/-- `text.split(/(?=\n#{1,6}\s)/u)`. -/
def splitHeaderLevel (s : Str) : List Str := splitLAGo headerLookahead [] s

/-- Generic JS `split` on a separator regex: `m prev suffix` returns the length
of the (maximal) separator match starting at the current position, `0` when
there is no match; `prev` is the character before the position (for the
lookbehind levels).  The `fuel` argument only bounds the recursion (each step
consumes at least one character, so any `fuel ≥ s.length` gives the JS
behaviour); it makes the definition structurally recursive. -/
def sepSplitGo (m : Option Char → Str → Nat) : Nat → Option Char → Str → Str → List Str
  | 0, _, acc, _ => [acc.reverse]
  | _ + 1, _, acc, [] => [acc.reverse]
  | fuel + 1, prev, acc, c :: rest =>
    let n := m prev (c :: rest)
    if n = 0 then sepSplitGo m fuel (some c) (c :: acc) rest
    else
      acc.reverse ::
        sepSplitGo m fuel (((c :: rest).take n).getLast?) [] ((c :: rest).drop n)

/-- Matcher for `/\n\n+/u`: a maximal run of ≥ 2 newlines. -/
def mPara (_prev : Option Char) (s : Str) : Nat :=
  match s with
  | '\n' :: '\n' :: _ => (s.takeWhile (· = '\n')).length
  | _ => 0

/-- Matcher for `/(?<=[.!?])\s+/u`. -/
def mSentence (prev : Option Char) (s : Str) : Nat :=
  match prev, s with
  | some p, c :: _ =>
    if (p = '.' || p = '!' || p = '?') && jsWhitespace c then
      (s.takeWhile jsWhitespace).length
    else 0
  | _, _ => 0

/-- Matcher for `/(?<=[;,])\s+/u`. -/
def mClause (prev : Option Char) (s : Str) : Nat :=
  match prev, s with
  | some p, c :: _ =>
    if (p = ';' || p = ',') && jsWhitespace c then
      (s.takeWhile jsWhitespace).length
    else 0
  | _, _ => 0

/-- Matcher for `/\n/u`. -/
def mNewline (_prev : Option Char) (s : Str) : Nat :=
  match s with
  | '\n' :: _ => 1
  | _ => 0

/-- Matcher for `/\s+/u`. -/
def mWs (_prev : Option Char) (s : Str) : Nat :=
  match s with
  | c :: _ => if jsWhitespace c then (s.takeWhile jsWhitespace).length else 0
  | [] => 0

def splitParaLevel (s : Str) : List Str := sepSplitGo mPara s.length none [] s

def splitSentenceLevel (s : Str) : List Str := sepSplitGo mSentence s.length none [] s

def splitClauseLevel (s : Str) : List Str := sepSplitGo mClause s.length none [] s

def splitNewlineLevel (s : Str) : List Str := sepSplitGo mNewline s.length none [] s

def splitWsLevel (s : Str) : List Str := sepSplitGo mWs s.length none [] s

/-- `SPLIT_LEVELS`, as split functions, in source order. -/
def splitLevelsList : List (Str → List Str) :=
  [splitHeaderLevel, splitParaLevel, splitSentenceLevel, splitClauseLevel,
   splitNewlineLevel, splitWsLevel]

/-- `splitAtLevel` from `chunk.ts`; the `level` index into `SPLIT_LEVELS` is
rendered as the remaining suffix of the level list (`SPLIT_LEVELS[level]`
missing ↦ `[]`). -/
def splitAtLevels (maxSize : Nat) : List (Str → List Str) → Str → List Str
  | levels, text =>
    if text.length ≤ maxSize then [text]
    else match levels with
      | [] => [text]
      | f :: rest =>
        if (f text).length ≤ 1 then splitAtLevels maxSize rest text
        else (f text).flatMap fun p =>
          if p.isEmpty then []
          else if p.length ≤ maxSize then [p]
          else splitAtLevels maxSize rest p

/-- `mergeSep` from `chunk.ts`. -/
def mergeSep (cur nxt : Str) : Str :=
  if cur.getLast? = some '\n' || nxt.head? = some '#' then ['\n'] else [' ']

/-- The loop body of `mergePieces`; `cur` is the chunk being grown. -/
def mergePiecesGo (maxSize : Nat) : Str → List Str → List Str
  | cur, [] => if cur.isEmpty then [] else [cur]
  | cur, p :: ps =>
    let t := jsTrim p
    if t.isEmpty then mergePiecesGo maxSize cur ps
    else if cur.isEmpty then mergePiecesGo maxSize t ps
    else if (cur ++ mergeSep cur t ++ t).length ≤ maxSize then
      mergePiecesGo maxSize (cur ++ mergeSep cur t ++ t) ps
    else cur :: mergePiecesGo maxSize t ps

/-- `mergePieces` from `chunk.ts`. -/
def mergePieces (pieces : List Str) (maxSize : Nat) : List Str :=
  mergePiecesGo maxSize [] pieces

/-- The loop of `addOverlap` for indices `i ≥ 1`: prefix each chunk with the
last `overlapSize` characters of its predecessor. -/
def addOverlapGo (overlapSize : Nat) : Str → List Str → List Str
  | _, [] => []
  | prev, cur :: rest =>
    let tl := prev.drop (prev.length - overlapSize)
    let sep := if tl.getLast? = some '\n' || cur.head? = some '#' then ['\n'] else [' ']
    (tl ++ sep ++ cur) :: addOverlapGo overlapSize cur rest

/-- `addOverlap` from `chunk.ts`. -/
def addOverlap (chunksIn : List Str) (overlapSize : Nat) : List Str :=
  if overlapSize = 0 || chunksIn.length ≤ 1 then chunksIn
  else match chunksIn with
    | [] => []
    | c0 :: rest => c0 :: addOverlapGo overlapSize c0 rest

/-- The loop of `buildOutputs`, carrying the running `offset`. -/
def buildOutputsGo (source : Str) : Nat → List Str → List ChunkOutput
  | _, [] => []
  | offset, chunk :: rest =>
    let needle := chunk.take 80
    let idx := strIndexOf source needle (offset - 10)
    let start := match idx with | none => offset | some i => i
    ⟨start + chunk.length, start, chunk, chunk.length⟩ ::
      buildOutputsGo source (start + chunk.length) rest

/-- `buildOutputs` from `chunk.ts` (`Math.max(0, offset - 10)` is truncated
`Nat` subtraction). -/
def buildOutputs (chunksIn : List Str) (source : Str) : List ChunkOutput :=
  buildOutputsGo source 0 chunksIn

/-- `ChunkConfig` from `types.ts` (the `normalize` callback is caller code,
kept as an opaque function). -/
structure ChunkConfig where
  chunkSize : Option Nat
  normalize : Option (Str → Str)
  overlap : Option Nat

/-- `chunkText` from `chunk.ts`. -/
def chunkText (text : Str) (config : Option ChunkConfig) : List ChunkOutput :=
  let maxSize := (config.bind (·.chunkSize)).getD 2048
  let overlapSize := (config.bind (·.overlap)).getD 0
  let preprocessed := match config.bind (·.normalize) with
    | some f => f text
    | none => text
  let normalized := unwrapHardBreaks preprocessed
  let pieces := splitAtLevels maxSize splitLevelsList normalized
  let merged := mergePieces pieces maxSize
  let withOverlap := if 0 < overlapSize then addOverlap merged overlapSize else merged
  let filtered := withOverlap.filter fun c => decide (50 ≤ c.length) && !reOcrGarbage c
  buildOutputs filtered normalized

/-! ## Chunker lemmas -/

/-! ## Database model

The four relations of `schema.ts`, as lists of rows in insertion order, plus
fresh surrogate-key counters.  Queries without an `ORDER BY` are modelled as
returning rows in table order.
-/

structure DocRow where
  id : Nat
  title : Str
  content : Str
  contentHash : Str
  metadata : List (Str × Str)
  communityId : Option Nat
deriving Repr, DecidableEq

structure ChunkRow where
  id : Nat
  text : Str
  textHash : Str
  tokenCount : Nat
  embedding : List ℚ
deriving Repr, DecidableEq

structure ChunkSourceRow where
  id : Nat
  chunkId : Nat
  documentId : Nat
  startIndex : Nat
  endIndex : Nat
deriving Repr, DecidableEq

structure RelRow where
  id : Nat
  sourceId : Nat
  targetId : Nat
  relType : Option Str
  weight : Option ℚ
deriving Repr, DecidableEq

structure Db where
  documents : List DocRow
  chunks : List ChunkRow
  chunkSources : List ChunkSourceRow
  documentRelations : List RelRow
  nextDocId : Nat
  nextChunkId : Nat
  nextCsId : Nat
  nextRelId : Nat
deriving Repr, DecidableEq

/-- The empty database (fresh ids start at 1, as PostgreSQL `bigserial`). -/
def emptyDb : Db := ⟨[], [], [], [], 1, 1, 1, 1⟩

/-- JS `Set` iteration order: first occurrences, in insertion order. -/
def firstOccurGo [DecidableEq α] : List α → List α → List α
  | _, [] => []
  | seen, a :: rest =>
    if a ∈ seen then firstOccurGo seen rest
    else a :: firstOccurGo (a :: seen) rest

def firstOccur [DecidableEq α] (l : List α) : List α := firstOccurGo [] l

/-- Lookup in a `jsonb` object modelled as an association list
(`metadata->>'key'`). -/
def metaLookup (md : List (Str × Str)) (k : Str) : Option Str :=
  (md.find? (fun kv => kv.1 = k)).map (·.2)

/-! ## Search engine (`search.ts`)

The similarity operators supplied by the database extensions are abstracted:
`sim emb qe` stands for `1 - (embedding <=> queryEmbedding)` (cosine
similarity) and `bdist text q` for `text <@> to_bm25query(q)` (the BM25
distance, negative on a match).  `ORDER BY` over these is a stable sort on
table order; `Array.prototype.sort` is also a stable sort.
-/

inductive SMode | bm25 | hybrid | vector
deriving Repr, DecidableEq

inductive RMode | bm25 | community | graph | vector
deriving Repr, DecidableEq, Inhabited

structure SearchResult where
  communityId : Option Nat
  documentId : Nat
  id : Nat
  mode : RMode
  relationType : Option Str
  score : ℚ
  text : Str
  title : Str
deriving Repr, DecidableEq, Inhabited

/-- `SearchConfig` from `types.ts` (the caller-supplied `embed` is an opaque
pure function). -/
structure SearchConfig where
  bm25Weight : Option ℚ
  communityBoost : Option ℚ
  embed : List Str → List (List ℚ)
  graphChunkLimit : Option Nat
  graphDecay : Option ℚ
  graphHops : Option Nat
  graphWeight : Option ℚ
  limit : Option Nat
  mode : Option SMode
  query : Str
  rrfK : Option ℚ
  threshold : Option ℚ
  vectorQuery : Option Str
  vectorWeight : Option ℚ

/-- `dedup` from `search.ts`: keep the first result for each text, stop once
`limit` unique results are collected. -/
def dedupGo (limit : Nat) : List SearchResult → List Str → List SearchResult
  | [], _ => []
  | r :: rest, seen =>
    if r.text ∈ seen then dedupGo limit rest seen
    else if limit ≤ seen.length + 1 then [r]
    else r :: dedupGo limit rest (r.text :: seen)

def dedup (results : List SearchResult) (limit : Nat) : List SearchResult :=
  dedupGo limit results []

/-- One row of the three-way `chunks ⋈ chunk_sources ⋈ documents` join. -/
structure JoinRow where
  chunk : ChunkRow
  cs : ChunkSourceRow
  doc : DocRow
deriving Repr, DecidableEq

/-- The inner join used by all chunk-fetching queries, in table order. -/
def joinRows (db : Db) : List JoinRow :=
  db.chunks.flatMap fun c =>
    (db.chunkSources.filter fun s => s.chunkId = c.id).flatMap fun s =>
      (db.documents.filter fun d => d.id = s.documentId).map fun d => ⟨c, s, d⟩

/-- The `GROUP BY chunks.id, chunks.embedding, chunks.text, documents.title,
documents.communityId` key of the vector / community queries. -/
def vGroupKey (j : JoinRow) : Nat × List ℚ × Str × Str × Option Nat :=
  (j.chunk.id, j.chunk.embedding, j.chunk.text, j.doc.title, j.doc.communityId)

/-- The `GROUP BY chunks.id, chunks.text, documents.title,
documents.communityId` key of the BM25 query. -/
def bGroupKey (j : JoinRow) : Nat × Str × Str × Option Nat :=
  (j.chunk.id, j.chunk.text, j.doc.title, j.doc.communityId)

/-- `MAX(chunk_sources.document_id)` over a group. -/
def maxDocId (rows : List JoinRow) : Nat :=
  (rows.map fun j => j.cs.documentId).foldl max 0

/-- Group a join-row list by a key, in first-occurrence order, with the
aggregated `MAX(document_id)`; the representative row carries the grouped
columns (which are constant on the group by choice of key). -/
def groupBy [DecidableEq κ] (key : JoinRow → κ) (rows : List JoinRow) :
    List (JoinRow × Nat) :=
  (firstOccur (rows.map key)).filterMap fun k =>
    match rows.filter (fun j => key j = k) with
    | [] => none
    | j :: rest => some (j, maxDocId (j :: rest))

/-- `rawVectorSearch` from `search.ts`. -/
def rawVectorSearch (sim : List ℚ → List ℚ → ℚ) (db : Db) (limit : Nat)
    (queryEmbedding : List ℚ) (threshold : Option ℚ) : List SearchResult :=
  let grouped := groupBy vGroupKey (joinRows db)
  let withThreshold := match threshold with
    | none => grouped
    | some t => grouped.filter fun g => t < sim g.1.chunk.embedding queryEmbedding
  let sorted := withThreshold.insertionSort fun a b =>
    sim b.1.chunk.embedding queryEmbedding ≤ sim a.1.chunk.embedding queryEmbedding
  (sorted.take limit).map fun g =>
    ⟨g.1.doc.communityId, g.2, g.1.chunk.id, RMode.vector, none,
      sim g.1.chunk.embedding queryEmbedding, g.1.chunk.text, g.1.doc.title⟩

/-- `rawBm25Search` from `search.ts` (`bm25Score = -(text <@> q)`, rows kept
only when the distance is strictly negative, ordered by the distance). -/
def rawBm25Search (bdist : Str → Str → ℚ) (db : Db) (queryText : Str)
    (limit : Nat) : List SearchResult :=
  let grouped := groupBy bGroupKey
    ((joinRows db).filter fun j => bdist j.chunk.text queryText < 0)
  let sorted := grouped.insertionSort fun a b =>
    bdist a.1.chunk.text queryText ≤ bdist b.1.chunk.text queryText
  (sorted.take limit).map fun g =>
    ⟨g.1.doc.communityId, g.2, g.1.chunk.id, RMode.bm25, none,
      -(bdist g.1.chunk.text queryText), g.1.chunk.text, g.1.doc.title⟩

/-- An entry of the RRF `scoreMap`. -/
structure ScoreEntry where
  bm25Rank : Nat
  result : SearchResult
  vectorRank : Nat
deriving Repr, DecidableEq

/-- `Map.set` of a JS `Map` as an association list: in-place update of an
existing key, append otherwise (insertion order preserved). -/
def mapSet (m : List (Nat × ScoreEntry)) (k : Nat) (v : ScoreEntry) :
    List (Nat × ScoreEntry) :=
  if m.any fun kv => kv.1 = k then
    m.map fun kv => if kv.1 = k then (k, v) else kv
  else m ++ [(k, v)]

/-- `Map.get`. -/
def mapGet (m : List (Nat × ScoreEntry)) (k : Nat) : Option ScoreEntry :=
  (m.find? fun kv => kv.1 = k).map (·.2)

/-- The first `rawHybridSearch` loop: rank the vector results. -/
def addVectorEntries : Nat → List SearchResult →
    List (Nat × ScoreEntry) → List (Nat × ScoreEntry)
  | _, [], m => m
  | i, r :: rest, m => addVectorEntries (i + 1) rest (mapSet m r.id ⟨0, r, i + 1⟩)

/-- The second `rawHybridSearch` loop: rank the BM25 results, updating the
`bm25Rank` of entries already present. -/
def addBm25Entries : Nat → List SearchResult →
    List (Nat × ScoreEntry) → List (Nat × ScoreEntry)
  | _, [], m => m
  | i, r :: rest, m =>
    match mapGet m r.id with
    | some e => addBm25Entries (i + 1) rest (mapSet m r.id ⟨i + 1, e.result, e.vectorRank⟩)
    | none => addBm25Entries (i + 1) rest (mapSet m r.id ⟨i + 1, r, 0⟩)

/-- The RRF score of a `scoreMap` entry (a missing rank is `0` and
contributes nothing). -/
def rrfOf (vectorWeight bm25Weight rrfK : ℚ) (e : ScoreEntry) : ℚ :=
  (if 0 < e.vectorRank then vectorWeight / (rrfK + e.vectorRank) else 0) +
    (if 0 < e.bm25Rank then bm25Weight / (rrfK + e.bm25Rank) else 0)

/-- The fused, scored, descending-sorted list of `rawHybridSearch` before
truncation. -/
def hybridMerged (vectorWeight bm25Weight rrfK : ℚ)
    (vres bres : List SearchResult) : List (SearchResult × ℚ) :=
  let scoreMap := addBm25Entries 0 bres (addVectorEntries 0 vres [])
  let merged := scoreMap.map fun kv =>
    let rrfScore := rrfOf vectorWeight bm25Weight rrfK kv.2
    ({ kv.2.result with score := rrfScore }, rrfScore)
  merged.insertionSort fun a b => b.2 ≤ a.2

/-- `rawHybridSearch` from `search.ts`. -/
def rawHybridSearch (sim : List ℚ → List ℚ → ℚ) (bdist : Str → Str → ℚ)
    (db : Db) (bm25Weight : ℚ) (limit : Nat) (queryEmbedding : List ℚ)
    (queryText : Str) (rrfK : ℚ) (threshold : Option ℚ) (vectorWeight : ℚ) :
    List SearchResult :=
  let fetchLimit := limit * 3
  let vres := rawVectorSearch sim db fetchLimit queryEmbedding threshold
  let bres := rawBm25Search bdist db queryText fetchLimit
  ((hybridMerged vectorWeight bm25Weight rrfK vres bres).take limit).map (·.1)

/-! ### Graph expansion (`graphExpand`)

The recursive CTE of `search.ts` is modelled by explicit breadth-first path
generation: the non-recursive term (the two `UNION`-deduplicated base
selects), then `graphHops - 1` rounds of the `UNION ALL` recursive term.
`SELECT DISTINCT ON (doc_id) … ORDER BY doc_id, path_weight DESC` keeps, for
each reached document, the first generated row of maximal path weight, in
ascending `doc_id` order.
-/

/-- A row of the `related` CTE. -/
structure PathRow where
  docId : Nat
  depth : Nat
  visited : List Nat
  pathWeight : ℚ
  relType : Option Str
deriving Repr, DecidableEq

/-- The two base selects of the CTE (depth 1), before `UNION` deduplication:
out-edges of seeds, then in-edges of seeds, excluding seeds as targets. -/
def cteBaseRaw (rels : List RelRow) (seeds : List Nat) (decay : ℚ) : List PathRow :=
  (rels.filterMap fun r =>
    if r.sourceId ∈ seeds ∧ r.targetId ∉ seeds then
      some ⟨r.targetId, 1, [r.targetId], (r.weight.getD 1) * decay, r.relType⟩
    else none) ++
  (rels.filterMap fun r =>
    if r.targetId ∈ seeds ∧ r.sourceId ∉ seeds then
      some ⟨r.sourceId, 1, [r.sourceId], (r.weight.getD 1) * decay, r.relType⟩
    else none)

/-- `UNION` deduplicates whole rows. -/
def cteBase (rels : List RelRow) (seeds : List Nat) (decay : ℚ) : List PathRow :=
  firstOccur (cteBaseRaw rels seeds decay)

/-- The recursive term: expand one CTE row along every incident relation,
avoiding the row's visited list and the seeds, while `depth < graphHops`. -/
def cteStep (rels : List RelRow) (seeds : List Nat) (decay : ℚ) (graphHops : Nat)
    (r : PathRow) : List PathRow :=
  if r.depth < graphHops then
    rels.filterMap fun dr =>
      if dr.sourceId = r.docId ∨ dr.targetId = r.docId then
        let nxt := if dr.sourceId = r.docId then dr.targetId else dr.sourceId
        if nxt ∉ r.visited ∧ nxt ∉ seeds then
          some ⟨nxt, r.depth + 1, r.visited ++ [nxt],
            r.pathWeight * (dr.weight.getD 1) * decay,
            match dr.relType with
            | some t => some t
            | none => r.relType⟩
        else none
      else none
  else []

/-- Iterated working-table rounds of the recursive CTE (`UNION ALL` keeps
duplicates).  `fuel` bounds the rounds; since every round increases `depth`
and rows with `depth ≥ graphHops` do not expand, `fuel = graphHops` rounds
produce every row. -/
def cteRounds (rels : List RelRow) (seeds : List Nat) (decay : ℚ)
    (graphHops : Nat) : Nat → List PathRow → List PathRow
  | 0, _ => []
  | fuel + 1, frontier =>
    let nxt := frontier.flatMap (cteStep rels seeds decay graphHops)
    nxt ++ cteRounds rels seeds decay graphHops fuel nxt

/-- All rows of the `related` CTE. -/
def cteRows (rels : List RelRow) (seeds : List Nat) (decay : ℚ)
    (graphHops : Nat) : List PathRow :=
  let base := cteBase rels seeds decay
  base ++ cteRounds rels seeds decay graphHops graphHops base

/-- The first row of maximal `path_weight` among the rows for one document. -/
def bestPathRow (rows : List PathRow) : Option PathRow :=
  rows.foldl (fun best r =>
    match best with
    | none => some r
    | some b => if b.pathWeight < r.pathWeight then some r else some b) none

/-- `SELECT DISTINCT ON (doc_id) doc_id, path_weight, rel_type … ORDER BY
doc_id, path_weight DESC`. -/
def collapseRows (rows : List PathRow) : List (Nat × ℚ × Option Str) :=
  ((firstOccur (rows.map (·.docId))).insertionSort (· ≤ ·)).filterMap fun d =>
    (bestPathRow (rows.filter fun r => r.docId = d)).map fun b =>
      (d, b.pathWeight, b.relType)

/-- `graphExpand` from `search.ts`. -/
def graphExpand (db : Db) (chunkLimit : Nat) (decay : ℚ)
    (existingChunkIds : List Nat) (graphHops : Nat) (initialDocIds : List Nat) :
    List SearchResult :=
  if initialDocIds.isEmpty then []
  else
    let rows := collapseRows (cteRows db.documentRelations initialDocIds decay graphHops)
    let relatedDocIds := rows.map (·.1)
    if relatedDocIds.isEmpty then []
    else
      let chunkRows := ((joinRows db).filter fun j =>
        j.cs.documentId ∈ relatedDocIds).take chunkLimit
      (chunkRows.filter fun j => j.chunk.id ∉ existingChunkIds).map fun j =>
        let docInfo := rows.find? fun p => p.1 = j.cs.documentId
        ⟨j.doc.communityId, j.cs.documentId, j.chunk.id, RMode.graph,
          docInfo.bind fun p => p.2.2,
          (docInfo.map fun p => p.2.1).getD 0,
          j.chunk.text, j.doc.title⟩

/-- `communityExpand` from `search.ts`: chunks of non-summary documents of the
top community, by similarity, deduplicated against existing and seen ids. -/
def communityExpand (sim : List ℚ → List ℚ → ℚ) (db : Db)
    (existingChunkIds : List Nat) (limit : Nat) (queryEmbedding : List ℚ)
    (topCommunityId : Nat) : List SearchResult :=
  let rows := (joinRows db).filter fun j =>
    j.doc.communityId == some topCommunityId &&
      (match metaLookup j.doc.metadata ("_ragts_type".data) with
       | none => true
       | some v => !(v == "community_summary".data))
  let grouped := groupBy vGroupKey rows
  let sorted := grouped.insertionSort fun a b =>
    sim b.1.chunk.embedding queryEmbedding ≤ sim a.1.chunk.embedding queryEmbedding
  let limited := sorted.take limit
  let raw := limited.map fun g =>
    ⟨g.1.doc.communityId, g.2, g.1.chunk.id, RMode.community, none,
      sim g.1.chunk.embedding queryEmbedding, g.1.chunk.text, g.1.doc.title⟩
  (raw.filter fun r => r.id ∉ existingChunkIds).foldl
    (fun acc r => if acc.any fun x => x.id = r.id then acc else acc ++ [r])
    ([] : List SearchResult)

/-- The dominant-community loop of `search`: the first community id (in first
appearance order) whose count is strictly maximal. -/
def topCommunity (results : List SearchResult) : Option Nat :=
  let ids := firstOccur (results.filterMap (·.communityId))
  let counted := ids.map fun c =>
    (c, (results.filter fun r => r.communityId = some c).length)
  (counted.foldl (fun best p =>
    match best with
    | none => if 0 < p.2 then some p else none
    | some b => if b.2 < p.2 then some p else some b) none).map (·.1)

/-- The graph-expansion block of `search`: sort by carried path weight, then
re-score by rank. -/
def graphBlock (db : Db) (config : SearchConfig) (rrfK : ℚ) (h : Nat)
    (results : List SearchResult) (allChunkIds : List Nat) : List SearchResult :=
  let docIds := firstOccur (results.map (·.documentId))
  let graphResults := graphExpand db (config.graphChunkLimit.getD 200)
    (config.graphDecay.getD 1) allChunkIds h docIds
  let sortedG := graphResults.insertionSort fun a b => b.score ≤ a.score
  let gw := config.graphWeight.getD 1
  sortedG.enum.map fun p => { p.2 with score := gw / (rrfK + p.1 + 1) }

/-- The community-boost block of `search`: community chunks re-scored by
rank with the boost as weight. -/
def communityBlock (sim : List ℚ → List ℚ → ℚ) (db : Db) (cb rrfK : ℚ)
    (tc : Nat) (queryEmbedding : List ℚ) (config : SearchConfig)
    (allChunkIds : List Nat) : List SearchResult :=
  let communityResults := communityExpand sim db allChunkIds
    (config.graphChunkLimit.getD 200) queryEmbedding tc
  communityResults.enum.map fun p => { p.2 with score := cb / (rrfK + p.1 + 1) }

/-- `search` from `search.ts`. -/
def search (sim : List ℚ → List ℚ → ℚ) (bdist : Str → Str → ℚ) (db : Db)
    (config : SearchConfig) : List SearchResult :=
  let mode := config.mode.getD SMode.hybrid
  let limit := config.limit.getD 10
  let rrfK := config.rrfK.getD 60
  let fetchLimit := limit * 3
  let embedText := config.vectorQuery.getD config.query
  let queryEmbedding : Option (List ℚ) :=
    if mode = SMode.bm25 then none else (config.embed [embedText]).head?
  let primary : Option (List SearchResult) :=
    match mode, queryEmbedding with
    | SMode.bm25, _ => some (rawBm25Search bdist db config.query fetchLimit)
    | SMode.vector, none => none
    | SMode.vector, some qe =>
      some (rawVectorSearch sim db fetchLimit qe config.threshold)
    | SMode.hybrid, none => none
    | SMode.hybrid, some qe =>
      some (rawHybridSearch sim bdist db (config.bm25Weight.getD 1) fetchLimit qe
        config.query rrfK config.threshold (config.vectorWeight.getD 1))
  match primary with
  | none => []
  | some raw =>
    let results0 := dedup raw limit
    let allChunkIds0 := results0.map (·.id)
    let afterGraph : List SearchResult × List Nat × Bool :=
      match config.graphHops with
      | some h =>
        if 0 < h then
          let reScored := graphBlock db config rrfK h results0 allChunkIds0
          (results0 ++ reScored, allChunkIds0 ++ reScored.map (·.id), true)
        else (results0, allChunkIds0, false)
      | none => (results0, allChunkIds0, false)
    let afterCommunity : List SearchResult × Bool :=
      match config.communityBoost with
      | some cb =>
        if 0 < cb then
          match topCommunity afterGraph.1 with
          | some tc =>
            match (match queryEmbedding with
                   | some qe => some qe
                   | none => (config.embed [embedText]).head?) with
            | some qe =>
              (afterGraph.1 ++
                communityBlock sim db cb rrfK tc qe config afterGraph.2.1, true)
            | none => (afterGraph.1, afterGraph.2.2)
          | none => (afterGraph.1, afterGraph.2.2)
        else (afterGraph.1, afterGraph.2.2)
      | none => (afterGraph.1, afterGraph.2.2)
    if afterCommunity.2 then
      afterCommunity.1.insertionSort fun a b => b.score ≤ a.score
    else afterCommunity.1

/-- The 1-based rank and element of the first result carrying a chunk id in a
ranked list (the "rank in the ranked list" of the RRF formula). -/
def lookupById (rs : List SearchResult) (id : Nat) : Option (Nat × SearchResult) :=
  match rs with
  | [] => none
  | r :: rest =>
    if r.id = id then some (1, r)
    else (lookupById rest id).map fun p => (p.1 + 1, p.2)

/-- A two-document, two-chunk database used as a concrete search input. -/
def exHybridDb : Db := ⟨
  [⟨1, "A".data, "x".data, "ha".data, [], none⟩,
   ⟨2, "B".data, "y".data, "hb".data, [], none⟩],
  [⟨1, "ca".data, "tha".data, 2, [1]⟩, ⟨2, "cb".data, "thb".data, 2, [0]⟩],
  [⟨1, 1, 1, 0, 2⟩, ⟨2, 2, 2, 0, 2⟩],
  [], 3, 3, 3, 1⟩

/-- A concrete cosine-similarity oracle: 1 on the embedding `[1]`, 0 else. -/
def exSim : List ℚ → List ℚ → ℚ := fun emb _ => if emb = [1] then 1 else 0

/-- A concrete BM25 distance oracle on which every chunk matches. -/
def exBdistAll : Str → Str → ℚ := fun _ _ => -1

/-- Hybrid search with a threshold that keeps only chunk 1 in the vector list
while BM25 ranks both chunks. -/
def exHybridConfig : SearchConfig :=
  ⟨none, none, fun _ => [[1]], none, none, none, none, none, none, "q".data,
   none, some (1/2), none, none⟩

/-- Three documents related in a chain root → hop1 → hop2 (one chunk each). -/
def exChainDb : Db := ⟨
  [⟨1, "root".data, "r".data, "h1".data, [], none⟩,
   ⟨2, "hop1".data, "h".data, "h2".data, [], none⟩,
   ⟨3, "hop2".data, "i".data, "h3".data, [], none⟩],
  [⟨1, "c1".data, "t1".data, 2, [1]⟩, ⟨2, "c2".data, "t2".data, 2, [1]⟩,
   ⟨3, "c3".data, "t3".data, 2, [1]⟩],
  [⟨1, 1, 1, 0, 2⟩, ⟨2, 2, 2, 0, 2⟩, ⟨3, 3, 3, 0, 2⟩],
  [⟨1, 1, 2, none, none⟩, ⟨2, 2, 3, none, none⟩],
  4, 4, 4, 3⟩

/-- A BM25 oracle matching exactly root's chunk, seeding the search on root. -/
def exBdistRoot : Str → Str → ℚ := fun t _ => if t = "c1".data then -1 else 0

/-- BM25-mode search seeded on root with `graph_decay = 0.5`, `graph_hops = 2`. -/
def exChainConfig : SearchConfig :=
  ⟨none, none, fun _ => [], none, some (1/2), some 2, none, none,
   some SMode.bm25, "root".data, none, none, none, none⟩

/-- An embed function returning no embedding for any input. -/
def exEmptyEmbedConfig : SearchConfig :=
  ⟨none, none, fun _ => [], none, none, none, none, none, none, "q".data,
   none, none, none, none⟩

/-! ## Generic association-list maps (JS `Map`: insertion order, in-place
update on overwrite) -/

def alistGet [DecidableEq κ] (m : List (κ × β)) (k : κ) : Option β :=
  (m.find? fun kv => kv.1 = k).map (·.2)

def alistSet [DecidableEq κ] (m : List (κ × β)) (k : κ) (v : β) : List (κ × β) :=
  if m.any fun kv => kv.1 = k then
    m.map fun kv => if kv.1 = k then (k, v) else kv
  else m ++ [(k, v)]

/-- The 500-element batches of the batched loops (`slice(j, j + 500)`). -/
def chunksOfGo (n : Nat) : Nat → List α → List (List α)
  | _, [] => []
  | 0, l => [l]
  | fuel + 1, l => l.take n :: chunksOfGo n fuel (l.drop n)

def chunksOf (n : Nat) (l : List α) : List (List α) := chunksOfGo n l.length l

/-! ## Community detection (`community.ts`)

Union-find with path compression and arbitrary-root union over a parent map.
The JS `Map` is modelled as a total function `Nat → Nat`: a key the map does
not hold returns `undefined`, which ends both loops of `find` exactly as a
fixpoint does, so the initial map (every document id mapped to itself) is the
identity function.  The unbounded `while` loops of `find` are given a fuel
argument; `detectCommunities` passes a fuel that is proven sufficient (the
parent chains stay inside the ids mentioned by the documents and relations,
so their length never exceeds that count). -/

/-- The first loop of `find`: follow parent pointers to the root. -/
def findRoot (parent : Nat → Nat) : Nat → Nat → Nat
  | 0, x => x
  | fuel + 1, x => if parent x = x then x else findRoot parent fuel (parent x)

/-- The second loop of `find`: point every node on the path at the root
(`next` is read before the node is overwritten). -/
def compressPath (root : Nat) : Nat → (Nat → Nat) → Nat → (Nat → Nat)
  | 0, parent, _ => parent
  | fuel + 1, parent, curr =>
    if curr = root then parent
    else compressPath root fuel (Function.update parent curr root) (parent curr)

/-- `find` from `community.ts`: root plus the compressed parent map. -/
def ufFind (fuel : Nat) (parent : Nat → Nat) (x : Nat) : Nat × (Nat → Nat) :=
  let root := findRoot parent fuel x
  (root, compressPath root fuel parent x)

/-- `union` from `community.ts` (arbitrary-root union, no rank). -/
def ufUnion (fuel : Nat) (parent : Nat → Nat) (a b : Nat) : Nat → Nat :=
  let fa := ufFind fuel parent a
  let fb := ufFind fuel fa.2 b
  if fa.1 ≠ fb.1 then Function.update fb.2 fa.1 fb.1 else fb.2

/-- Numbering pass: assign sequential community ids to roots in first-seen
order (iterating document ids in table order); threads the compressed map. -/
def assignRoots (fuel : Nat) :
    List Nat → (Nat → Nat) → List (Nat × Nat) → Nat →
      (List (Nat × Nat) × Nat × (Nat → Nat))
  | [], parent, rootToId, nextId => (rootToId, nextId, parent)
  | id :: rest, parent, rootToId, nextId =>
    let f := ufFind fuel parent id
    match alistGet rootToId f.1 with
    | some _ => assignRoots fuel rest f.2 rootToId nextId
    | none => assignRoots fuel rest f.2 (alistSet rootToId f.1 nextId) (nextId + 1)

/-- Grouping pass: `communityToIds`. -/
def groupCommunities (fuel : Nat) (rootToId : List (Nat × Nat)) :
    List Nat → (Nat → Nat) → List (Nat × List Nat) →
      (List (Nat × List Nat) × (Nat → Nat))
  | [], parent, acc => (acc, parent)
  | id :: rest, parent, acc =>
    let f := ufFind fuel parent id
    match alistGet rootToId f.1 with
    | some cId =>
      match alistGet acc cId with
      | some existing => groupCommunities fuel rootToId rest f.2 (alistSet acc cId (existing ++ [id]))
      | none => groupCommunities fuel rootToId rest f.2 (alistSet acc cId [id])
    | none => groupCommunities fuel rootToId rest f.2 acc

/-- `UPDATE documents SET community_id = cId WHERE id = ANY(batch)`. -/
def updateCommunity (db : Db) (ids : List Nat) (cId : Nat) : Db :=
  { db with documents := db.documents.map fun d =>
      if d.id ∈ ids then { d with communityId := some cId } else d }

/-- The write-back loop, in batches of 500 per community. -/
def writeCommunities (db : Db) (groups : List (Nat × List Nat)) : Db :=
  groups.foldl (fun acc g =>
    (chunksOf 500 g.2).foldl (fun acc2 batch => updateCommunity acc2 batch g.1) acc) db

/-- `detectCommunities` from `community.ts`.  Returns the community count and
the updated database. -/
def detectCommunities (db : Db) : Nat × Db :=
  if db.documents.isEmpty then (0, db)
  else
    let allIds := db.documents.map (·.id)
    let relRows := db.documentRelations
    let fuel := allIds.length + 2 * relRows.length + 1
    let parent0 : Nat → Nat := fun x => x
    let parent1 := relRows.foldl (fun p r => ufUnion fuel p r.sourceId r.targetId) parent0
    let asg := assignRoots fuel allIds parent1 [] 0
    let grp := groupCommunities fuel asg.1 allIds asg.2.2 []
    (asg.1.length, writeCommunities db grp.1)

/-! ## Ingest pipeline (`ingest.ts`) -/

/-- `Doc` from `types.ts`. -/
structure Doc where
  content : Str
  metadata : Option (List (Str × Str))
  title : Str

/-- `RelationTarget`: a bare title string or `{title, type?, weight?}`. -/
inductive RelTarget
  | plain (title : Str)
  | rich (title : Str) (rtype : Option Str) (weight : Option ℚ)

/-- `parseRelTarget` from `ingest.ts`, normalised to `(title, type?, weight?)`. -/
def parseRelTarget : RelTarget → Str × Option Str × Option ℚ
  | .plain t => (t, none, none)
  | .rich t ty w => (t, ty, w)

/-- A chunk occurrence recorded in the dedup map. -/
structure SrcRef where
  docId : Nat
  endIndex : Nat
  startIndex : Nat

/-- `DedupEntry` from `ingest.ts`. -/
structure DedupEntry where
  embedding : Option (List ℚ)
  sources : List SrcRef
  text : Str
  textHash : Str
  tokenCount : Nat

/-- `IngestConfig` from `types.ts` (`onProgress` is a pure side effect with no
observable state and is omitted; `relations` is `Object.entries` order). -/
structure IngestConfig where
  backupPath : Option Str
  batchSize : Option Nat
  chunk : Option ChunkConfig
  embed : List Str → List (List ℚ)
  relations : Option (List (Str × List RelTarget))
  transformChunk : Option (Str → Doc → Str)

/-- `IngestResult` from `types.ts`. -/
structure IngestResult where
  chunksInserted : Nat
  chunksReused : Nat
  communitiesDetected : Nat
  documentsInserted : Nat
  duplicatesSkipped : Nat
  relationsInserted : Nat
  unresolvedRelations : List Str
deriving Repr, DecidableEq

/-- `BackupChunk` from `types.ts`. -/
structure BackupChunk where
  embedding : List ℚ
  endIndex : Nat
  startIndex : Nat
  text : Str
  tokenCount : Nat
deriving Repr, DecidableEq

/-- `BackupDoc` from `types.ts` (`relations` strings are the plain form). -/
structure BackupDoc where
  chunks : List BackupChunk
  communityId : Option Nat
  content : Str
  contentHash : Str
  metadata : List (Str × Str)
  relations : Option (List (Str × Option Str × Option ℚ))
  title : Str

/-- Accumulator of the per-document loop of `ingest`. -/
structure IngestAcc where
  documentsInserted : Nat
  duplicatesSkipped : Nat
  dedupMap : List (Str × DedupEntry)
  backupEntries : List (Str × Doc)
  titleToNewIds : List (Str × List Nat)

/-- Record one document's chunks into the dedup map. -/
def recordChunks (hash : Str → Str) (cfg : IngestConfig) (doc : Doc) (docId : Nat)
    (dedupMap : List (Str × DedupEntry)) : List (Str × DedupEntry) :=
  (chunkText doc.content cfg.chunk).foldl (fun m c =>
    let finalText := match cfg.transformChunk with
      | some f => f c.text doc
      | none => c.text
    let h := hash finalText
    match alistGet m h with
    | some entry =>
      alistSet m h { entry with sources := entry.sources ++ [⟨docId, c.endIndex, c.startIndex⟩] }
    | none =>
      alistSet m h ⟨none, [⟨docId, c.endIndex, c.startIndex⟩], finalText, h, c.tokenCount⟩)
    dedupMap

/-- The per-document loop of `ingest` (step 1): content-hash dedup, document
insert, chunking into the dedup map. -/
def ingestDocsLoop (hash : Str → Str) (cfg : IngestConfig) :
    List Doc → Db → IngestAcc → IngestAcc × Db
  | [], db, acc => (acc, db)
  | doc :: rest, db, acc =>
    let contentHash := hash (doc.title ++ doc.content)
    let existing := (db.documents.filter fun d => d.contentHash = contentHash).take 1
    if existing.isEmpty then
      let newId := db.nextDocId
      let db' := { db with
        documents := db.documents ++
          [⟨newId, doc.title, doc.content, contentHash, doc.metadata.getD [], none⟩],
        nextDocId := newId + 1 }
      let titleIds := match alistGet acc.titleToNewIds doc.title with
        | some ids => alistSet acc.titleToNewIds doc.title (ids ++ [newId])
        | none => alistSet acc.titleToNewIds doc.title [newId]
      let dedupMap' := recordChunks hash cfg doc newId acc.dedupMap
      ingestDocsLoop hash cfg rest db'
        { documentsInserted := acc.documentsInserted + 1,
          duplicatesSkipped := acc.duplicatesSkipped,
          dedupMap := dedupMap',
          backupEntries := acc.backupEntries ++ [(contentHash, doc)],
          titleToNewIds := titleIds }
    else
      ingestDocsLoop hash cfg rest db
        { acc with duplicatesSkipped := acc.duplicatesSkipped + 1 }

/-- Step 2: the batched lookup of already-present chunk texts (a JS `Set`,
modelled as a first-occurrence list). -/
def lookupExistingHashes (db : Db) (allHashes : List Str) : List Str :=
  if allHashes.isEmpty then []
  else
    firstOccur ((chunksOf 500 allHashes).flatMap fun batch =>
      ((db.chunks.filter fun c => c.textHash ∈ batch).map (·.textHash)))

/-- Step 3: embed the new texts in input-order batches of `batchSize` and
store the vectors on the entries (the embed contract returns one vector per
input text). -/
def embedNewEntries (embed : List Str → List (List ℚ)) (batchSize : Nat)
    (newEntries : List DedupEntry) : List DedupEntry :=
  let embeddings := (chunksOf batchSize (newEntries.map (·.text))).flatMap embed
  (newEntries.enum).map fun p =>
    match embeddings[p.1]? with
    | some emb => { p.2 with embedding := some emb }
    | none => p.2

/-- Step 4a: insert the new chunk rows with `ON CONFLICT (text_hash) DO
NOTHING` (the conflict check also sees rows inserted earlier in the loop). -/
def insertChunkRows (db : Db) (rows : List (Str × Str × Nat × List ℚ)) : Db :=
  rows.foldl (fun acc row =>
    if acc.chunks.any fun c => c.textHash = row.2.1 then acc
    else { acc with
      chunks := acc.chunks ++ [⟨acc.nextChunkId, row.1, row.2.1, row.2.2.1, row.2.2.2⟩],
      nextChunkId := acc.nextChunkId + 1 }) db

/-- Step 4b: re-fetch `text_hash → chunk_id` for every hash in the dedup map
(batches of 500; later rows overwrite). -/
def fetchHashToId (db : Db) (allHashes : List Str) : List (Str × Nat) :=
  (chunksOf 500 allHashes).foldl (fun m batch =>
    (db.chunks.filter fun c => c.textHash ∈ batch).foldl
      (fun m2 c => alistSet m2 c.textHash c.id) m) []

/-- Step 5: insert the junction rows. -/
def insertSourceRows (db : Db) (rows : List (Nat × Nat × Nat × Nat)) : Db :=
  rows.foldl (fun acc row =>
    { acc with
      chunkSources := acc.chunkSources ++ [⟨acc.nextCsId, row.1, row.2.1, row.2.2.2, row.2.2.1⟩],
      nextCsId := acc.nextCsId + 1 }) db

/-- Step 7: the backup append loop (one `BackupDoc` line per newly inserted
document; chunks re-derived by re-running the chunker). -/
def buildBackupLines (hash : Str → Str) (cfg : IngestConfig) (db : Db)
    (newEntries : List DedupEntry) (existingHashes : List Str)
    (backupEntries : List (Str × Doc)) : List BackupDoc :=
  let hashToEmbedding0 := newEntries.foldl (fun m e =>
    match e.embedding with
    | some emb => alistSet m e.textHash emb
    | none => m) []
  let hashToEmbedding :=
    if existingHashes.isEmpty then hashToEmbedding0
    else
      (chunksOf 500 existingHashes).foldl (fun m batch =>
        (db.chunks.filter fun c => c.textHash ∈ batch).foldl
          (fun m2 c => alistSet m2 c.textHash c.embedding) m) hashToEmbedding0
  backupEntries.map fun be =>
    let backupChunks := (chunkText be.2.content cfg.chunk).foldl (fun acc c =>
      let finalText := match cfg.transformChunk with
        | some f => f c.text be.2
        | none => c.text
      match alistGet hashToEmbedding (hash finalText) with
      | some emb => acc ++ [⟨emb, c.endIndex, c.startIndex, finalText, c.tokenCount⟩]
      | none => acc) []
    ⟨backupChunks, none, be.2.content, be.1, be.2.metadata.getD [], none, be.2.title⟩

/-- Step 8: resolve relation targets to document ids and insert relation rows
with `ON CONFLICT (source_id, target_id) DO NOTHING`; returns the inserted
count, the unresolved titles (before final dedup) and the new state. -/
def insertRelations (db : Db) (titleToNewIds : List (Str × List Nat))
    (relations : List (Str × List RelTarget)) : Nat × List Str × Db :=
  let titleToAllIds0 := titleToNewIds.map fun kv => (kv.1, kv.2)
  let allRelationTitles := firstOccur (relations.flatMap fun kv =>
    kv.1 :: kv.2.map fun t => (parseRelTarget t).1)
  let missingTitles := allRelationTitles.filter fun t =>
    (alistGet titleToAllIds0 t).isNone
  let titleToAllIds :=
    if missingTitles.isEmpty then titleToAllIds0
    else
      (chunksOf 500 missingTitles).foldl (fun m batch =>
        (db.documents.filter fun d => d.title ∈ batch).foldl
          (fun m2 d =>
            match alistGet m2 d.title with
            | some ids => alistSet m2 d.title (ids ++ [d.id])
            | none => alistSet m2 d.title [d.id]) m) titleToAllIds0
  let resolved := relations.foldl (fun acc kv =>
    match alistGet titleToAllIds kv.1 with
    | none => acc
    | some sourceIds =>
      kv.2.foldl (fun acc2 raw =>
        let target := parseRelTarget raw
        if target.1 = kv.1 then acc2
        else
          match alistGet titleToAllIds target.1 with
          | some targetIds =>
            (acc2.1 ++ sourceIds.flatMap fun sId =>
              targetIds.map fun tId => (sId, tId, target.2.1, target.2.2), acc2.2)
          | none => (acc2.1, acc2.2 ++ [target.1])) acc)
    (([] : List (Nat × Nat × Option Str × Option ℚ)), ([] : List Str))
  let ins := resolved.1.foldl (fun st row =>
    if st.2.documentRelations.any fun r =>
        r.sourceId = row.1 ∧ r.targetId = row.2.1 then st
    else
      (st.1 + 1,
        { st.2 with
          documentRelations := st.2.documentRelations ++
            [⟨st.2.nextRelId, row.1, row.2.1, row.2.2.1, some ((row.2.2.2).getD 1)⟩],
          nextRelId := st.2.nextRelId + 1 })) ((0 : Nat), db)
  (ins.1, resolved.2, ins.2)

/-- `ingest` from `ingest.ts`.  Returns the result record, the backup lines
appended to `backup_path` (empty when unset), and the final state. -/
def ingest (hash : Str → Str) (db : Db) (docs : List Doc) (cfg : IngestConfig) :
    IngestResult × List BackupDoc × Db :=
  let step1 := ingestDocsLoop hash cfg docs db ⟨0, 0, [], [], []⟩
  let acc := step1.1
  let db1 := step1.2
  let uniqueEntries := acc.dedupMap.map (·.2)
  let allHashes := uniqueEntries.map (·.textHash)
  let existingHashes := lookupExistingHashes db1 allHashes
  let newEntries0 := uniqueEntries.filter fun e => e.textHash ∉ existingHashes
  let newEntries := embedNewEntries cfg.embed (cfg.batchSize.getD 64) newEntries0
  let chunkRows := newEntries.filterMap fun e =>
    e.embedding.map fun emb => (e.text, e.textHash, e.tokenCount, emb)
  let db2 := if chunkRows.isEmpty then db1 else
    (chunksOf 500 chunkRows).foldl insertChunkRows db1
  let hashToId := if allHashes.isEmpty then [] else fetchHashToId db2 allHashes
  let sourceRows := uniqueEntries.flatMap fun e =>
    match alistGet hashToId e.textHash with
    | some cid => e.sources.map fun s => (cid, s.docId, s.endIndex, s.startIndex)
    | none => []
  let db3 := if sourceRows.isEmpty then db2 else
    (chunksOf 500 sourceRows).foldl insertSourceRows db2
  let chunksInserted := chunkRows.length
  let chunksReused := existingHashes.length
  let backupLines := match cfg.backupPath with
    | some _ => buildBackupLines hash cfg db3 newEntries existingHashes acc.backupEntries
    | none => []
  let rel := match cfg.relations with
    | some relations => insertRelations db3 acc.titleToNewIds relations
    | none => (0, [], db3)
  let comm := match cfg.relations with
    | some _ => detectCommunities rel.2.2
    | none => (0, rel.2.2)
  (⟨chunksInserted, chunksReused, comm.1, acc.documentsInserted,
    acc.duplicatesSkipped, rel.1, firstOccur rel.2.1⟩,
   backupLines, comm.2)

/-! ## Backup import (`backup.ts`)

`importBackup` is modelled past the file/JSON boundary: the parsed non-empty
lines are a `List BackupDoc` (with `relations` already normalised to the
`{title, type?, weight?}` form, as `normalizeRelations` does for the plain
string form).  Database inserts inside the per-document transaction are
fallible: an oracle `InsOp → Bool` says which primitive insert raises a
`DatabaseError`.  `db.transaction` semantics: if the body fails, the state is
rolled back to the state at transaction start, and the error propagates
(the source has no catch around the transaction). -/

/-- The fallible inserts inside the per-document import transaction. -/
inductive InsOp
  | doc (contentHash : Str)
  | chunk (textHash : Str)
  | src (chunkId : Nat) (docId : Nat)

/-- Warnings are accumulated as a count (their text is log-formatting only). -/
structure ImportCounters where
  documentsImported : Nat
  chunksInserted : Nat
  duplicatesSkipped : Nat
  warnings : Nat
deriving Repr, DecidableEq

/-- The document insert inside the transaction. -/
def txInsertDocument (o : InsOp → Bool) (db : Db) (doc : BackupDoc) :
    Except Unit (Nat × Db) :=
  if o (.doc doc.contentHash) then .error ()
  else .ok (db.nextDocId,
    { db with
      documents := db.documents ++
        [⟨db.nextDocId, doc.title, doc.content, doc.contentHash, doc.metadata,
          doc.communityId⟩],
      nextDocId := db.nextDocId + 1 })

/-- The per-chunk loop inside the transaction: chunk insert with
`ON CONFLICT (text_hash) DO NOTHING`, chunk-id lookup, junction insert. -/
def txChunkLoop (o : InsOp → Bool) (hash : Str → Str) (docId : Nat) :
    List BackupChunk → Nat × Db → Except Unit (Nat × Db)
  | [], st => .ok st
  | c :: rest, (cnt, db) =>
    let textHash := hash c.text
    if o (.chunk textHash) then .error ()
    else
      let db1 :=
        if db.chunks.any fun ch => ch.textHash = textHash then db
        else { db with
          chunks := db.chunks ++ [⟨db.nextChunkId, c.text, textHash, c.tokenCount, c.embedding⟩],
          nextChunkId := db.nextChunkId + 1 }
      match (db1.chunks.filter fun ch => ch.textHash = textHash).head? with
      | some crow =>
        if o (.src crow.id docId) then .error ()
        else
          txChunkLoop o hash docId rest (cnt + 1,
            { db1 with
              chunkSources := db1.chunkSources ++
                [⟨db1.nextCsId, crow.id, docId, c.startIndex, c.endIndex⟩],
              nextCsId := db1.nextCsId + 1 })
      | none => txChunkLoop o hash docId rest (cnt, db1)

/-- The body of the per-document `db.transaction`. -/
def importDocTx (o : InsOp → Bool) (hash : Str → Str) (db : Db) (doc : BackupDoc) :
    Except Unit (Nat × Db) :=
  match txInsertDocument o db doc with
  | .error e => .error e
  | .ok st => txChunkLoop o hash st.1 doc.chunks (0, st.2)

/-- The dimension-mismatch check of the import loop (first chunk only). -/
def dimMismatch (dimension : Option Nat) (doc : BackupDoc) : Bool :=
  match dimension, doc.chunks.head? with
  | some d, some firstChunk => firstChunk.embedding.length != d
  | _, _ => false

/-- The document loop of `importBackup` (dimension skip, duplicate skip, or
one transaction per document).  A failing transaction rolls the state back to
its start and aborts the import with that state. -/
def importDocsLoop (o : InsOp → Bool) (hash : Str → Str) (dimension : Option Nat) :
    List BackupDoc → Db → ImportCounters → Except (Unit × Db) (ImportCounters × Db)
  | [], db, cnts => .ok (cnts, db)
  | doc :: rest, db, cnts =>
    if dimMismatch dimension doc then
      importDocsLoop o hash dimension rest db
        { cnts with warnings := cnts.warnings + 1 }
    else if ((db.documents.filter fun d => d.contentHash = doc.contentHash).take 1).isEmpty then
      match importDocTx o hash db doc with
      | .error _ => .error ((), db)
      | .ok st =>
        importDocsLoop o hash dimension rest st.2
          { cnts with
            chunksInserted := cnts.chunksInserted + st.1,
            documentsImported := cnts.documentsImported + 1 }
    else
      importDocsLoop o hash dimension rest db
        { cnts with
          duplicatesSkipped := cnts.duplicatesSkipped + 1,
          warnings := cnts.warnings + 1 }

/-- `validateBackupLines`, past the JSON boundary: empty `title` / `content` /
`contentHash` are the falsy-field errors; every chunk contributes its
embedding dimension.  `valid` ignores duplicate hashes. -/
def validateBackupDocs (docs : List BackupDoc) : Bool :=
  let errors := docs.foldl (fun n doc =>
    n + (if doc.title.isEmpty then 1 else 0) +
      (if doc.content.isEmpty then 1 else 0) +
      (if doc.contentHash.isEmpty then 1 else 0)) 0
  let dims := firstOccur (docs.flatMap fun d => d.chunks.map fun c => c.embedding.length)
  errors = 0 && dims.length ≤ 1

/-- The `titleToImportedIds` pass: look each line's document up by content hash
(limit 1) and file its id under the line's title. -/
def buildTitleToImportedIds (db : Db) (docs : List BackupDoc) : List (Str × List Nat) :=
  docs.foldl (fun m doc =>
    match ((db.documents.filter fun d => d.contentHash = doc.contentHash).take 1).head? with
    | some row =>
      match alistGet m doc.title with
      | some ids => alistSet m doc.title (ids ++ [row.id])
      | none => alistSet m doc.title [row.id]
    | none => m) []

/-- The relation pass of `importBackup`: skip targets equal to the line's own
title, cartesian insert with `ON CONFLICT DO NOTHING`. -/
def importRelations (docs : List BackupDoc) (titleToImportedIds : List (Str × List Nat))
    (db : Db) : Db :=
  docs.foldl (fun acc doc =>
    match doc.relations with
    | none => acc
    | some rels =>
      if rels.isEmpty then acc
      else
        match alistGet titleToImportedIds doc.title with
        | none => acc
        | some sourceIds =>
          rels.foldl (fun acc2 rel =>
            if rel.1 = doc.title then acc2
            else
              match alistGet titleToImportedIds rel.1 with
              | none => acc2
              | some targetIds =>
                (sourceIds.flatMap fun sId => targetIds.map fun tId => (sId, tId)).foldl
                  (fun acc3 pr =>
                    if acc3.documentRelations.any fun r =>
                        r.sourceId = pr.1 ∧ r.targetId = pr.2 then acc3
                    else
                      { acc3 with
                        documentRelations := acc3.documentRelations ++
                          [⟨acc3.nextRelId, pr.1, pr.2, rel.2.1, some ((rel.2.2).getD 1)⟩],
                        nextRelId := acc3.nextRelId + 1 }) acc2) acc) db

/-- `importBackup` from `backup.ts` (past the file boundary).  Throws
(`Except.error`) on validation failure, carrying the untouched state; a
failed per-document transaction propagates with the state rolled back to
that document's start. -/
def importBackup (o : InsOp → Bool) (hash : Str → Str) (db : Db)
    (docs : List BackupDoc) (dimension : Option Nat) :
    Except (Unit × Db) (ImportCounters × Db) :=
  if !validateBackupDocs docs then .error ((), db)
  else
    match importDocsLoop o hash dimension docs db ⟨0, 0, 0, 0⟩ with
    | .error e => .error e
    | .ok st =>
      let titleToImportedIds := buildTitleToImportedIds st.2 docs
      .ok (st.1, importRelations docs titleToImportedIds st.2)

/-- The document fields never touched by community write-back. -/
def docCore (d : DocRow) : Nat × Str × Str × Str × List (Str × Str) :=
  (d.id, d.title, d.content, d.contentHash, d.metadata)

/-- A database already holding the document `T` (content hash is the identity
hash of title ++ content). -/
def exIngestDb : Db :=
  ⟨[⟨1, "T".data, "body".data, "Tbody".data, [], none⟩], [], [], [], 2, 1, 1, 1⟩

def exIngestDoc : Doc := ⟨"body".data, none, "T".data⟩

def exIngestCfg : IngestConfig :=
  ⟨none, none, none, fun ts => ts.map fun _ => [1], none, none⟩

/-- An insert oracle on which every chunk insert raises a database error. -/
def oFailChunk : InsOp → Bool := fun op =>
  match op with
  | .chunk _ => true
  | _ => false

def exImportDocC : BackupDoc :=
  ⟨[⟨[], 0, 0, "t".data, 1⟩], none, "c".data, "h".data, [], none, "D".data⟩

/-- First crafted backup line: title `A`, relation to `B`, content hash `h`. -/
def exBackupA : BackupDoc :=
  ⟨[], none, "x".data, "h".data, [], some [("B".data, none, none)], "A".data⟩

/-- Second crafted backup line: title `B` but the same content hash `h`. -/
def exBackupB : BackupDoc :=
  ⟨[], none, "y".data, "h".data, [], none, "B".data⟩

/-! ### Self-relation invariant machinery (C6) -/

/-- No relation row relates a document to itself. -/
def NoSelfRel (db : Db) : Prop :=
  ∀ r ∈ db.documentRelations, r.sourceId ≠ r.targetId

/-- Primary-key well-formedness of `documents`: distinct ids, all below the
serial counter. -/
def IdsOk (db : Db) : Prop :=
  (db.documents.map (·.id)).Nodup ∧ ∀ row ∈ db.documents, row.id < db.nextDocId

/-- Every id filed under a title belongs to a document row with that title. -/
def TitleMapOk (m : List (Str × List Nat)) (db : Db) : Prop :=
  ∀ kv ∈ m, ∀ id ∈ kv.2, ∃ row ∈ db.documents, row.id = id ∧ row.title = kv.1

/-- The final state of an import run, whether it aborted or completed. -/
def importState : Except (Unit × Db) (ImportCounters × Db) → Db
  | .error (_, db) => db
  | .ok (_, db) => db

/-- A one-document input for exercising the invariant on a concrete run. -/
def exC6Doc : Doc := ⟨"d".data, none, "T".data⟩

/-- A config with relations enabled, so the concrete run exercises
`insertRelations` and community detection. -/
def exC6Cfg : IngestConfig :=
  ⟨none, none, none, fun ts => ts.map fun _ => [1],
    some [("T".data, [.plain "U".data])], none⟩

/-! ### Union-find invariants -/

/-- Every parent chain reaches a fixpoint within `n` steps. -/
def ufBnd (p : Nat → Nat) (n : Nat) : Prop :=
  ∀ x, p (p^[n] x) = p^[n] x

/-- One undirected edge of the relation graph. -/
def relStep (db : Db) (a b : Nat) : Prop :=
  ∃ r ∈ db.documentRelations,
    (r.sourceId = a ∧ r.targetId = b) ∨ (r.sourceId = b ∧ r.targetId = a)

/-- Connectivity in the undirected relation graph. -/
def Conn (db : Db) : Nat → Nat → Prop := Relation.EqvGen (relStep db)

/-- Every parent pointer stays inside the node's connected component. -/
def ufSound (db : Db) (p : Nat → Nat) : Prop :=
  ∀ x, Conn db x (p x)

/-! ### Association list lemmas -/

/-- Three documents, one relation `1 → 2`, document 3 isolated. -/
def exC1Db : Db :=
  ⟨[⟨1, "a".data, "x".data, "hx".data, [], none⟩,
    ⟨2, "b".data, "y".data, "hy".data, [], none⟩,
    ⟨3, "c".data, "z".data, "hz".data, [], none⟩],
   [], [], [⟨1, 1, 2, none, none⟩], 4, 1, 1, 2⟩

/-! ## Theorems -/

theorem strIndexOfGo_ge (needle : Str) :
    ∀ (s : Str) (i j : Nat), strIndexOfGo needle i s = some j → i ≤ j := by
  intro s
  induction s with
  | nil =>
    intro i j h
    rw [strIndexOfGo] at h
    split at h
    · exact le_of_eq (Option.some_injective _ h)
    · exact absurd h (by simp)
  | cons c rest ih =>
    intro i j h
    rw [strIndexOfGo] at h
    split at h
    · exact le_of_eq (Option.some_injective _ h)
    · exact le_trans (Nat.le_succ i) (ih (i + 1) j h)

theorem buildOutputsGo_end (source : Str) :
    ∀ (cs : List Str) (offset : Nat), ∀ c ∈ buildOutputsGo source offset cs,
      c.endIndex = c.startIndex + c.text.length := by
  intro cs
  induction cs with
  | nil => intro offset c h; simp [buildOutputsGo] at h
  | cons chunk rest ih =>
    intro offset c h
    rw [buildOutputsGo] at h
    rcases List.mem_cons.mp h with h1 | h2
    · subst h1; rfl
    · exact ih _ c h2

theorem buildOutputsGo_text_mem (source : Str) :
    ∀ (cs : List Str) (offset : Nat), ∀ c ∈ buildOutputsGo source offset cs,
      c.text ∈ cs := by
  intro cs
  induction cs with
  | nil => intro offset c h; simp [buildOutputsGo] at h
  | cons chunk rest ih =>
    intro offset c h
    rw [buildOutputsGo] at h
    rcases List.mem_cons.mp h with h1 | h2
    · subst h1; exact List.mem_cons_self _ _
    · exact List.mem_cons_of_mem _ (ih _ c h2)

theorem buildOutputsGo_start_ge (source : Str) :
    ∀ (cs : List Str) (offset : Nat), (∀ s' ∈ cs, 11 ≤ s'.length) →
      ∀ c ∈ buildOutputsGo source offset cs, offset ≤ c.startIndex + 10 := by
  intro cs
  induction cs with
  | nil => intro offset _ c h; simp [buildOutputsGo] at h
  | cons chunk rest ih =>
    intro offset hlen c h
    rw [buildOutputsGo] at h
    have hstart : offset ≤ (match strIndexOf source (chunk.take 80) (offset - 10) with
        | none => offset | some i => i) + 10 := by
      cases hidx : strIndexOf source (chunk.take 80) (offset - 10) with
      | none => simp
      | some i =>
        have := strIndexOfGo_ge (chunk.take 80) _ _ _ hidx
        simp only []
        omega
    rcases List.mem_cons.mp h with h1 | h2
    · subst h1; exact hstart
    · have hch : 11 ≤ chunk.length := hlen chunk (List.mem_cons_self _ _)
      have := ih _ (fun s' hs' => hlen s' (List.mem_cons_of_mem _ hs')) c h2
      omega

theorem buildOutputsGo_pairwise (source : Str) :
    ∀ (cs : List Str) (offset : Nat), (∀ s' ∈ cs, 11 ≤ s'.length) →
      List.Pairwise (fun a b => a.startIndex < b.startIndex)
        (buildOutputsGo source offset cs) := by
  intro cs
  induction cs with
  | nil => intro offset _; simp [buildOutputsGo]
  | cons chunk rest ih =>
    intro offset hlen
    rw [buildOutputsGo]
    constructor
    · intro c hc
      have hch : 11 ≤ chunk.length := hlen chunk (List.mem_cons_self _ _)
      have := buildOutputsGo_start_ge source rest _
        (fun s' hs' => hlen s' (List.mem_cons_of_mem _ hs')) c hc
      simp only [] at this ⊢
      omega
    · exact ih _ (fun s' hs' => hlen s' (List.mem_cons_of_mem _ hs'))

theorem chunkText_filter_len (text : Str) (config : Option ChunkConfig) :
    ∀ c ∈ chunkText text config, 50 ≤ c.text.length ∧ reOcrGarbage c.text = false := by
  intro c hc
  unfold chunkText at hc
  have hmem := buildOutputsGo_text_mem _ _ _ c hc
  rw [List.mem_filter] at hmem
  obtain ⟨-, hp⟩ := hmem
  simp only [Bool.and_eq_true, decide_eq_true_eq, Bool.not_eq_true'] at hp
  exact ⟨hp.1, hp.2⟩

/-- C8: every `chunkText` output list has strictly increasing `start_index`
values, and each chunk's `end_index` equals `start_index` plus the length of
its text. -/
theorem chunkText_offsets (text : Str) (config : Option ChunkConfig) :
    List.Pairwise (fun a b => a.startIndex < b.startIndex) (chunkText text config) ∧
      ∀ c ∈ chunkText text config, c.endIndex = c.startIndex + c.text.length := by
  constructor
  · unfold chunkText
    apply buildOutputsGo_pairwise
    intro s' hs'
    rw [List.mem_filter] at hs'
    simp only [Bool.and_eq_true, decide_eq_true_eq] at hs'
    omega
  · intro c hc
    exact buildOutputsGo_end _ _ _ c hc

theorem chunkText_offsets_witness :
    ((chunkText (List.replicate 70 'a') none).headI.endIndex =
        (chunkText (List.replicate 70 'a') none).headI.startIndex +
          (chunkText (List.replicate 70 'a') none).headI.text.length) :=
  (chunkText_offsets (List.replicate 70 'a') none).2 _ (by decide)

/-- C2 counterexample: with `chunk_size = 60` and no overlap, the input of 70
letters `a` cannot be split at any level (it contains no whitespace), survives
both post-chunk filters (length 70 ≥ 50 and 70 < 200), and is emitted as a
single chunk of length 70 > chunk_size. -/
theorem chunkText_chunk_size_violated :
    ¬ ∀ c ∈ chunkText (List.replicate 70 'a') (some ⟨some 60, none, none⟩),
        c.text.length ≤ 60 := by
  decide

theorem wsfree_takeWhile_pos (c : Char) (rest : Str) (h : jsWhitespace c = true) :
    ((c :: rest).takeWhile jsWhitespace).length ≠ 0 := by
  simp [List.takeWhile, h]

theorem sepSplitGo_ne_nil (m : Option Char → Str → Nat) :
    ∀ (fuel : Nat) (prev : Option Char) (acc s : Str),
      1 ≤ (sepSplitGo m fuel prev acc s).length := by
  intro fuel
  induction fuel with
  | zero => intro prev acc s; simp [sepSplitGo]
  | succ n ih =>
    intro prev acc s
    match s with
    | [] => simp [sepSplitGo]
    | c :: rest =>
      rw [sepSplitGo]
      split
      · exact ih _ _ _
      · simp

theorem sepSplitGo_mWs_wsfree :
    ∀ (fuel : Nat) (prev : Option Char) (acc s : Str),
      (∀ a ∈ acc, jsWhitespace a = false) →
      ∀ p ∈ sepSplitGo mWs fuel prev acc s, ∀ a ∈ p, jsWhitespace a = false := by
  intro fuel
  induction fuel with
  | zero =>
    intro prev acc s hacc p hp a ha
    simp only [sepSplitGo, List.mem_singleton] at hp
    subst hp
    exact hacc a (List.mem_reverse.mp ha)
  | succ n ih =>
    intro prev acc s hacc p hp a ha
    match s with
    | [] =>
      simp only [sepSplitGo, List.mem_singleton] at hp
      subst hp
      exact hacc a (List.mem_reverse.mp ha)
    | c :: rest =>
      rw [sepSplitGo] at hp
      split at hp
      · rename_i hz
        have hc : jsWhitespace c = false := by
          by_contra hcc
          rw [Bool.not_eq_false] at hcc
          simp [mWs, List.takeWhile_cons, hcc] at hz
        refine ih _ _ _ ?_ p hp a ha
        intro x hx
        rcases List.mem_cons.mp hx with h1 | h2
        · subst h1; exact hc
        · exact hacc x h2
      · rcases List.mem_cons.mp hp with h1 | h2
        · subst h1
          exact hacc a (List.mem_reverse.mp ha)
        · exact ih _ _ _ (by intro x hx; cases hx) p h2 a ha

theorem sepSplitGo_mWs_two :
    ∀ (fuel : Nat) (prev : Option Char) (acc s : Str),
      s.length ≤ fuel → (∃ a ∈ s, jsWhitespace a = true) →
      2 ≤ (sepSplitGo mWs fuel prev acc s).length := by
  intro fuel
  induction fuel with
  | zero =>
    intro prev acc s hle hex
    obtain ⟨a, ha, -⟩ := hex
    interval_cases h : s.length
    · rw [List.length_eq_zero] at h; subst h; cases ha
  | succ n ih =>
    intro prev acc s hle hex
    match s with
    | [] => obtain ⟨a, ha, -⟩ := hex; cases ha
    | c :: rest =>
      rw [sepSplitGo]
      split
      · rename_i hz
        have hc : jsWhitespace c = false := by
          by_contra hcc
          rw [Bool.not_eq_false] at hcc
          simp [mWs, List.takeWhile_cons, hcc] at hz
        apply ih
        · simpa using hle
        · obtain ⟨a, ha, hwa⟩ := hex
          rcases List.mem_cons.mp ha with h1 | h2
          · subst h1; rw [hwa] at hc; cases hc
          · exact ⟨a, h2, hwa⟩
      · have := sepSplitGo_ne_nil mWs n (((c :: rest).take (mWs prev (c :: rest))).getLast?)
          [] ((c :: rest).drop (mWs prev (c :: rest)))
        simp only [List.length_cons]
        omega

theorem splitWsLevel_wsfree (s : Str) :
    ∀ p ∈ splitWsLevel s, ∀ a ∈ p, jsWhitespace a = false :=
  sepSplitGo_mWs_wsfree s.length none [] s (by intro a ha; cases ha)

theorem splitWsLevel_single (s : Str) (h : (splitWsLevel s).length ≤ 1) :
    ∀ a ∈ s, jsWhitespace a = false := by
  intro a ha
  by_contra hcc
  rw [Bool.not_eq_false] at hcc
  have := sepSplitGo_mWs_two s.length none [] s le_rfl ⟨a, ha, hcc⟩
  rw [splitWsLevel] at h
  omega

theorem splitAtLevels_mem_src (maxSize : Nat) :
    ∀ (levels : List (Str → List Str)) (text : Str),
      ∀ p ∈ splitAtLevels maxSize (levels ++ [splitWsLevel]) text,
        p.length ≤ maxSize ∨ ∀ a ∈ p, jsWhitespace a = false := by
  intro levels
  induction levels with
  | nil =>
    intro text p hp
    rw [List.nil_append, splitAtLevels] at hp
    split at hp
    · rw [List.mem_singleton] at hp; subst hp; left; assumption
    · rename_i hbig
      split at hp
      · rename_i hone
        rw [splitAtLevels] at hp
        split at hp
        · rw [List.mem_singleton] at hp; subst hp; left; assumption
        · rw [List.mem_singleton] at hp; subst hp
          right; exact splitWsLevel_single _ hone
      · rw [List.mem_flatMap] at hp
        obtain ⟨q, hq, hpq⟩ := hp
        split at hpq
        · cases hpq
        · split at hpq
          · rw [List.mem_singleton] at hpq; subst hpq; left; assumption
          · rw [splitAtLevels] at hpq
            split at hpq
            · rw [List.mem_singleton] at hpq; subst hpq; left; assumption
            · rw [List.mem_singleton] at hpq; subst hpq
              right; exact fun a ha => splitWsLevel_wsfree _ _ hq a ha
  | cons f rest ih =>
    intro text p hp
    rw [List.cons_append, splitAtLevels] at hp
    split at hp
    · rw [List.mem_singleton] at hp; subst hp; left; assumption
    · split at hp
      · exact ih text p hp
      · rw [List.mem_flatMap] at hp
        obtain ⟨q, hq, hpq⟩ := hp
        split at hpq
        · cases hpq
        · split at hpq
          · rw [List.mem_singleton] at hpq; subst hpq; left; assumption
          · exact ih q p hpq

theorem jsTrim_length_le (s : Str) : (jsTrim s).length ≤ s.length := by
  unfold jsTrim
  calc ((s.dropWhile jsWhitespace).reverse.dropWhile jsWhitespace).reverse.length
      = ((s.dropWhile jsWhitespace).reverse.dropWhile jsWhitespace).length := by
        rw [List.length_reverse]
    _ ≤ (s.dropWhile jsWhitespace).reverse.length :=
        (List.dropWhile_sublist _).length_le
    _ = (s.dropWhile jsWhitespace).length := by rw [List.length_reverse]
    _ ≤ s.length := (List.dropWhile_sublist _).length_le

theorem dropWhile_of_wsfree (s : Str) (h : ∀ a ∈ s, jsWhitespace a = false) :
    s.dropWhile jsWhitespace = s := by
  cases s with
  | nil => rfl
  | cons c rest =>
    rw [List.dropWhile_cons, h c (List.mem_cons_self _ _)]
    simp

theorem jsTrim_of_wsfree (s : Str) (h : ∀ a ∈ s, jsWhitespace a = false) :
    jsTrim s = s := by
  unfold jsTrim
  rw [dropWhile_of_wsfree s h, dropWhile_of_wsfree _ (by
    intro a ha; exact h a (List.mem_reverse.mp ha)), List.reverse_reverse]

theorem mergePiecesGo_src (maxSize : Nat) (P : List Str) :
    ∀ (ps : List Str) (cur : Str),
      (cur.length ≤ maxSize ∨ ∃ p ∈ P, cur = jsTrim p) →
      (∀ q ∈ ps, q ∈ P) →
      ∀ m ∈ mergePiecesGo maxSize cur ps,
        m.length ≤ maxSize ∨ ∃ p ∈ P, m = jsTrim p := by
  intro ps
  induction ps with
  | nil =>
    intro cur hcur _ m hm
    rw [mergePiecesGo] at hm
    split at hm
    · cases hm
    · rw [List.mem_singleton] at hm; subst hm; exact hcur
  | cons p ps ih =>
    intro cur hcur hsub m hm
    rw [mergePiecesGo] at hm
    split at hm
    · exact ih cur hcur (fun q hq => hsub q (List.mem_cons_of_mem _ hq)) m hm
    · split at hm
      · refine ih _ (Or.inr ⟨p, hsub p (List.mem_cons_self _ _), rfl⟩)
          (fun q hq => hsub q (List.mem_cons_of_mem _ hq)) m hm
      · split at hm
        · rename_i hfit
          exact ih _ (Or.inl hfit) (fun q hq => hsub q (List.mem_cons_of_mem _ hq)) m hm
        · rcases List.mem_cons.mp hm with h1 | h2
          · subst h1; exact hcur
          · exact ih _ (Or.inr ⟨p, hsub p (List.mem_cons_self _ _), rfl⟩)
              (fun q hq => hsub q (List.mem_cons_of_mem _ hq)) m h2

theorem runReachGo_of_wsfree :
    ∀ (s : Str) (cnt : Nat), (∀ a ∈ s, jsWhitespace a = false) →
      cnt < 200 → 200 ≤ cnt + s.length → runReachGo 200 cnt s = true := by
  intro s
  induction s with
  | nil => intro cnt _ hc h; simp at h; omega
  | cons c rest ih =>
    intro cnt hfree hcnt hlen
    rw [runReachGo, hfree c (List.mem_cons_self _ _)]
    simp only [Bool.false_eq_true, if_false]
    split
    · rfl
    · rename_i hlt
      apply ih (cnt + 1) (fun a ha => hfree a (List.mem_cons_of_mem _ ha))
      · omega
      · simp only [List.length_cons] at hlen
        omega

/-- C2 (amended): every chunk has length ≥ 50 and no run of ≥ 200
non-whitespace characters; the upper bound `len ≤ chunk_size` additionally
holds whenever `overlap = 0` and `chunk_size ≥ 199` (it fails in general, see
the counterexample). -/
theorem chunkText_length_bounds (text : Str) (config : Option ChunkConfig) :
    ∀ c ∈ chunkText text config,
      50 ≤ c.text.length ∧ reOcrGarbage c.text = false ∧
        ((config.bind (·.overlap)).getD 0 = 0 →
          199 ≤ (config.bind (·.chunkSize)).getD 2048 →
          c.text.length ≤ (config.bind (·.chunkSize)).getD 2048) := by
  intro c hc
  obtain ⟨h50, hocr⟩ := chunkText_filter_len text config c hc
  refine ⟨h50, hocr, ?_⟩
  intro hov hms
  simp only [chunkText] at hc
  rw [hov] at hc
  simp only [Nat.lt_irrefl, if_false] at hc
  have htext := buildOutputsGo_text_mem _ _ _ c hc
  rw [List.mem_filter] at htext
  obtain ⟨hmem, -⟩ := htext
  unfold mergePieces at hmem
  set ms := (config.bind fun x => x.chunkSize).getD 2048 with hmsdef
  have hlev : splitLevelsList =
      [splitHeaderLevel, splitParaLevel, splitSentenceLevel, splitClauseLevel,
        splitNewlineLevel] ++ [splitWsLevel] := rfl
  rcases mergePiecesGo_src ms _ _ [] (Or.inl (by simp)) (fun q hq => hq) c.text hmem with
    hle | ⟨p, hp, heq⟩
  · exact hle
  · rw [hlev] at hp
    rcases splitAtLevels_mem_src ms _ _ p hp with hple | hpfree
    · calc c.text.length = (jsTrim p).length := by rw [heq]
        _ ≤ p.length := jsTrim_length_le p
        _ ≤ ms := hple
    · rw [jsTrim_of_wsfree p hpfree] at heq
      by_contra hgt
      push_neg at hgt
      have hrun : runReachGo 200 0 c.text = true := by
        rw [heq]
        exact runReachGo_of_wsfree p 0 hpfree (by omega)
          (by rw [heq] at hgt; omega)
      rw [reOcrGarbage, hrun] at hocr
      cases hocr

theorem chunkText_length_bounds_witness :
    50 ≤ (chunkText (List.replicate 60 'a') none).headI.text.length ∧
      reOcrGarbage (chunkText (List.replicate 60 'a') none).headI.text = false ∧
      (chunkText (List.replicate 60 'a') none).headI.text.length ≤ 2048 := by
  have h := chunkText_length_bounds (List.replicate 60 'a') none
    (chunkText (List.replicate 60 'a') none).headI (by decide)
  exact ⟨h.1, h.2.1, h.2.2 (by decide) (by decide)⟩

/-- C10: in vector or hybrid mode (also the default mode), when the
caller-supplied embed function returns no embedding for the query text,
`search` returns the empty list immediately: the result does not depend on
the database state (no query is issued) and no expansion runs. -/
theorem search_embed_empty (sim : List ℚ → List ℚ → ℚ) (bdist : Str → Str → ℚ)
    (db : Db) (config : SearchConfig)
    (hmode : config.mode = some SMode.vector ∨ config.mode = some SMode.hybrid ∨
      config.mode = none)
    (hemb : (config.embed [config.vectorQuery.getD config.query]).head? = none) :
    search sim bdist db config = [] := by
  unfold search
  rcases hmode with h | h | h <;> rw [h] <;> simp [hemb]

theorem mapGet_map_set_eq (k : Nat) (v : ScoreEntry) :
    ∀ (m : List (Nat × ScoreEntry)), (m.any fun kv => kv.1 = k) = true →
      mapGet (m.map fun kv => if kv.1 = k then (k, v) else kv) k = some v := by
  intro m hany
  induction m with
  | nil => simp at hany
  | cons kv rest ih =>
    rw [List.map_cons]
    by_cases hk : kv.1 = k
    · unfold mapGet
      rw [if_pos hk, List.find?_cons_of_pos _ (by simp)]
      simp
    · rw [List.any_cons] at hany
      have hrest : (rest.any fun kv => decide (kv.1 = k)) = true := by
        rcases (Bool.or_eq_true _ _).mp hany with h1 | h1
        · exact absurd (of_decide_eq_true h1) hk
        · exact h1
      unfold mapGet at ih ⊢
      rw [if_neg hk, List.find?_cons_of_neg _ (by simpa using hk)]
      exact ih hrest

theorem mapGet_map_set_ne (k k' : Nat) (v : ScoreEntry) (h : k' ≠ k) :
    ∀ (m : List (Nat × ScoreEntry)),
      mapGet (m.map fun kv => if kv.1 = k then (k, v) else kv) k' = mapGet m k' := by
  intro m
  induction m with
  | nil => simp [mapGet]
  | cons kv rest ih =>
    rw [List.map_cons]
    by_cases hk : kv.1 = k
    · unfold mapGet at ih ⊢
      rw [if_pos hk, List.find?_cons_of_neg _ (by simp [Ne.symm h]),
        List.find?_cons_of_neg _ (by simp [hk, Ne.symm h])]
      exact ih
    · rw [if_neg hk]
      by_cases hk' : kv.1 = k'
      · unfold mapGet
        rw [List.find?_cons_of_pos _ (by simpa using hk'),
          List.find?_cons_of_pos _ (by simpa using hk')]
      · unfold mapGet at ih ⊢
        rw [List.find?_cons_of_neg _ (by simpa using hk'),
          List.find?_cons_of_neg _ (by simpa using hk')]
        exact ih

theorem mapGet_append_single (k k' : Nat) (v : ScoreEntry)
    (m : List (Nat × ScoreEntry)) :
    mapGet (m ++ [(k, v)]) k' =
      ((mapGet m k').or (if k' = k then some v else none)) := by
  unfold mapGet
  rw [List.find?_append]
  cases hf : List.find? (fun kv => decide (kv.1 = k')) m with
  | none =>
    simp only [Option.map_none, Option.none_or]
    by_cases hk : k' = k
    · rw [List.find?_cons_of_pos _ (by simpa using hk.symm)]
      simp [hk]
    · rw [List.find?_cons_of_neg _ (by simp [Ne.symm hk])]
      simp [hk]
  | some e => simp

theorem mapGet_none_of_not_any (m : List (Nat × ScoreEntry)) (k : Nat)
    (hany : ¬ (m.any fun kv => kv.1 = k) = true) : mapGet m k = none := by
  unfold mapGet
  cases hf : List.find? (fun kv => decide (kv.1 = k)) m with
  | none => simp
  | some e =>
    have := List.find?_some hf
    have hmem := List.mem_of_find?_eq_some hf
    exact absurd (List.any_eq_true.mpr ⟨e, hmem, this⟩) hany

theorem mapGet_set_eq (m : List (Nat × ScoreEntry)) (k : Nat) (v : ScoreEntry) :
    mapGet (mapSet m k v) k = some v := by
  unfold mapSet
  split
  · exact mapGet_map_set_eq k v m (by assumption)
  · rename_i hany
    rw [mapGet_append_single, mapGet_none_of_not_any m k hany]
    simp

theorem mapGet_set_ne (m : List (Nat × ScoreEntry)) (k k' : Nat) (v : ScoreEntry)
    (h : k' ≠ k) : mapGet (mapSet m k v) k' = mapGet m k' := by
  unfold mapSet
  split
  · exact mapGet_map_set_ne k k' v h m
  · rw [mapGet_append_single]
    simp [h]

theorem lookupById_none (id : Nat) :
    ∀ (rs : List SearchResult), id ∉ rs.map (·.id) → lookupById rs id = none := by
  intro rs
  induction rs with
  | nil => intro _; rfl
  | cons r rest ih =>
    intro h
    rw [List.map_cons, List.mem_cons] at h
    push_neg at h
    rw [lookupById, if_neg (fun hh => h.1 hh.symm), ih h.2]
    rfl

theorem lookupById_mem (id : Nat) :
    ∀ (rs : List SearchResult) (p : Nat × SearchResult),
      lookupById rs id = some p → p.2 ∈ rs ∧ p.2.id = id := by
  intro rs
  induction rs with
  | nil => intro p h; simp [lookupById] at h
  | cons x rest ih =>
    intro p h
    rw [lookupById] at h
    by_cases hx : x.id = id
    · rw [if_pos hx] at h
      have hp := Option.some_inj.mp h
      subst hp
      exact ⟨List.mem_cons_self _ _, hx⟩
    · rw [if_neg hx] at h
      cases hl : lookupById rest id with
      | none => rw [hl] at h; cases h
      | some q =>
        rw [hl] at h
        simp only [Option.map_some', Option.some_inj] at h
        subst h
        obtain ⟨hm, hid⟩ := ih q hl
        exact ⟨List.mem_cons_of_mem _ hm, hid⟩

theorem addVector_get (id : Nat) :
    ∀ (vres : List SearchResult) (i : Nat) (m : List (Nat × ScoreEntry)),
      (vres.map (·.id)).Nodup →
      mapGet (addVectorEntries i vres m) id =
        match lookupById vres id with
        | some p => some ⟨0, p.2, i + p.1⟩
        | none => mapGet m id := by
  intro vres
  induction vres with
  | nil => intro i m _; rfl
  | cons r rest ih =>
    intro i m hnd
    rw [List.map_cons, List.nodup_cons] at hnd
    rw [addVectorEntries, lookupById]
    by_cases hr : r.id = id
    · subst hr
      simp only [if_true]
      have hnone : lookupById rest r.id = none :=
        lookupById_none _ rest hnd.1
      rw [ih (i + 1) _ hnd.2, hnone, mapGet_set_eq]
    · simp only [hr, if_false]
      rw [ih (i + 1) _ hnd.2]
      cases hl : lookupById rest id with
      | none =>
        simp only [Option.map_none']
        exact mapGet_set_ne m r.id id _ (fun h => hr h.symm)
      | some p =>
        simp only [Option.map_some']
        have harith : i + 1 + p.1 = i + (p.1 + 1) := by omega
        rw [harith]

theorem addBm25_get (id : Nat) :
    ∀ (bres : List SearchResult) (i : Nat) (m : List (Nat × ScoreEntry)),
      (bres.map (·.id)).Nodup →
      mapGet (addBm25Entries i bres m) id =
        match lookupById bres id with
        | some p =>
          match mapGet m id with
          | some e => some ⟨i + p.1, e.result, e.vectorRank⟩
          | none => some ⟨i + p.1, p.2, 0⟩
        | none => mapGet m id := by
  intro bres
  induction bres with
  | nil => intro i m _; rfl
  | cons r rest ih =>
    intro i m hnd
    rw [List.map_cons, List.nodup_cons] at hnd
    rw [addBm25Entries, lookupById]
    by_cases hr : r.id = id
    · subst hr
      simp only [if_true]
      have hnone : lookupById rest r.id = none := lookupById_none _ rest hnd.1
      cases hm : mapGet m r.id with
      | some e =>
        simp only []
        rw [ih (i + 1) _ hnd.2, hnone, mapGet_set_eq]
      | none =>
        simp only []
        rw [ih (i + 1) _ hnd.2, hnone, mapGet_set_eq]
    · simp only [hr, if_false]
      have hne : id ≠ r.id := fun h => hr h.symm
      cases hm : mapGet m r.id with
      | some e =>
        simp only []
        rw [ih (i + 1) _ hnd.2, mapGet_set_ne m r.id id _ hne]
        cases hl : lookupById rest id with
        | none => simp
        | some p =>
          simp only [Option.map_some']
          have harith : i + 1 + p.1 = i + (p.1 + 1) := by omega
          cases mapGet m id <;> rw [harith]
      | none =>
        simp only []
        rw [ih (i + 1) _ hnd.2, mapGet_set_ne m r.id id _ hne]
        cases hl : lookupById rest id with
        | none => simp
        | some p =>
          simp only [Option.map_some']
          have harith : i + 1 + p.1 = i + (p.1 + 1) := by omega
          cases mapGet m id <;> rw [harith]

theorem lookupById_rank_pos (id : Nat) :
    ∀ (rs : List SearchResult) (p : Nat × SearchResult),
      lookupById rs id = some p → 1 ≤ p.1 := by
  intro rs
  induction rs with
  | nil => intro p h; rw [lookupById] at h; exact Option.noConfusion h
  | cons x rest ih =>
    intro p h
    rw [lookupById] at h
    by_cases hx : x.id = id
    · rw [if_pos hx] at h
      have hp := Option.some_inj.mp h
      subst hp
      exact le_refl 1
    · rw [if_neg hx] at h
      cases hl : lookupById rest id with
      | none => rw [hl] at h; exact Option.noConfusion h
      | some q =>
        rw [hl] at h
        simp only [Option.map_some', Option.some_inj] at h
        subst h
        simp

theorem lookupById_some_of_mem (id : Nat) :
    ∀ (rs : List SearchResult), id ∈ rs.map (·.id) →
      ∃ p, lookupById rs id = some p := by
  intro rs
  induction rs with
  | nil => intro h; cases h
  | cons x rest ih =>
    intro h
    rw [lookupById]
    by_cases hx : x.id = id
    · exact ⟨(1, x), by rw [if_pos hx]⟩
    · rw [List.map_cons, List.mem_cons] at h
      rcases h with h1 | h1
      · exact absurd h1.symm hx
      · obtain ⟨p, hp⟩ := ih h1
        exact ⟨(p.1 + 1, p.2), by rw [if_neg hx, hp]; rfl⟩

theorem mapSet_mem (m : List (Nat × ScoreEntry)) (k : Nat) (v : ScoreEntry)
    (kv : Nat × ScoreEntry) (h : kv ∈ mapSet m k v) : kv ∈ m ∨ kv = (k, v) := by
  unfold mapSet at h
  split at h
  · rw [List.mem_map] at h
    obtain ⟨x, hx, hxe⟩ := h
    by_cases hk : x.1 = k
    · rw [if_pos hk] at hxe; exact Or.inr hxe.symm
    · rw [if_neg hk] at hxe; exact Or.inl (hxe ▸ hx)
  · rw [List.mem_append, List.mem_singleton] at h
    exact h

theorem mapSet_keys_nodup (m : List (Nat × ScoreEntry)) (k : Nat) (v : ScoreEntry)
    (h : (m.map (·.1)).Nodup) : ((mapSet m k v).map (·.1)).Nodup := by
  unfold mapSet
  split
  · rw [List.map_map]
    have : ∀ kv ∈ m, ((fun kv : Nat × ScoreEntry => kv.1) ∘
        fun kv => if kv.1 = k then (k, v) else kv) kv = kv.1 := by
      intro kv _
      by_cases hk : kv.1 = k
      · simp [hk]
      · simp [hk]
    rw [List.map_congr_left this]
    exact h
  · rename_i hany
    rw [List.map_append]
    simp only [List.map_cons, List.map_nil]
    rw [List.nodup_append]
    refine ⟨h, List.nodup_singleton _, ?_⟩
    intro a ha hb
    rw [List.mem_singleton] at hb
    subst hb
    rw [List.mem_map] at ha
    obtain ⟨kv, hkv, hk⟩ := ha
    exact absurd (List.any_eq_true.mpr ⟨kv, hkv, by simp [hk]⟩) hany

theorem mem_mapGet (m : List (Nat × ScoreEntry)) (kv : Nat × ScoreEntry)
    (hnd : (m.map (·.1)).Nodup) (h : kv ∈ m) : mapGet m kv.1 = some kv.2 := by
  induction m with
  | nil => cases h
  | cons x rest ih =>
    rw [List.map_cons, List.nodup_cons] at hnd
    rcases List.mem_cons.mp h with h1 | h1
    · subst h1
      unfold mapGet
      rw [List.find?_cons_of_pos _ (by simp)]
      rfl
    · have hx : ¬ x.1 = kv.1 := by
        intro he
        exact hnd.1 (he ▸ List.mem_map.mpr ⟨kv, h1, rfl⟩)
      unfold mapGet
      rw [List.find?_cons_of_neg _ (by simpa using hx)]
      exact ih hnd.2 h1

theorem addVector_nodup (vres : List SearchResult) :
    ∀ (i : Nat) (m : List (Nat × ScoreEntry)), (m.map (·.1)).Nodup →
      ((addVectorEntries i vres m).map (·.1)).Nodup := by
  induction vres with
  | nil => intro i m h; exact h
  | cons r rest ih =>
    intro i m h
    rw [addVectorEntries]
    exact ih _ _ (mapSet_keys_nodup m r.id _ h)

theorem addBm25_nodup (bres : List SearchResult) :
    ∀ (i : Nat) (m : List (Nat × ScoreEntry)), (m.map (·.1)).Nodup →
      ((addBm25Entries i bres m).map (·.1)).Nodup := by
  induction bres with
  | nil => intro i m h; exact h
  | cons r rest ih =>
    intro i m h
    rw [addBm25Entries]
    cases hm : mapGet m r.id with
    | some e => exact ih _ _ (mapSet_keys_nodup m r.id _ h)
    | none => exact ih _ _ (mapSet_keys_nodup m r.id _ h)

theorem mapGet_mem (m : List (Nat × ScoreEntry)) (k : Nat) (e : ScoreEntry)
    (h : mapGet m k = some e) : (k, e) ∈ m := by
  unfold mapGet at h
  cases hf : List.find? (fun kv => decide (kv.1 = k)) m with
  | none => rw [hf] at h; exact Option.noConfusion h
  | some kv =>
    rw [hf] at h
    have hk : kv.1 = k := by simpa using List.find?_some hf
    have hmem := List.mem_of_find?_eq_some hf
    have he : kv.2 = e := by simpa using h
    have : kv = (k, e) := Prod.ext hk he
    exact this ▸ hmem

theorem addVector_keyid (vres : List SearchResult) :
    ∀ (i : Nat) (m : List (Nat × ScoreEntry)),
      (∀ kv ∈ m, kv.1 = kv.2.result.id) →
      ∀ kv ∈ addVectorEntries i vres m, kv.1 = kv.2.result.id := by
  induction vres with
  | nil => intro i m h; exact h
  | cons r rest ih =>
    intro i m h
    rw [addVectorEntries]
    refine ih _ _ ?_
    intro kv hkv
    rcases mapSet_mem m r.id _ kv hkv with h1 | h1
    · exact h kv h1
    · subst h1; rfl

theorem addBm25_keyid (bres : List SearchResult) :
    ∀ (i : Nat) (m : List (Nat × ScoreEntry)),
      (∀ kv ∈ m, kv.1 = kv.2.result.id) →
      ∀ kv ∈ addBm25Entries i bres m, kv.1 = kv.2.result.id := by
  induction bres with
  | nil => intro i m h; exact h
  | cons r rest ih =>
    intro i m h
    rw [addBm25Entries]
    cases hm : mapGet m r.id with
    | some e =>
      refine ih _ _ ?_
      intro kv hkv
      rcases mapSet_mem m r.id _ kv hkv with h1 | h1
      · exact h kv h1
      · subst h1
        have := h (r.id, e) (mapGet_mem m r.id e hm)
        simpa using this
    | none =>
      refine ih _ _ ?_
      intro kv hkv
      rcases mapSet_mem m r.id _ kv hkv with h1 | h1
      · exact h kv h1
      · subst h1; rfl

theorem rawVectorSearch_mode (sim : List ℚ → List ℚ → ℚ) (db : Db) (limit : Nat)
    (qe : List ℚ) (th : Option ℚ) :
    ∀ r ∈ rawVectorSearch sim db limit qe th, r.mode = RMode.vector := by
  intro r hr
  unfold rawVectorSearch at hr
  rw [List.mem_map] at hr
  obtain ⟨g, -, hge⟩ := hr
  rw [← hge]

theorem rawBm25Search_mode (bdist : Str → Str → ℚ) (db : Db) (q : Str) (limit : Nat) :
    ∀ r ∈ rawBm25Search bdist db q limit, r.mode = RMode.bm25 := by
  intro r hr
  unfold rawBm25Search at hr
  rw [List.mem_map] at hr
  obtain ⟨g, -, hge⟩ := hr
  rw [← hge]

theorem mapGet_nil (k : Nat) : mapGet ([] : List (Nat × ScoreEntry)) k = none := rfl

/-- Shared case analysis for the fused rows: every row of `hybridMerged` is a
vector row (possibly also BM25-ranked) or a BM25-only row, with the RRF score
determined by its ranks in the two fetched lists. -/
theorem hybridMerged_mem_cases (vw bw rrfK : ℚ) (vres bres : List SearchResult)
    (hv : (vres.map (·.id)).Nodup) (hb : (bres.map (·.id)).Nodup) :
    ∀ pr ∈ hybridMerged vw bw rrfK vres bres,
      (∃ pv pb, lookupById vres pr.1.id = some pv ∧
        lookupById bres pr.1.id = some pb ∧
        pr.1 = { pv.2 with score := vw / (rrfK + pv.1) + bw / (rrfK + pb.1) }) ∨
      (∃ pv, lookupById vres pr.1.id = some pv ∧
        lookupById bres pr.1.id = none ∧
        pr.1 = { pv.2 with score := vw / (rrfK + pv.1) }) ∨
      (∃ pb, lookupById vres pr.1.id = none ∧
        lookupById bres pr.1.id = some pb ∧
        pr.1 = { pb.2 with score := bw / (rrfK + pb.1) }) := by
  intro pr hpr
  unfold hybridMerged at hpr
  have hperm := List.perm_insertionSort
    (fun a b : SearchResult × ℚ => b.2 ≤ a.2)
    ((addBm25Entries 0 bres (addVectorEntries 0 vres [])).map fun kv =>
      ({ kv.2.result with score := rrfOf vw bw rrfK kv.2 }, rrfOf vw bw rrfK kv.2))
  rw [hperm.mem_iff, List.mem_map] at hpr
  obtain ⟨kv, hkv, hkve⟩ := hpr
  have hnd : ((addBm25Entries 0 bres (addVectorEntries 0 vres [])).map (·.1)).Nodup :=
    addBm25_nodup bres 0 _ (addVector_nodup vres 0 [] (by simp))
  have hkid : kv.1 = kv.2.result.id :=
    addBm25_keyid bres 0 _ (addVector_keyid vres 0 [] (by intro kv h; cases h)) kv hkv
  have hget := mem_mapGet _ kv hnd hkv
  have hrid : pr.1.id = kv.1 := by
    rw [← hkve, hkid]
  rw [addBm25_get kv.1 bres 0 _ hb, addVector_get kv.1 vres 0 _ hv] at hget
  have hres : pr.1 = { kv.2.result with score := rrfOf vw bw rrfK kv.2 } := by
    rw [← hkve]
  cases hlv : lookupById vres kv.1 with
  | some pv =>
    cases hlb : lookupById bres kv.1 with
    | some pb =>
      rw [hlv, hlb] at hget
      simp only [mapGet_nil, Option.some_inj] at hget
      left
      refine ⟨pv, pb, by rw [hrid, hlv], by rw [hrid, hlb], ?_⟩
      rw [hres, ← hget]
      have h1 : 0 < pv.1 := lookupById_rank_pos _ vres pv hlv
      have h2 : 0 < pb.1 := lookupById_rank_pos _ bres pb hlb
      unfold rrfOf
      simp only [Nat.zero_add]
      rw [if_pos h1, if_pos h2]
    | none =>
      rw [hlv, hlb] at hget
      simp only [mapGet_nil, Option.some_inj] at hget
      right; left
      refine ⟨pv, by rw [hrid, hlv], by rw [hrid, hlb], ?_⟩
      rw [hres, ← hget]
      have h1 : 0 < pv.1 := lookupById_rank_pos _ vres pv hlv
      unfold rrfOf
      simp only [Nat.zero_add]
      rw [if_pos h1, if_neg (by simp), add_zero]
  | none =>
    cases hlb : lookupById bres kv.1 with
    | some pb =>
      rw [hlv, hlb] at hget
      simp only [mapGet_nil, Option.some_inj] at hget
      right; right
      refine ⟨pb, by rw [hrid, hlv], by rw [hrid, hlb], ?_⟩
      rw [hres, ← hget]
      have h2 : 0 < pb.1 := lookupById_rank_pos _ bres pb hlb
      unfold rrfOf
      simp only [Nat.zero_add]
      rw [if_neg (by simp), if_pos h2, zero_add]
    | none =>
      rw [hlv, hlb] at hget
      exact Option.noConfusion hget

theorem rawHybridSearch_mem (sim : List ℚ → List ℚ → ℚ) (bdist : Str → Str → ℚ)
    (db : Db) (bw : ℚ) (limit : Nat) (qe : List ℚ) (q : Str) (rrfK : ℚ)
    (th : Option ℚ) (vw : ℚ) (r : SearchResult)
    (hr : r ∈ rawHybridSearch sim bdist db bw limit qe q rrfK th vw) :
    ∃ pr ∈ hybridMerged vw bw rrfK (rawVectorSearch sim db (limit * 3) qe th)
      (rawBm25Search bdist db q (limit * 3)), r = pr.1 := by
  unfold rawHybridSearch at hr
  simp only [List.mem_map] at hr
  obtain ⟨pr, hpr, hre⟩ := hr
  exact ⟨pr, (List.take_sublist _ _).mem hpr, hre.symm⟩

/-- C3: in hybrid mode each fused row's score is
`vector_weight / (rrf_k + rank_v) + bm25_weight / (rrf_k + rank_b)` over its
ranks in the two fetched lists (fetched with limit `3 * limit`; a missing rank
contributes 0), and the fused rows are sorted by this score descending. -/
theorem rawHybridSearch_rrf_scores (sim : List ℚ → List ℚ → ℚ)
    (bdist : Str → Str → ℚ) (db : Db) (bw : ℚ) (limit : Nat) (qe : List ℚ)
    (q : Str) (rrfK : ℚ) (th : Option ℚ) (vw : ℚ)
    (hv : ((rawVectorSearch sim db (limit * 3) qe th).map (·.id)).Nodup)
    (hb : ((rawBm25Search bdist db q (limit * 3)).map (·.id)).Nodup) :
    (∀ r ∈ rawHybridSearch sim bdist db bw limit qe q rrfK th vw,
      r.score =
        (match lookupById (rawVectorSearch sim db (limit * 3) qe th) r.id with
         | some p => vw / (rrfK + p.1)
         | none => 0) +
        (match lookupById (rawBm25Search bdist db q (limit * 3)) r.id with
         | some p => bw / (rrfK + p.1)
         | none => 0)) ∧
      List.Pairwise (fun a b => b.score ≤ a.score)
        (rawHybridSearch sim bdist db bw limit qe q rrfK th vw) := by
  constructor
  · intro r hr
    obtain ⟨pr, hpr, hre⟩ := rawHybridSearch_mem sim bdist db bw limit qe q rrfK th vw r hr
    subst hre
    rcases hybridMerged_mem_cases vw bw rrfK _ _ hv hb pr hpr with
      ⟨pv, pb, hlv, hlb, hsc⟩ | ⟨pv, hlv, hlb, hsc⟩ | ⟨pb, hlv, hlb, hsc⟩ <;>
      rw [hlv, hlb] <;> rw [hsc]
    · rw [add_zero]
    · rw [zero_add]
  · unfold rawHybridSearch
    have hsorted : List.Pairwise (fun a b : SearchResult × ℚ => b.2 ≤ a.2)
        (hybridMerged vw bw rrfK (rawVectorSearch sim db (limit * 3) qe th)
          (rawBm25Search bdist db q (limit * 3))) := by
      unfold hybridMerged
      haveI : IsTotal (SearchResult × ℚ) (fun a b => b.2 ≤ a.2) :=
        ⟨fun a b => le_total b.2 a.2⟩
      haveI : IsTrans (SearchResult × ℚ) (fun a b => b.2 ≤ a.2) :=
        ⟨fun _ _ _ h1 h2 => le_trans h2 h1⟩
      exact List.sorted_insertionSort _ _
    have hscoreeq : ∀ pr ∈ hybridMerged vw bw rrfK
        (rawVectorSearch sim db (limit * 3) qe th)
        (rawBm25Search bdist db q (limit * 3)), pr.1.score = pr.2 := by
      intro pr hpr
      unfold hybridMerged at hpr
      have hperm := List.perm_insertionSort
        (fun a b : SearchResult × ℚ => b.2 ≤ a.2)
        ((addBm25Entries 0 (rawBm25Search bdist db q (limit * 3))
          (addVectorEntries 0 (rawVectorSearch sim db (limit * 3) qe th) [])).map
            fun kv => ({ kv.2.result with score := rrfOf vw bw rrfK kv.2 },
              rrfOf vw bw rrfK kv.2))
      rw [hperm.mem_iff, List.mem_map] at hpr
      obtain ⟨kv, -, hkve⟩ := hpr
      rw [← hkve]
    have htake := hsorted.sublist (List.take_sublist limit _)
    rw [List.pairwise_map]
    refine htake.imp_of_mem ?_
    intro a b ha hb2 hab
    have ha' := hscoreeq a ((List.take_sublist limit _).mem ha)
    have hb' := hscoreeq b ((List.take_sublist limit _).mem hb2)
    rw [ha', hb']
    exact hab

/-- C4 (amended): a fused hybrid row keeps the `mode` of the subquery it came
from: `vector` exactly when its chunk id appears in the vector ranked list,
`bm25` when it appears only in the BM25 ranked list. -/
theorem rawHybridSearch_modes (sim : List ℚ → List ℚ → ℚ)
    (bdist : Str → Str → ℚ) (db : Db) (bw : ℚ) (limit : Nat) (qe : List ℚ)
    (q : Str) (rrfK : ℚ) (th : Option ℚ) (vw : ℚ)
    (hv : ((rawVectorSearch sim db (limit * 3) qe th).map (·.id)).Nodup)
    (hb : ((rawBm25Search bdist db q (limit * 3)).map (·.id)).Nodup) :
    ∀ r ∈ rawHybridSearch sim bdist db bw limit qe q rrfK th vw,
      (r.id ∈ (rawVectorSearch sim db (limit * 3) qe th).map (·.id) →
        r.mode = RMode.vector) ∧
      (r.id ∉ (rawVectorSearch sim db (limit * 3) qe th).map (·.id) →
        r.mode = RMode.bm25) := by
  intro r hr
  obtain ⟨pr, hpr, hre⟩ := rawHybridSearch_mem sim bdist db bw limit qe q rrfK th vw r hr
  subst hre
  rcases hybridMerged_mem_cases vw bw rrfK _ _ hv hb pr hpr with
    ⟨pv, pb, hlv, hlb, hsc⟩ | ⟨pv, hlv, hlb, hsc⟩ | ⟨pb, hlv, hlb, hsc⟩
  · obtain ⟨hm, hid⟩ := lookupById_mem _ _ pv hlv
    constructor
    · intro _
      rw [hsc]
      exact rawVectorSearch_mode sim db (limit * 3) qe th pv.2 hm
    · intro hno
      exact absurd (List.mem_map.mpr ⟨pv.2, hm, hid⟩) hno
  · obtain ⟨hm, hid⟩ := lookupById_mem _ _ pv hlv
    constructor
    · intro _
      rw [hsc]
      exact rawVectorSearch_mode sim db (limit * 3) qe th pv.2 hm
    · intro hno
      exact absurd (List.mem_map.mpr ⟨pv.2, hm, hid⟩) hno
  · obtain ⟨hm, hid⟩ := lookupById_mem _ _ pb hlb
    constructor
    · intro hyes
      obtain ⟨p, hp⟩ := lookupById_some_of_mem _ _ hyes
      rw [hlv] at hp
      exact Option.noConfusion hp
    · intro _
      rw [hsc]
      exact rawBm25Search_mode bdist db q (limit * 3) pb.2 hm

/-- C4 counterexample: the hybrid search on `exHybridDb` returns chunk 2 —
present only in the BM25 ranked list — with `mode = bm25`, not `vector`. -/
theorem search_hybrid_bm25_mode_present :
    ¬ ∀ r ∈ search exSim exBdistAll exHybridDb exHybridConfig,
        r.mode = RMode.vector := by
  decide!

theorem rawHybridSearch_rrf_scores_witness :
    List.Pairwise (fun a b => b.score ≤ a.score)
      (rawHybridSearch exSim exBdistAll exHybridDb 1 10 [1] "q".data 60
        (some (1/2)) 1) :=
  (rawHybridSearch_rrf_scores exSim exBdistAll exHybridDb 1 10 [1] "q".data 60
    (some (1/2)) 1 (by decide!) (by decide!)).2

theorem rawHybridSearch_modes_witness :
    (rawHybridSearch exSim exBdistAll exHybridDb 1 10 [1] "q".data 60
      (some (1/2)) 1).headI.mode = RMode.vector :=
  ((rawHybridSearch_modes exSim exBdistAll exHybridDb 1 10 [1] "q".data 60
    (some (1/2)) 1 (by decide!) (by decide!)) _ (by decide!)).1 (by decide!)

/-- C9: on the chain root → hop1 → hop2 with `graph_decay = 0.5` and
`graph_hops = 2`, a search seeded on root returns hop1's chunk and hop2's
chunk as graph-mode results; hop1's best path weight (0.5) exceeds hop2's
(0.25), so after the weight-descending sort hop1 is ranked first and receives
`graph_weight / (rrf_k + 1) = 1/61`, strictly above hop2's
`graph_weight / (rrf_k + 2) = 1/62`. -/
theorem search_graph_decay_chain :
    ((search exSim exBdistRoot exChainDb exChainConfig).find? fun r =>
        r.id = 2).map (fun r => (r.mode, r.score)) =
      some (RMode.graph, 1/61) ∧
    ((search exSim exBdistRoot exChainDb exChainConfig).find? fun r =>
        r.id = 3).map (fun r => (r.mode, r.score)) =
      some (RMode.graph, 1/62) ∧
    ((1 : ℚ)/62 < 1/61) := by
  decide!

theorem search_embed_empty_witness :
    search exSim exBdistAll emptyDb exEmptyEmbedConfig = [] :=
  search_embed_empty exSim exBdistAll emptyDb exEmptyEmbedConfig
    (Or.inr (Or.inr rfl)) rfl

theorem updateCommunity_core (db : Db) (ids : List Nat) (cId : Nat) :
    (updateCommunity db ids cId).documents.map docCore = db.documents.map docCore ∧
      (updateCommunity db ids cId).chunks = db.chunks ∧
      (updateCommunity db ids cId).documentRelations = db.documentRelations := by
  refine ⟨?_, rfl, rfl⟩
  unfold updateCommunity
  simp only [List.map_map]
  refine List.map_congr_left ?_
  intro d _
  by_cases h : d.id ∈ ids
  · simp [h, docCore]
  · simp [h]

theorem writeCommunities_core (groups : List (Nat × List Nat)) :
    ∀ (db : Db),
      (writeCommunities db groups).documents.map docCore = db.documents.map docCore ∧
        (writeCommunities db groups).chunks = db.chunks ∧
        (writeCommunities db groups).documentRelations = db.documentRelations := by
  induction groups with
  | nil => intro db; exact ⟨rfl, rfl, rfl⟩
  | cons g rest ih =>
    intro db
    rw [writeCommunities, List.foldl_cons]
    have hbatch : ∀ (batches : List (List Nat)) (db0 : Db),
        ((batches.foldl (fun acc2 batch => updateCommunity acc2 batch g.1) db0)).documents.map docCore =
          db0.documents.map docCore ∧
        ((batches.foldl (fun acc2 batch => updateCommunity acc2 batch g.1) db0)).chunks = db0.chunks ∧
        ((batches.foldl (fun acc2 batch => updateCommunity acc2 batch g.1) db0)).documentRelations =
          db0.documentRelations := by
      intro batches
      induction batches with
      | nil => intro db0; exact ⟨rfl, rfl, rfl⟩
      | cons b bs ihb =>
        intro db0
        rw [List.foldl_cons]
        obtain ⟨h1, h2, h3⟩ := ihb (updateCommunity db0 b g.1)
        obtain ⟨g1, g2, g3⟩ := updateCommunity_core db0 b g.1
        exact ⟨h1.trans g1, h2.trans g2, h3.trans g3⟩
    obtain ⟨h1, h2, h3⟩ := ih ((chunksOf 500 g.2).foldl (fun acc2 batch => updateCommunity acc2 batch g.1) db)
    obtain ⟨g1, g2, g3⟩ := hbatch (chunksOf 500 g.2) db
    rw [writeCommunities] at h1 h2 h3
    exact ⟨h1.trans g1, h2.trans g2, h3.trans g3⟩

theorem detectCommunities_core (db : Db) :
    (detectCommunities db).2.documents.map docCore = db.documents.map docCore ∧
      (detectCommunities db).2.chunks = db.chunks ∧
      (detectCommunities db).2.documentRelations = db.documentRelations := by
  unfold detectCommunities
  split
  · exact ⟨rfl, rfl, rfl⟩
  · exact writeCommunities_core _ db

theorem insertRelations_docs_chunks (db : Db) (m : List (Str × List Nat))
    (rels : List (Str × List RelTarget)) :
    (insertRelations db m rels).2.2.documents = db.documents ∧
      (insertRelations db m rels).2.2.chunks = db.chunks := by
  unfold insertRelations
  have hfold : ∀ (rows : List (Nat × Nat × Option Str × Option ℚ)) (st : Nat × Db),
      (rows.foldl (fun st row =>
        if st.2.documentRelations.any fun r =>
            r.sourceId = row.1 ∧ r.targetId = row.2.1 then st
        else
          (st.1 + 1,
            { st.2 with
              documentRelations := st.2.documentRelations ++
                [⟨st.2.nextRelId, row.1, row.2.1, row.2.2.1, some ((row.2.2.2).getD 1)⟩],
              nextRelId := st.2.nextRelId + 1 })) st).2.documents = st.2.documents ∧
      (rows.foldl (fun st row =>
        if st.2.documentRelations.any fun r =>
            r.sourceId = row.1 ∧ r.targetId = row.2.1 then st
        else
          (st.1 + 1,
            { st.2 with
              documentRelations := st.2.documentRelations ++
                [⟨st.2.nextRelId, row.1, row.2.1, row.2.2.1, some ((row.2.2.2).getD 1)⟩],
              nextRelId := st.2.nextRelId + 1 })) st).2.chunks = st.2.chunks := by
    intro rows
    induction rows with
    | nil => intro st; exact ⟨rfl, rfl⟩
    | cons row rest ih =>
      intro st
      rw [List.foldl_cons]
      split
      · exact ih st
      · obtain ⟨h1, h2⟩ := ih _
        exact ⟨h1, h2⟩
  exact hfold _ _

theorem ingestDocsLoop_all_dup (hash : Str → Str) (cfg : IngestConfig) :
    ∀ (docs : List Doc) (db : Db) (acc : IngestAcc),
      (∀ d ∈ docs, ∃ row ∈ db.documents, row.contentHash = hash (d.title ++ d.content)) →
      ingestDocsLoop hash cfg docs db acc =
        ({ acc with duplicatesSkipped := acc.duplicatesSkipped + docs.length }, db) := by
  intro docs
  induction docs with
  | nil => intro db acc _; rw [ingestDocsLoop]; simp
  | cons doc rest ih =>
    intro db acc hpres
    rw [ingestDocsLoop]
    obtain ⟨row, hrow, hhash⟩ := hpres doc (List.mem_cons_self _ _)
    have hne : ¬ ((db.documents.filter fun d =>
        d.contentHash = hash (doc.title ++ doc.content)).take 1).isEmpty = true := by
      have hmem : row ∈ db.documents.filter fun d =>
          d.contentHash = hash (doc.title ++ doc.content) :=
        List.mem_filter.mpr ⟨hrow, by simp [hhash]⟩
      intro hcontra
      rw [List.isEmpty_iff] at hcontra
      rw [List.take_eq_nil_iff] at hcontra
      rcases hcontra with h | h
      · exact absurd h (by simp)
      · rw [h] at hmem; cases hmem
    rw [if_neg hne]
    rw [ih db _ (fun d hd => hpres d (List.mem_cons_of_mem _ hd))]
    simp only [List.length_cons]
    congr 2
    omega

/-- C5: re-running `ingest` on documents whose content hashes are already
present inserts nothing: 0 documents, 0 chunks, every input counted as a
skipped duplicate, the chunk table unchanged and the document rows unchanged
except (possibly) `community_id` rewritten by community detection. -/
theorem ingest_idempotent (hash : Str → Str) (db : Db) (docs : List Doc)
    (cfg : IngestConfig)
    (hpresent : ∀ d ∈ docs, ∃ row ∈ db.documents,
      row.contentHash = hash (d.title ++ d.content)) :
    (ingest hash db docs cfg).1.documentsInserted = 0 ∧
      (ingest hash db docs cfg).1.chunksInserted = 0 ∧
      (ingest hash db docs cfg).1.duplicatesSkipped = docs.length ∧
      (ingest hash db docs cfg).2.2.chunks = db.chunks ∧
      (ingest hash db docs cfg).2.2.documents.map docCore = db.documents.map docCore := by
  have hloop := ingestDocsLoop_all_dup hash cfg docs db ⟨0, 0, [], [], []⟩ hpresent
  have hstate : (ingest hash db docs cfg).2.2 =
      (match cfg.relations with
       | some rels => (detectCommunities (insertRelations db [] rels).2.2).2
       | none => db) := by
    unfold ingest
    rw [hloop]
    cases cfg.relations <;> rfl
  refine ⟨?_, ?_, ?_, ?_, ?_⟩
  · unfold ingest
    rw [hloop]
  · unfold ingest
    rw [hloop]
    rfl
  · unfold ingest
    rw [hloop]
    exact Nat.zero_add docs.length
  · rw [hstate]
    cases hrel : cfg.relations with
    | none => rfl
    | some rels =>
      have h1 := insertRelations_docs_chunks db [] rels
      have h2 := detectCommunities_core (insertRelations db [] rels).2.2
      rw [h2.2.1, h1.2]
  · rw [hstate]
    cases hrel : cfg.relations with
    | none => rfl
    | some rels =>
      have h1 := insertRelations_docs_chunks db [] rels
      have h2 := detectCommunities_core (insertRelations db [] rels).2.2
      rw [h2.1, h1.1]

theorem ingest_idempotent_witness :
    (ingest (fun s => s) exIngestDb [exIngestDoc] exIngestCfg).1.documentsInserted = 0 ∧
      (ingest (fun s => s) exIngestDb [exIngestDoc] exIngestCfg).1.chunksInserted = 0 ∧
      (ingest (fun s => s) exIngestDb [exIngestDoc] exIngestCfg).1.duplicatesSkipped =
        [exIngestDoc].length ∧
      (ingest (fun s => s) exIngestDb [exIngestDoc] exIngestCfg).2.2.chunks =
        exIngestDb.chunks ∧
      (ingest (fun s => s) exIngestDb [exIngestDoc] exIngestCfg).2.2.documents.map docCore =
        exIngestDb.documents.map docCore :=
  ingest_idempotent (fun s => s) exIngestDb [exIngestDoc] exIngestCfg (by decide)

theorem importDocsLoop_error_prefix (o : InsOp → Bool) (hash : Str → Str)
    (dimension : Option Nat) :
    ∀ (docs : List BackupDoc) (db : Db) (cnts : ImportCounters) (e : Unit) (dbF : Db),
      importDocsLoop o hash dimension docs db cnts = .error (e, dbF) →
      ∃ k ≤ docs.length, ∃ res,
        importDocsLoop o hash dimension (docs.take k) db cnts = .ok (res, dbF) := by
  intro docs
  induction docs with
  | nil => intro db cnts e dbF h; rw [importDocsLoop] at h; cases h
  | cons doc rest ih =>
    intro db cnts e dbF h
    rw [importDocsLoop] at h
    by_cases hdm : dimMismatch dimension doc
    · rw [if_pos hdm] at h
      obtain ⟨k, hk, res, hres⟩ := ih db _ e dbF h
      refine ⟨k + 1, by simpa using hk, res, ?_⟩
      rw [List.take_succ_cons, importDocsLoop, if_pos hdm]
      exact hres
    · rw [if_neg hdm] at h
      by_cases habs : ((db.documents.filter fun d =>
          d.contentHash = doc.contentHash).take 1).isEmpty = true
      · rw [if_pos habs] at h
        cases htx : importDocTx o hash db doc with
        | error e2 =>
          rw [htx] at h
          simp only [Except.error.injEq, Prod.mk.injEq] at h
          refine ⟨0, Nat.zero_le _, cnts, ?_⟩
          rw [List.take_zero, importDocsLoop, h.2]
        | ok st =>
          rw [htx] at h
          obtain ⟨k, hk, res, hres⟩ := ih st.2 _ e dbF h
          refine ⟨k + 1, by simpa using hk, res, ?_⟩
          rw [List.take_succ_cons, importDocsLoop, if_neg hdm, if_pos habs, htx]
          exact hres
      · rw [if_neg habs] at h
        obtain ⟨k, hk, res, hres⟩ := ih db _ e dbF h
        refine ⟨k + 1, by simpa using hk, res, ?_⟩
        rw [List.take_succ_cons, importDocsLoop, if_neg hdm, if_neg habs]
        exact hres

/-- C7: each backed-up document is imported inside one per-document
transaction.  If any insert for a document fails, `importBackup` aborts and
the failure state is exactly the state of a clean run on a prefix of the
file's lines: no partial document, chunk, or junction rows of the failing
document remain. -/
theorem importBackup_per_document_atomic (o : InsOp → Bool) (hash : Str → Str)
    (db : Db) (docs : List BackupDoc) (dimension : Option Nat) (e : Unit) (dbF : Db)
    (herr : importBackup o hash db docs dimension = .error (e, dbF)) :
    ∃ k ≤ docs.length, ∃ res,
      importDocsLoop o hash dimension (docs.take k) db ⟨0, 0, 0, 0⟩ = .ok (res, dbF) := by
  unfold importBackup at herr
  split at herr
  · simp only [Except.error.injEq, Prod.mk.injEq] at herr
    refine ⟨0, Nat.zero_le _, ⟨0, 0, 0, 0⟩, ?_⟩
    rw [List.take_zero, importDocsLoop, herr.2]
  · cases hloop : importDocsLoop o hash dimension docs db ⟨0, 0, 0, 0⟩ with
    | error e2 =>
      rw [hloop] at herr
      simp only [Except.error.injEq] at herr
      subst herr
      exact importDocsLoop_error_prefix o hash dimension docs db ⟨0, 0, 0, 0⟩ e dbF hloop
    | ok st =>
      rw [hloop] at herr
      cases herr

theorem importBackup_per_document_atomic_witness :
    ∃ k ≤ [exImportDocC].length, ∃ res,
      importDocsLoop oFailChunk (fun s => s) none ([exImportDocC].take k) emptyDb
        ⟨0, 0, 0, 0⟩ = .ok (res, emptyDb) :=
  importBackup_per_document_atomic oFailChunk (fun s => s) emptyDb [exImportDocC]
    none () emptyDb (by rfl)

/-- C6 counterexample: importing a valid backup whose two lines carry
different titles (`A`, `B`) but the same `contentHash` inserts the relation
`(1, 1)`: line `B` is skipped as a duplicate of line `A`'s document, both
titles resolve to document 1, and `A`'s relation to `B` — which passes the
`rel.title !== doc.title` check — becomes a self-relation. -/
theorem importBackup_self_relation :
    ¬ ∀ st, importBackup (fun _ => false) (fun s => s) emptyDb
        [exBackupA, exBackupB] none = .ok st →
      ∀ r ∈ st.2.documentRelations, r.sourceId ≠ r.targetId := by
  intro h
  exact h _ rfl ⟨1, 1, 1, none, some 1⟩ (by decide) rfl

theorem alistSet_mem [DecidableEq κ] (m : List (κ × β)) (k : κ) (v : β)
    (kv : κ × β) (h : kv ∈ alistSet m k v) : kv ∈ m ∨ kv = (k, v) := by
  unfold alistSet at h
  split at h
  · rw [List.mem_map] at h
    obtain ⟨x, hx, hxe⟩ := h
    by_cases hk : x.1 = k
    · rw [if_pos hk] at hxe; exact Or.inr hxe.symm
    · rw [if_neg hk] at hxe; exact Or.inl (hxe ▸ hx)
  · rw [List.mem_append, List.mem_singleton] at h
    exact h

theorem alistGet_mem [DecidableEq κ] (m : List (κ × β)) (k : κ) (v : β)
    (h : alistGet m k = some v) : (k, v) ∈ m := by
  unfold alistGet at h
  cases hf : List.find? (fun kv => decide (kv.1 = k)) m with
  | none => rw [hf] at h; exact Option.noConfusion h
  | some kv =>
    rw [hf] at h
    have hk : kv.1 = k := by simpa using List.find?_some hf
    have hmem := List.mem_of_find?_eq_some hf
    have he : kv.2 = v := by simpa using h
    have : kv = (k, v) := Prod.ext hk he
    exact this ▸ hmem

/-- Two document rows with the same id are equal when ids are `Nodup`. -/
theorem docRow_eq_of_id_eq (db : Db) (hnd : (db.documents.map (·.id)).Nodup)
    (r1 r2 : DocRow) (h1 : r1 ∈ db.documents) (h2 : r2 ∈ db.documents)
    (heq : r1.id = r2.id) : r1 = r2 :=
  List.inj_on_of_nodup_map hnd h1 h2 heq

/-- The per-document ingest loop preserves primary-key well-formedness, keeps
the existing rows and relations, and keeps the title map consistent. -/
theorem ingestDocsLoop_invariants (hash : Str → Str) (cfg : IngestConfig) :
    ∀ (docs : List Doc) (db : Db) (acc : IngestAcc),
      IdsOk db → TitleMapOk acc.titleToNewIds db →
      IdsOk (ingestDocsLoop hash cfg docs db acc).2 ∧
        TitleMapOk (ingestDocsLoop hash cfg docs db acc).1.titleToNewIds
          (ingestDocsLoop hash cfg docs db acc).2 ∧
        (ingestDocsLoop hash cfg docs db acc).2.documentRelations =
          db.documentRelations := by
  intro docs
  induction docs with
  | nil =>
    intro db acc hids htm
    rw [ingestDocsLoop]
    exact ⟨hids, htm, rfl⟩
  | cons doc rest ih =>
    intro db acc hids htm
    rw [ingestDocsLoop]
    split
    · set contentHash := hash (doc.title ++ doc.content) with hch
      set newId := db.nextDocId with hnid
      set db' : Db := { db with
        documents := db.documents ++
          [⟨newId, doc.title, doc.content, contentHash, doc.metadata.getD [], none⟩],
        nextDocId := newId + 1 } with hdb'
      have hids' : IdsOk db' := by
        constructor
        · rw [hdb']
          simp only [List.map_append, List.map_cons, List.map_nil]
          rw [List.nodup_append]
          refine ⟨hids.1, List.nodup_singleton _, ?_⟩
          intro a ha hb
          rw [List.mem_singleton] at hb
          subst hb
          rw [List.mem_map] at ha
          obtain ⟨row, hrow, hid⟩ := ha
          have := hids.2 row hrow
          omega
        · intro row hrow
          rw [hdb'] at hrow ⊢
          simp only [List.mem_append, List.mem_singleton] at hrow
          rcases hrow with h1 | h1
          · have := hids.2 row h1
            simp only []
            omega
          · subst h1
            simp
      have hmono : ∀ (m : List (Str × List Nat)), TitleMapOk m db → TitleMapOk m db' := by
        intro m hm kv hkv id hid
        obtain ⟨row, hrow, he⟩ := hm kv hkv id hid
        exact ⟨row, by rw [hdb']; exact List.mem_append_left _ hrow, he⟩
      have htm' : TitleMapOk (match alistGet acc.titleToNewIds doc.title with
          | some ids => alistSet acc.titleToNewIds doc.title (ids ++ [newId])
          | none => alistSet acc.titleToNewIds doc.title [newId]) db' := by
        have hnewrow : ∃ row ∈ db'.documents, row.id = newId ∧ row.title = doc.title := by
          refine ⟨⟨newId, doc.title, doc.content, contentHash, doc.metadata.getD [], none⟩,
            ?_, rfl, rfl⟩
          rw [hdb']
          exact List.mem_append_right _ (List.mem_singleton.mpr rfl)
        cases hg : alistGet acc.titleToNewIds doc.title with
        | some ids =>
          intro kv hkv id hid
          rcases alistSet_mem _ _ _ kv hkv with h1 | h1
          · exact hmono _ htm kv h1 id hid
          · subst h1
            rw [List.mem_append, List.mem_singleton] at hid
            rcases hid with h2 | h2
            · exact hmono _ htm (doc.title, ids) (alistGet_mem _ _ _ hg) id h2
            · subst h2
              exact hnewrow
        | none =>
          intro kv hkv id hid
          rcases alistSet_mem _ _ _ kv hkv with h1 | h1
          · exact hmono _ htm kv h1 id hid
          · subst h1
            rw [List.mem_singleton] at hid
            subst hid
            exact hnewrow
      exact ih db' _ hids' htm'
    · exact ih db _ hids htm

/-- Under distinct document ids, the id lists of two different titles in a
consistent title map are disjoint. -/
theorem titleMap_ids_disjoint (m : List (Str × List Nat)) (db : Db)
    (hnd : (db.documents.map (·.id)).Nodup) (htm : TitleMapOk m db)
    (t1 t2 : Str) (ids1 ids2 : List Nat)
    (h1 : (t1, ids1) ∈ m) (h2 : (t2, ids2) ∈ m) (hne : t1 ≠ t2)
    (a : Nat) (ha1 : a ∈ ids1) (ha2 : a ∈ ids2) : False := by
  obtain ⟨r1, hr1, hid1, ht1⟩ := htm (t1, ids1) h1 a ha1
  obtain ⟨r2, hr2, hid2, ht2⟩ := htm (t2, ids2) h2 a ha2
  have : r1 = r2 := docRow_eq_of_id_eq db hnd r1 r2 hr1 hr2 (hid1.trans hid2.symm)
  exact hne (ht1.symm.trans (this ▸ ht2))

/-- `insertChunkRows` only touches the chunk table. -/
theorem insertChunkRows_docs (rows : List (Str × Str × Nat × List ℚ)) :
    ∀ (db : Db),
      (insertChunkRows db rows).documents = db.documents ∧
        (insertChunkRows db rows).documentRelations = db.documentRelations ∧
        (insertChunkRows db rows).nextDocId = db.nextDocId := by
  induction rows with
  | nil => intro db; exact ⟨rfl, rfl, rfl⟩
  | cons row rest ih =>
    intro db
    rw [insertChunkRows, List.foldl_cons]
    split
    · exact ih db
    · exact ih _

/-- `insertSourceRows` only touches the junction table. -/
theorem insertSourceRows_docs (rows : List (Nat × Nat × Nat × Nat)) :
    ∀ (db : Db),
      (insertSourceRows db rows).documents = db.documents ∧
        (insertSourceRows db rows).documentRelations = db.documentRelations ∧
        (insertSourceRows db rows).nextDocId = db.nextDocId := by
  induction rows with
  | nil => intro db; exact ⟨rfl, rfl, rfl⟩
  | cons row rest ih =>
    intro db
    rw [insertSourceRows, List.foldl_cons]
    exact ih _

/-- Batched chunk-row insertion only touches the chunk table. -/
theorem insertChunkRows_batches (batches : List (List (Str × Str × Nat × List ℚ))) :
    ∀ (db : Db),
      (batches.foldl insertChunkRows db).documents = db.documents ∧
        (batches.foldl insertChunkRows db).documentRelations = db.documentRelations ∧
        (batches.foldl insertChunkRows db).nextDocId = db.nextDocId := by
  induction batches with
  | nil => intro db; exact ⟨rfl, rfl, rfl⟩
  | cons b bs ih =>
    intro db
    rw [List.foldl_cons]
    obtain ⟨h1, h2, h3⟩ := ih (insertChunkRows db b)
    obtain ⟨g1, g2, g3⟩ := insertChunkRows_docs b db
    exact ⟨h1.trans g1, h2.trans g2, h3.trans g3⟩

/-- Batched junction-row insertion only touches the junction table. -/
theorem insertSourceRows_batches (batches : List (List (Nat × Nat × Nat × Nat))) :
    ∀ (db : Db),
      (batches.foldl insertSourceRows db).documents = db.documents ∧
        (batches.foldl insertSourceRows db).documentRelations = db.documentRelations ∧
        (batches.foldl insertSourceRows db).nextDocId = db.nextDocId := by
  induction batches with
  | nil => intro db; exact ⟨rfl, rfl, rfl⟩
  | cons b bs ih =>
    intro db
    rw [List.foldl_cons]
    obtain ⟨h1, h2, h3⟩ := ih (insertSourceRows db b)
    obtain ⟨g1, g2, g3⟩ := insertSourceRows_docs b db
    exact ⟨h1.trans g1, h2.trans g2, h3.trans g3⟩

/-- Community write-back leaves the serial document counter alone. -/
theorem writeCommunities_nextDocId (groups : List (Nat × List Nat)) :
    ∀ (db : Db), (writeCommunities db groups).nextDocId = db.nextDocId := by
  induction groups with
  | nil => intro db; rfl
  | cons g rest ih =>
    intro db
    rw [writeCommunities, List.foldl_cons]
    have hbatch : ∀ (batches : List (List Nat)) (db0 : Db),
        ((batches.foldl (fun acc2 batch => updateCommunity acc2 batch g.1) db0)).nextDocId =
          db0.nextDocId := by
      intro batches
      induction batches with
      | nil => intro db0; rfl
      | cons b bs ihb => intro db0; rw [List.foldl_cons]; exact ihb _
    have h1 := ih ((chunksOf 500 g.2).foldl (fun acc2 batch => updateCommunity acc2 batch g.1) db)
    rw [writeCommunities] at h1
    exact h1.trans (hbatch _ db)

theorem detectCommunities_nextDocId (db : Db) :
    (detectCommunities db).2.nextDocId = db.nextDocId := by
  unfold detectCommunities
  split
  · rfl
  · exact writeCommunities_nextDocId _ db

theorem noSelfRel_transport (db db' : Db)
    (hrel : db'.documentRelations = db.documentRelations) (h : NoSelfRel db) :
    NoSelfRel db' := by
  unfold NoSelfRel
  rw [hrel]
  exact h

theorem idsOk_transport (db db' : Db) (hdocs : db'.documents = db.documents)
    (hnid : db'.nextDocId = db.nextDocId) (h : IdsOk db) : IdsOk db' := by
  unfold IdsOk
  rw [hdocs, hnid]
  exact h

theorem titleMapOk_transport (m : List (Str × List Nat)) (db db' : Db)
    (hdocs : db'.documents = db.documents) (h : TitleMapOk m db) : TitleMapOk m db' := by
  unfold TitleMapOk
  rw [hdocs]
  exact h

/-- Appending a fresh row carrying the serial id keeps ids well-formed. -/
theorem idsOk_append (db : Db) (h : IdsOk db) (row : DocRow) (hid : row.id = db.nextDocId) :
    IdsOk { db with documents := db.documents ++ [row], nextDocId := db.nextDocId + 1 } := by
  constructor
  · simp only [List.map_append, List.map_cons, List.map_nil]
    rw [List.nodup_append]
    refine ⟨h.1, List.nodup_singleton _, ?_⟩
    intro a ha hb
    rw [List.mem_singleton] at hb
    subst hb
    rw [List.mem_map] at ha
    obtain ⟨r, hr, hrid⟩ := ha
    have := h.2 r hr
    omega
  · intro r hr
    simp only [List.mem_append, List.mem_singleton] at hr
    show r.id < db.nextDocId + 1
    rcases hr with h1 | h1
    · have := h.2 r h1
      omega
    · subst h1
      omega

/-- Filing an id that belongs to a row with the given title keeps the title
map consistent. -/
theorem titleMapOk_update (db : Db) (m : List (Str × List Nat)) (t : Str) (i : Nat)
    (hrow : ∃ row ∈ db.documents, row.id = i ∧ row.title = t) (hm : TitleMapOk m db) :
    TitleMapOk (match alistGet m t with
      | some ids => alistSet m t (ids ++ [i])
      | none => alistSet m t [i]) db := by
  cases hg : alistGet m t with
  | some ids =>
    intro kv hkv id hid
    rcases alistSet_mem _ _ _ kv hkv with h1 | h1
    · exact hm kv h1 id hid
    · subst h1
      rw [List.mem_append, List.mem_singleton] at hid
      rcases hid with h2 | h2
      · exact hm (t, ids) (alistGet_mem _ _ _ hg) id h2
      · subst h2
        exact hrow
  | none =>
    intro kv hkv id hid
    rcases alistSet_mem _ _ _ kv hkv with h1 | h1
    · exact hm kv h1 id hid
    · subst h1
      rw [List.mem_singleton] at hid
      subst hid
      exact hrow

/-- The document-driven extension of a title map stays consistent. -/
theorem titleMapOk_docFold (db : Db) :
    ∀ (ds : List DocRow) (m : List (Str × List Nat)),
      (∀ d ∈ ds, d ∈ db.documents) → TitleMapOk m db →
      TitleMapOk (ds.foldl (fun m2 d =>
        match alistGet m2 d.title with
        | some ids => alistSet m2 d.title (ids ++ [d.id])
        | none => alistSet m2 d.title [d.id]) m) db := by
  intro ds
  induction ds with
  | nil => intro m _ hm; exact hm
  | cons d rest ih =>
    intro m hsub hm
    rw [List.foldl_cons]
    refine ih _ (fun x hx => hsub x (List.mem_cons_of_mem _ hx)) ?_
    exact titleMapOk_update db m d.title d.id
      ⟨d, hsub d (List.mem_cons_self _ _), rfl, rfl⟩ hm

/-- The batched missing-title extension of `insertRelations` stays
consistent. -/
theorem titleMapOk_batches (db : Db) (batches : List (List Str)) :
    ∀ (m : List (Str × List Nat)), TitleMapOk m db →
      TitleMapOk (batches.foldl (fun m batch =>
        (db.documents.filter fun d => d.title ∈ batch).foldl
          (fun m2 d =>
            match alistGet m2 d.title with
            | some ids => alistSet m2 d.title (ids ++ [d.id])
            | none => alistSet m2 d.title [d.id]) m) m) db := by
  induction batches with
  | nil => intro m hm; exact hm
  | cons b bs ih =>
    intro m hm
    rw [List.foldl_cons]
    refine ih _ ?_
    exact titleMapOk_docFold db _ m
      (fun d hd => (List.mem_filter.mp hd).1) hm

/-- Inner target loop of `insertRelations`: every resolved pair joins ids of
two distinct titles, so under a consistent map its components differ. -/
theorem resolvedPairs_inner (db : Db) (mA : List (Str × List Nat))
    (hnd : (db.documents.map (·.id)).Nodup) (htmA : TitleMapOk mA db)
    (t1 : Str) (sourceIds : List Nat) (hsrc : (t1, sourceIds) ∈ mA) :
    ∀ (raws : List RelTarget)
      (acc2 : List (Nat × Nat × Option Str × Option ℚ) × List Str),
      (∀ pr ∈ acc2.1, pr.1 ≠ pr.2.1) →
      ∀ pr ∈ (raws.foldl (fun acc2 raw =>
          if (parseRelTarget raw).1 = t1 then acc2
          else
            match alistGet mA (parseRelTarget raw).1 with
            | some targetIds =>
              (acc2.1 ++ sourceIds.flatMap fun sId =>
                targetIds.map fun tId =>
                  (sId, tId, (parseRelTarget raw).2.1, (parseRelTarget raw).2.2),
               acc2.2)
            | none => (acc2.1, acc2.2 ++ [(parseRelTarget raw).1])) acc2).1,
        pr.1 ≠ pr.2.1 := by
  intro raws
  induction raws with
  | nil => intro acc2 hacc; exact hacc
  | cons raw rest ih =>
    intro acc2 hacc
    rw [List.foldl_cons]
    have hstep : ∀ pr ∈ (if (parseRelTarget raw).1 = t1 then acc2
        else
          match alistGet mA (parseRelTarget raw).1 with
          | some targetIds =>
            (acc2.1 ++ sourceIds.flatMap fun sId =>
              targetIds.map fun tId =>
                (sId, tId, (parseRelTarget raw).2.1, (parseRelTarget raw).2.2),
             acc2.2)
          | none => (acc2.1, acc2.2 ++ [(parseRelTarget raw).1])).1,
        pr.1 ≠ pr.2.1 := by
      by_cases hteq : (parseRelTarget raw).1 = t1
      · rw [if_pos hteq]
        exact hacc
      · rw [if_neg hteq]
        cases hg : alistGet mA (parseRelTarget raw).1 with
        | none => exact hacc
        | some targetIds =>
          intro pr hpr
          have hpr' : pr ∈ acc2.1 ++ sourceIds.flatMap fun sId =>
              targetIds.map fun tId =>
                (sId, tId, (parseRelTarget raw).2.1, (parseRelTarget raw).2.2) := hpr
          rcases List.mem_append.mp hpr' with h1 | h1
          · exact hacc pr h1
          · obtain ⟨sId, hs, hpr2⟩ := List.mem_flatMap.mp h1
            obtain ⟨tId, ht, hpr3⟩ := List.mem_map.mp hpr2
            subst hpr3
            intro heq
            have heq' : sId = tId := heq
            exact titleMap_ids_disjoint mA db hnd htmA t1 (parseRelTarget raw).1
              sourceIds targetIds hsrc (alistGet_mem _ _ _ hg)
              (fun h => hteq h.symm) sId hs (heq' ▸ ht)
    exact ih _ hstep

/-- Every pair produced by the resolution fold of `insertRelations` has
distinct source and target ids. -/
theorem resolvedPairs (db : Db) (mA : List (Str × List Nat))
    (hnd : (db.documents.map (·.id)).Nodup) (htmA : TitleMapOk mA db) :
    ∀ (rels : List (Str × List RelTarget))
      (acc : List (Nat × Nat × Option Str × Option ℚ) × List Str),
      (∀ pr ∈ acc.1, pr.1 ≠ pr.2.1) →
      ∀ pr ∈ (rels.foldl (fun acc kv =>
          match alistGet mA kv.1 with
          | none => acc
          | some sourceIds =>
            kv.2.foldl (fun acc2 raw =>
              if (parseRelTarget raw).1 = kv.1 then acc2
              else
                match alistGet mA (parseRelTarget raw).1 with
                | some targetIds =>
                  (acc2.1 ++ sourceIds.flatMap fun sId =>
                    targetIds.map fun tId =>
                      (sId, tId, (parseRelTarget raw).2.1, (parseRelTarget raw).2.2),
                   acc2.2)
                | none => (acc2.1, acc2.2 ++ [(parseRelTarget raw).1])) acc) acc).1,
        pr.1 ≠ pr.2.1 := by
  intro rels
  induction rels with
  | nil => intro acc hacc; exact hacc
  | cons kv rest ih =>
    intro acc hacc
    rw [List.foldl_cons]
    have hstep : ∀ pr ∈ (match alistGet mA kv.1 with
        | none => acc
        | some sourceIds =>
          kv.2.foldl (fun acc2 raw =>
            if (parseRelTarget raw).1 = kv.1 then acc2
            else
              match alistGet mA (parseRelTarget raw).1 with
              | some targetIds =>
                (acc2.1 ++ sourceIds.flatMap fun sId =>
                  targetIds.map fun tId =>
                    (sId, tId, (parseRelTarget raw).2.1, (parseRelTarget raw).2.2),
                 acc2.2)
              | none => (acc2.1, acc2.2 ++ [(parseRelTarget raw).1])) acc).1,
        pr.1 ≠ pr.2.1 := by
      cases hg : alistGet mA kv.1 with
      | none => exact hacc
      | some sourceIds =>
        exact resolvedPairs_inner db mA hnd htmA kv.1 sourceIds
          (alistGet_mem _ _ _ hg) kv.2 acc hacc
    exact ih _ hstep

/-- The insertion fold of `insertRelations` preserves absence of
self-relations when every inserted pair has distinct components, and never
touches the document table. -/
theorem insRelFold_noSelfRel :
    ∀ (rows : List (Nat × Nat × Option Str × Option ℚ)) (st : Nat × Db),
      (∀ r ∈ rows, r.1 ≠ r.2.1) → NoSelfRel st.2 →
      NoSelfRel (rows.foldl (fun st row =>
        if st.2.documentRelations.any fun r =>
            r.sourceId = row.1 ∧ r.targetId = row.2.1 then st
        else
          (st.1 + 1,
            { st.2 with
              documentRelations := st.2.documentRelations ++
                [⟨st.2.nextRelId, row.1, row.2.1, row.2.2.1, some ((row.2.2.2).getD 1)⟩],
              nextRelId := st.2.nextRelId + 1 })) st).2 ∧
        (rows.foldl (fun st row =>
          if st.2.documentRelations.any fun r =>
              r.sourceId = row.1 ∧ r.targetId = row.2.1 then st
          else
            (st.1 + 1,
              { st.2 with
                documentRelations := st.2.documentRelations ++
                  [⟨st.2.nextRelId, row.1, row.2.1, row.2.2.1, some ((row.2.2.2).getD 1)⟩],
                nextRelId := st.2.nextRelId + 1 })) st).2.documents = st.2.documents ∧
        (rows.foldl (fun st row =>
          if st.2.documentRelations.any fun r =>
              r.sourceId = row.1 ∧ r.targetId = row.2.1 then st
          else
            (st.1 + 1,
              { st.2 with
                documentRelations := st.2.documentRelations ++
                  [⟨st.2.nextRelId, row.1, row.2.1, row.2.2.1, some ((row.2.2.2).getD 1)⟩],
                nextRelId := st.2.nextRelId + 1 })) st).2.nextDocId = st.2.nextDocId := by
  intro rows
  induction rows with
  | nil => intro st _ hns; exact ⟨hns, rfl, rfl⟩
  | cons row rest ih =>
    intro st hpr hns
    rw [List.foldl_cons]
    have hstepNs : NoSelfRel (if st.2.documentRelations.any fun r =>
        r.sourceId = row.1 ∧ r.targetId = row.2.1 then st
      else
        (st.1 + 1,
          { st.2 with
            documentRelations := st.2.documentRelations ++
              [⟨st.2.nextRelId, row.1, row.2.1, row.2.2.1, some ((row.2.2.2).getD 1)⟩],
            nextRelId := st.2.nextRelId + 1 })).2 := by
      split
      · exact hns
      · intro r hr
        have hr' : r ∈ st.2.documentRelations ++
            [⟨st.2.nextRelId, row.1, row.2.1, row.2.2.1, some ((row.2.2.2).getD 1)⟩] := hr
        rcases List.mem_append.mp hr' with h1 | h1
        · exact hns r h1
        · rw [List.mem_singleton] at h1
          subst h1
          exact hpr row (List.mem_cons_self _ _)
    obtain ⟨g1, g2, g3⟩ := ih _ (fun r hr => hpr r (List.mem_cons_of_mem _ hr)) hstepNs
    refine ⟨g1, g2.trans ?_, g3.trans ?_⟩
    · split
      · rfl
      · rfl
    · split
      · rfl
      · rfl

/-- `insertRelations` preserves absence of self-relations whenever document
ids are distinct and the supplied title map is consistent; it also leaves the
document table and its serial counter alone. -/
theorem insertRelations_noSelfRel (db : Db) (m : List (Str × List Nat))
    (rels : List (Str × List RelTarget))
    (hnd : (db.documents.map (·.id)).Nodup) (htm : TitleMapOk m db)
    (hns : NoSelfRel db) :
    NoSelfRel (insertRelations db m rels).2.2 ∧
      (insertRelations db m rels).2.2.documents = db.documents ∧
      (insertRelations db m rels).2.2.nextDocId = db.nextDocId := by
  have htm0 : TitleMapOk (m.map fun kv => (kv.1, kv.2)) db := by
    have he : (m.map fun kv => (kv.1, kv.2)) = m := by simp
    rw [he]
    exact htm
  have htmAll : TitleMapOk (if ((firstOccur (rels.flatMap fun kv =>
        kv.1 :: kv.2.map fun t => (parseRelTarget t).1)).filter fun t =>
          (alistGet (m.map fun kv => (kv.1, kv.2)) t).isNone).isEmpty then
        m.map fun kv => (kv.1, kv.2)
      else
        (chunksOf 500 ((firstOccur (rels.flatMap fun kv =>
          kv.1 :: kv.2.map fun t => (parseRelTarget t).1)).filter fun t =>
            (alistGet (m.map fun kv => (kv.1, kv.2)) t).isNone)).foldl (fun m batch =>
          (db.documents.filter fun d => d.title ∈ batch).foldl
            (fun m2 d =>
              match alistGet m2 d.title with
              | some ids => alistSet m2 d.title (ids ++ [d.id])
              | none => alistSet m2 d.title [d.id]) m)
          (m.map fun kv => (kv.1, kv.2))) db := by
    split
    · exact htm0
    · exact titleMapOk_batches db _ _ htm0
  have hpairs := resolvedPairs db _ hnd htmAll rels
    (([] : List (Nat × Nat × Option Str × Option ℚ)), ([] : List Str))
    (fun pr hpr => absurd hpr (List.not_mem_nil _))
  have hkey := insRelFold_noSelfRel _ ((0 : Nat), db) hpairs hns
  exact ⟨hkey.1, hkey.2.1, hkey.2.2⟩

/-- A state with the same row cores and serial counter keeps ids
well-formed. -/
theorem idsOk_of_core (db db' : Db)
    (hmap : db'.documents.map docCore = db.documents.map docCore)
    (hnid : db'.nextDocId = db.nextDocId) (h : IdsOk db) : IdsOk db' := by
  have hids : db'.documents.map (·.id) = db.documents.map (·.id) := by
    have h1 : (db'.documents.map docCore).map (·.1) =
        (db.documents.map docCore).map (·.1) := by rw [hmap]
    simpa [List.map_map, Function.comp, docCore] using h1
  constructor
  · rw [hids]
    exact h.1
  · intro row hrow
    have : row.id ∈ db'.documents.map (·.id) := List.mem_map_of_mem _ hrow
    rw [hids] at this
    obtain ⟨r, hr, hre⟩ := List.mem_map.mp this
    have := h.2 r hr
    rw [hnid]
    omega

/-- `ingest` preserves the no-self-relation invariant together with id
well-formedness, with no hypotheses on the documents or the config. -/
theorem ingest_noSelfRel (hash : Str → Str) (db : Db) (docs : List Doc)
    (cfg : IngestConfig) (hns : NoSelfRel db) (hids : IdsOk db) :
    NoSelfRel (ingest hash db docs cfg).2.2 ∧ IdsOk (ingest hash db docs cfg).2.2 := by
  have htmE : TitleMapOk (⟨0, 0, [], [], []⟩ : IngestAcc).titleToNewIds db := by
    intro kv hkv
    cases hkv
  obtain ⟨hids1, htm1, hrelEq⟩ :=
    ingestDocsLoop_invariants hash cfg docs db ⟨0, 0, [], [], []⟩ hids htmE
  set step1 := ingestDocsLoop hash cfg docs db ⟨0, 0, [], [], []⟩ with hstep1
  set acc := step1.1 with haccd
  set db1 := step1.2 with hdb1
  have hns1 : NoSelfRel db1 := noSelfRel_transport db db1 hrelEq hns
  set uniqueEntries := acc.dedupMap.map (·.2) with hue
  set allHashes := uniqueEntries.map (·.textHash) with hah
  set existingHashes := lookupExistingHashes db1 allHashes with heh
  set newEntries0 := uniqueEntries.filter (fun e => e.textHash ∉ existingHashes) with hne0
  set newEntries := embedNewEntries cfg.embed (cfg.batchSize.getD 64) newEntries0 with hne
  set chunkRows := newEntries.filterMap
    (fun e => e.embedding.map fun emb => (e.text, e.textHash, e.tokenCount, emb)) with hcr
  set db2 := (if chunkRows.isEmpty then db1 else
    (chunksOf 500 chunkRows).foldl insertChunkRows db1) with hdb2
  have h2 : db2.documents = db1.documents ∧
      db2.documentRelations = db1.documentRelations ∧ db2.nextDocId = db1.nextDocId := by
    rw [hdb2]
    split
    · exact ⟨rfl, rfl, rfl⟩
    · exact insertChunkRows_batches _ db1
  set hashToId := (if allHashes.isEmpty then ([] : List (Str × Nat)) else
    fetchHashToId db2 allHashes) with hh2i
  set sourceRows := uniqueEntries.flatMap (fun e =>
    match alistGet hashToId e.textHash with
    | some cid => e.sources.map fun s => (cid, s.docId, s.endIndex, s.startIndex)
    | none => []) with hsr
  set db3 := (if sourceRows.isEmpty then db2 else
    (chunksOf 500 sourceRows).foldl insertSourceRows db2) with hdb3
  have h3 : db3.documents = db1.documents ∧
      db3.documentRelations = db1.documentRelations ∧ db3.nextDocId = db1.nextDocId := by
    rw [hdb3]
    split
    · exact h2
    · obtain ⟨g1, g2, g3⟩ := insertSourceRows_batches _ db2
      exact ⟨g1.trans h2.1, g2.trans h2.2.1, g3.trans h2.2.2⟩
  have hns3 : NoSelfRel db3 := noSelfRel_transport db1 db3 h3.2.1 hns1
  have hids3 : IdsOk db3 := idsOk_transport db1 db3 h3.1 h3.2.2 hids1
  have htm3 : TitleMapOk acc.titleToNewIds db3 :=
    titleMapOk_transport _ db1 db3 h3.1 htm1
  set rel := (match cfg.relations with
    | some relations => insertRelations db3 acc.titleToNewIds relations
    | none => ((0 : Nat), ([] : List Str), db3)) with hrel
  have hrelF : NoSelfRel rel.2.2 ∧ rel.2.2.documents = db3.documents ∧
      rel.2.2.nextDocId = db3.nextDocId := by
    rw [hrel]
    cases cfg.relations with
    | none => exact ⟨hns3, rfl, rfl⟩
    | some rels => exact insertRelations_noSelfRel db3 _ rels hids3.1 htm3 hns3
  have hidsR : IdsOk rel.2.2 := idsOk_transport db3 _ hrelF.2.1 hrelF.2.2 hids3
  set comm := (match cfg.relations with
    | some _ => detectCommunities rel.2.2
    | none => ((0 : Nat), rel.2.2)) with hcomm
  have hfinal : NoSelfRel comm.2 ∧ IdsOk comm.2 := by
    rw [hcomm]
    cases cfg.relations with
    | none => exact ⟨hrelF.1, hidsR⟩
    | some rels =>
      obtain ⟨c1, c2, c3⟩ := detectCommunities_core rel.2.2
      have c4 := detectCommunities_nextDocId rel.2.2
      exact ⟨noSelfRel_transport _ _ c3 hrelF.1, idsOk_of_core _ _ c1 c4 hidsR⟩
  exact hfinal

/-- The chunk loop of a backup transaction never touches documents,
relations, or the document serial counter. -/
theorem txChunkLoop_state (o : InsOp → Bool) (hash : Str → Str) (docId : Nat) :
    ∀ (cs : List BackupChunk) (st st' : Nat × Db),
      txChunkLoop o hash docId cs st = .ok st' →
      st'.2.documents = st.2.documents ∧
        st'.2.documentRelations = st.2.documentRelations ∧
        st'.2.nextDocId = st.2.nextDocId := by
  intro cs
  induction cs with
  | nil =>
    intro st st' h
    rw [txChunkLoop] at h
    cases h
    exact ⟨rfl, rfl, rfl⟩
  | cons c rest ih =>
    intro st st' h
    obtain ⟨cnt, db⟩ := st
    rw [txChunkLoop] at h
    by_cases ho : o (.chunk (hash c.text))
    · rw [if_pos ho] at h
      cases h
    · rw [if_neg ho] at h
      by_cases hdup : db.chunks.any fun ch => ch.textHash = hash c.text
      all_goals (
        first
          | rw [if_pos hdup] at h
          | rw [if_neg hdup] at h)
      all_goals (
        simp only [] at h
        split at h
        · split at h
          · cases h
          · obtain ⟨g1, g2, g3⟩ := ih _ _ h
            exact ⟨g1, g2, g3⟩
        · obtain ⟨g1, g2, g3⟩ := ih _ _ h
          exact ⟨g1, g2, g3⟩)

/-- A successful backup transaction appends exactly the new document row. -/
theorem importDocTx_state (o : InsOp → Bool) (hash : Str → Str) (db : Db)
    (doc : BackupDoc) (st' : Nat × Db)
    (h : importDocTx o hash db doc = .ok st') :
    st'.2.documents = db.documents ++
        [⟨db.nextDocId, doc.title, doc.content, doc.contentHash, doc.metadata,
          doc.communityId⟩] ∧
      st'.2.documentRelations = db.documentRelations ∧
      st'.2.nextDocId = db.nextDocId + 1 := by
  rw [importDocTx] at h
  rw [txInsertDocument] at h
  by_cases ho : o (.doc doc.contentHash)
  · rw [if_pos ho] at h
    cases h
  · rw [if_neg ho] at h
    simp only [] at h
    obtain ⟨g1, g2, g3⟩ := txChunkLoop_state o hash db.nextDocId doc.chunks _ _ h
    exact ⟨g1, g2, g3⟩

/-- Whether `importBackup`'s document loop succeeds or aborts, its final
state keeps ids well-formed, leaves the relation table alone, and only adds
document rows whose title and content hash come from one of the processed
lines. -/
theorem importDocsLoop_invariants (o : InsOp → Bool) (hash : Str → Str)
    (dimension : Option Nat) :
    ∀ (docs : List BackupDoc) (db : Db) (cnts : ImportCounters),
      IdsOk db →
      IdsOk (importState (importDocsLoop o hash dimension docs db cnts)) ∧
        (importState (importDocsLoop o hash dimension docs db cnts)).documentRelations =
          db.documentRelations ∧
        ∀ row ∈ (importState (importDocsLoop o hash dimension docs db cnts)).documents,
          row ∈ db.documents ∨
            ∃ d ∈ docs, row.title = d.title ∧ row.contentHash = d.contentHash := by
  intro docs
  induction docs with
  | nil =>
    intro db cnts hids
    rw [importDocsLoop]
    exact ⟨hids, rfl, fun row hrow => Or.inl hrow⟩
  | cons doc rest ih =>
    intro db cnts hids
    rw [importDocsLoop]
    by_cases hdm : dimMismatch dimension doc
    · rw [if_pos hdm]
      obtain ⟨g1, g2, g3⟩ := ih db _ hids
      refine ⟨g1, g2, fun row hrow => ?_⟩
      rcases g3 row hrow with h1 | ⟨d, hd, he⟩
      · exact Or.inl h1
      · exact Or.inr ⟨d, List.mem_cons_of_mem _ hd, he⟩
    · rw [if_neg hdm]
      by_cases habs : ((db.documents.filter fun d =>
          d.contentHash = doc.contentHash).take 1).isEmpty = true
      · rw [if_pos habs]
        cases htx : importDocTx o hash db doc with
        | error e =>
          exact ⟨hids, rfl, fun row hrow => Or.inl hrow⟩
        | ok st =>
          obtain ⟨t1, t2, t3⟩ := importDocTx_state o hash db doc st htx
          have hidsSt : IdsOk st.2 :=
            idsOk_transport
              { db with
                documents := db.documents ++
                  [⟨db.nextDocId, doc.title, doc.content, doc.contentHash,
                    doc.metadata, doc.communityId⟩],
                nextDocId := db.nextDocId + 1 } st.2 t1 t3
              (idsOk_append db hids _ rfl)
          obtain ⟨g1, g2, g3⟩ := ih st.2 _ hidsSt
          refine ⟨g1, g2.trans t2, fun row hrow => ?_⟩
          rcases g3 row hrow with h1 | ⟨d, hd, he⟩
          · rw [t1] at h1
            rcases List.mem_append.mp h1 with h2 | h2
            · exact Or.inl h2
            · rw [List.mem_singleton] at h2
              subst h2
              exact Or.inr ⟨doc, List.mem_cons_self _ _, rfl, rfl⟩
          · exact Or.inr ⟨d, List.mem_cons_of_mem _ hd, he⟩
      · rw [if_neg habs]
        obtain ⟨g1, g2, g3⟩ := ih db _ hids
        refine ⟨g1, g2, fun row hrow => ?_⟩
        rcases g3 row hrow with h1 | ⟨d, hd, he⟩
        · exact Or.inl h1
        · exact Or.inr ⟨d, List.mem_cons_of_mem _ hd, he⟩

/-- When no stored row shares a content hash with a line of a different
title, the imported-ids map is consistent with the document table. -/
theorem buildTitleToImportedIds_ok (db : Db) (docs : List BackupDoc)
    (hht : ∀ doc ∈ docs, ∀ row ∈ db.documents,
      row.contentHash = doc.contentHash → row.title = doc.title) :
    TitleMapOk (buildTitleToImportedIds db docs) db := by
  have hfold : ∀ (docs' : List BackupDoc) (m : List (Str × List Nat)),
      (∀ doc ∈ docs', ∀ row ∈ db.documents,
        row.contentHash = doc.contentHash → row.title = doc.title) →
      TitleMapOk m db →
      TitleMapOk (docs'.foldl (fun m doc =>
        match ((db.documents.filter fun d =>
            d.contentHash = doc.contentHash).take 1).head? with
        | some row =>
          match alistGet m doc.title with
          | some ids => alistSet m doc.title (ids ++ [row.id])
          | none => alistSet m doc.title [row.id]
        | none => m) m) db := by
    intro docs'
    induction docs' with
    | nil => intro m _ hm; exact hm
    | cons doc rest ih =>
      intro m hh hm
      rw [List.foldl_cons]
      refine ih _ (fun d hd => hh d (List.mem_cons_of_mem _ hd)) ?_
      cases hhead : ((db.documents.filter fun d =>
          d.contentHash = doc.contentHash).take 1).head? with
      | none => exact hm
      | some row =>
        have hmem1 : row ∈ (db.documents.filter fun d =>
            d.contentHash = doc.contentHash).take 1 :=
          List.mem_of_mem_head? hhead
        have hmem2 : row ∈ db.documents.filter fun d =>
            d.contentHash = doc.contentHash :=
          List.take_subset 1 _ hmem1
        obtain ⟨hmemd, hhash⟩ := List.mem_filter.mp hmem2
        have hh2 : row.contentHash = doc.contentHash := by simpa using hhash
        have htitle : row.title = doc.title :=
          hh doc (List.mem_cons_self _ _) row hmemd hh2
        exact titleMapOk_update db m doc.title row.id ⟨row, hmemd, rfl, htitle⟩ hm
  exact hfold docs [] hht (fun kv hkv => absurd hkv (List.not_mem_nil _))

/-- The pair-insertion fold of `importRelations` preserves absence of
self-relations when every pair has distinct components. -/
theorem importRelFold_pairs (ot : Option Str) (ow : Option ℚ) :
    ∀ (prs : List (Nat × Nat)) (acc : Db),
      (∀ pr ∈ prs, pr.1 ≠ pr.2) → NoSelfRel acc →
      NoSelfRel (prs.foldl (fun acc3 pr =>
        if acc3.documentRelations.any fun r =>
            r.sourceId = pr.1 ∧ r.targetId = pr.2 then acc3
        else
          { acc3 with
            documentRelations := acc3.documentRelations ++
              [⟨acc3.nextRelId, pr.1, pr.2, ot, some (ow.getD 1)⟩],
            nextRelId := acc3.nextRelId + 1 }) acc) ∧
        (prs.foldl (fun acc3 pr =>
          if acc3.documentRelations.any fun r =>
              r.sourceId = pr.1 ∧ r.targetId = pr.2 then acc3
          else
            { acc3 with
              documentRelations := acc3.documentRelations ++
                [⟨acc3.nextRelId, pr.1, pr.2, ot, some (ow.getD 1)⟩],
              nextRelId := acc3.nextRelId + 1 }) acc).documents = acc.documents ∧
        (prs.foldl (fun acc3 pr =>
          if acc3.documentRelations.any fun r =>
              r.sourceId = pr.1 ∧ r.targetId = pr.2 then acc3
          else
            { acc3 with
              documentRelations := acc3.documentRelations ++
                [⟨acc3.nextRelId, pr.1, pr.2, ot, some (ow.getD 1)⟩],
              nextRelId := acc3.nextRelId + 1 }) acc).nextDocId = acc.nextDocId := by
  intro prs
  induction prs with
  | nil => intro acc _ hns; exact ⟨hns, rfl, rfl⟩
  | cons pr rest ih =>
    intro acc hpr hns
    rw [List.foldl_cons]
    have hstepNs : NoSelfRel (if acc.documentRelations.any fun r =>
        r.sourceId = pr.1 ∧ r.targetId = pr.2 then acc
      else
        { acc with
          documentRelations := acc.documentRelations ++
            [⟨acc.nextRelId, pr.1, pr.2, ot, some (ow.getD 1)⟩],
          nextRelId := acc.nextRelId + 1 }) := by
      split
      · exact hns
      · intro r hr
        have hr' : r ∈ acc.documentRelations ++
            [⟨acc.nextRelId, pr.1, pr.2, ot, some (ow.getD 1)⟩] := hr
        rcases List.mem_append.mp hr' with h1 | h1
        · exact hns r h1
        · rw [List.mem_singleton] at h1
          subst h1
          exact hpr pr (List.mem_cons_self _ _)
    obtain ⟨g1, g2, g3⟩ := ih _ (fun x hx => hpr x (List.mem_cons_of_mem _ hx)) hstepNs
    refine ⟨g1, g2.trans ?_, g3.trans ?_⟩
    · split
      · rfl
      · rfl
    · split
      · rfl
      · rfl

/-- The per-line relation fold of `importRelations` preserves absence of
self-relations under a consistent imported-ids map. -/
theorem importRelations_relFold (db0 : Db) (tmap : List (Str × List Nat))
    (hnd : (db0.documents.map (·.id)).Nodup) (htm : TitleMapOk tmap db0)
    (t0 : Str) (sourceIds : List Nat) (hsrc : (t0, sourceIds) ∈ tmap) :
    ∀ (rels : List (Str × Option Str × Option ℚ)) (acc : Db),
      NoSelfRel acc → acc.documents = db0.documents → acc.nextDocId = db0.nextDocId →
      NoSelfRel (rels.foldl (fun acc2 rel =>
        if rel.1 = t0 then acc2
        else
          match alistGet tmap rel.1 with
          | none => acc2
          | some targetIds =>
            (sourceIds.flatMap fun sId => targetIds.map fun tId => (sId, tId)).foldl
              (fun acc3 pr =>
                if acc3.documentRelations.any fun r =>
                    r.sourceId = pr.1 ∧ r.targetId = pr.2 then acc3
                else
                  { acc3 with
                    documentRelations := acc3.documentRelations ++
                      [⟨acc3.nextRelId, pr.1, pr.2, rel.2.1, some ((rel.2.2).getD 1)⟩],
                    nextRelId := acc3.nextRelId + 1 }) acc2) acc) ∧
        (rels.foldl (fun acc2 rel =>
          if rel.1 = t0 then acc2
          else
            match alistGet tmap rel.1 with
            | none => acc2
            | some targetIds =>
              (sourceIds.flatMap fun sId => targetIds.map fun tId => (sId, tId)).foldl
                (fun acc3 pr =>
                  if acc3.documentRelations.any fun r =>
                      r.sourceId = pr.1 ∧ r.targetId = pr.2 then acc3
                  else
                    { acc3 with
                      documentRelations := acc3.documentRelations ++
                        [⟨acc3.nextRelId, pr.1, pr.2, rel.2.1, some ((rel.2.2).getD 1)⟩],
                      nextRelId := acc3.nextRelId + 1 }) acc2) acc).documents =
          db0.documents ∧
        (rels.foldl (fun acc2 rel =>
          if rel.1 = t0 then acc2
          else
            match alistGet tmap rel.1 with
            | none => acc2
            | some targetIds =>
              (sourceIds.flatMap fun sId => targetIds.map fun tId => (sId, tId)).foldl
                (fun acc3 pr =>
                  if acc3.documentRelations.any fun r =>
                      r.sourceId = pr.1 ∧ r.targetId = pr.2 then acc3
                  else
                    { acc3 with
                      documentRelations := acc3.documentRelations ++
                        [⟨acc3.nextRelId, pr.1, pr.2, rel.2.1, some ((rel.2.2).getD 1)⟩],
                      nextRelId := acc3.nextRelId + 1 }) acc2) acc).nextDocId =
          db0.nextDocId := by
  intro rels
  induction rels with
  | nil => intro acc hns hd hn; exact ⟨hns, hd, hn⟩
  | cons rel rest ih =>
    intro acc hns hd hn
    rw [List.foldl_cons]
    by_cases hteq : rel.1 = t0
    · have he : (if rel.1 = t0 then acc
          else
            match alistGet tmap rel.1 with
            | none => acc
            | some targetIds =>
              (sourceIds.flatMap fun sId => targetIds.map fun tId => (sId, tId)).foldl
                (fun acc3 pr =>
                  if acc3.documentRelations.any fun r =>
                      r.sourceId = pr.1 ∧ r.targetId = pr.2 then acc3
                  else
                    { acc3 with
                      documentRelations := acc3.documentRelations ++
                        [⟨acc3.nextRelId, pr.1, pr.2, rel.2.1, some ((rel.2.2).getD 1)⟩],
                      nextRelId := acc3.nextRelId + 1 }) acc) = acc := if_pos hteq
      rw [he]
      exact ih acc hns hd hn
    · have he : (if rel.1 = t0 then acc
          else
            match alistGet tmap rel.1 with
            | none => acc
            | some targetIds =>
              (sourceIds.flatMap fun sId => targetIds.map fun tId => (sId, tId)).foldl
                (fun acc3 pr =>
                  if acc3.documentRelations.any fun r =>
                      r.sourceId = pr.1 ∧ r.targetId = pr.2 then acc3
                  else
                    { acc3 with
                      documentRelations := acc3.documentRelations ++
                        [⟨acc3.nextRelId, pr.1, pr.2, rel.2.1, some ((rel.2.2).getD 1)⟩],
                      nextRelId := acc3.nextRelId + 1 }) acc) =
          (match alistGet tmap rel.1 with
            | none => acc
            | some targetIds =>
              (sourceIds.flatMap fun sId => targetIds.map fun tId => (sId, tId)).foldl
                (fun acc3 pr =>
                  if acc3.documentRelations.any fun r =>
                      r.sourceId = pr.1 ∧ r.targetId = pr.2 then acc3
                  else
                    { acc3 with
                      documentRelations := acc3.documentRelations ++
                        [⟨acc3.nextRelId, pr.1, pr.2, rel.2.1, some ((rel.2.2).getD 1)⟩],
                      nextRelId := acc3.nextRelId + 1 }) acc) := if_neg hteq
      rw [he]
      cases hg : alistGet tmap rel.1 with
      | none => exact ih acc hns hd hn
      | some targetIds =>
        have hpairs : ∀ pr ∈ sourceIds.flatMap fun sId =>
            targetIds.map fun tId => (sId, tId), pr.1 ≠ pr.2 := by
          intro pr hpr
          obtain ⟨sId, hs, hpr2⟩ := List.mem_flatMap.mp hpr
          obtain ⟨tId, ht, hpr3⟩ := List.mem_map.mp hpr2
          subst hpr3
          intro heq
          have heq' : sId = tId := heq
          exact titleMap_ids_disjoint tmap db0 hnd htm t0 rel.1
            sourceIds targetIds hsrc (alistGet_mem _ _ _ hg)
            (fun h => hteq h.symm) sId hs (heq' ▸ ht)
        obtain ⟨g1, g2, g3⟩ := importRelFold_pairs rel.2.1 rel.2.2 _ acc hpairs hns
        exact ih _ g1 (g2.trans hd) (g3.trans hn)

/-- One line's step in the relation pass of `importBackup` preserves absence
of self-relations under a consistent imported-ids map. -/
theorem importRelations_step (db0 : Db) (tmap : List (Str × List Nat))
    (hnd : (db0.documents.map (·.id)).Nodup) (htm : TitleMapOk tmap db0)
    (doc : BackupDoc) (acc : Db) (hnsA : NoSelfRel acc)
    (hd : acc.documents = db0.documents) (hn : acc.nextDocId = db0.nextDocId) :
    NoSelfRel (match doc.relations with
      | none => acc
      | some rels =>
        if rels.isEmpty then acc
        else
          match alistGet tmap doc.title with
          | none => acc
          | some sourceIds =>
            rels.foldl (fun (acc2 : Db) (rel : Str × Option Str × Option ℚ) =>
              if rel.1 = doc.title then acc2
              else
                match alistGet tmap rel.1 with
                | none => acc2
                | some targetIds =>
                  (sourceIds.flatMap fun sId =>
                    targetIds.map fun tId => (sId, tId)).foldl
                    (fun (acc3 : Db) (pr : Nat × Nat) =>
                      if acc3.documentRelations.any fun r =>
                          r.sourceId = pr.1 ∧ r.targetId = pr.2 then acc3
                      else
                        { acc3 with
                          documentRelations := acc3.documentRelations ++
                            [⟨acc3.nextRelId, pr.1, pr.2, rel.2.1,
                              some ((rel.2.2).getD 1)⟩],
                          nextRelId := acc3.nextRelId + 1 }) acc2) acc) ∧
      (match doc.relations with
      | none => acc
      | some rels =>
        if rels.isEmpty then acc
        else
          match alistGet tmap doc.title with
          | none => acc
          | some sourceIds =>
            rels.foldl (fun (acc2 : Db) (rel : Str × Option Str × Option ℚ) =>
              if rel.1 = doc.title then acc2
              else
                match alistGet tmap rel.1 with
                | none => acc2
                | some targetIds =>
                  (sourceIds.flatMap fun sId =>
                    targetIds.map fun tId => (sId, tId)).foldl
                    (fun (acc3 : Db) (pr : Nat × Nat) =>
                      if acc3.documentRelations.any fun r =>
                          r.sourceId = pr.1 ∧ r.targetId = pr.2 then acc3
                      else
                        { acc3 with
                          documentRelations := acc3.documentRelations ++
                            [⟨acc3.nextRelId, pr.1, pr.2, rel.2.1,
                              some ((rel.2.2).getD 1)⟩],
                          nextRelId := acc3.nextRelId + 1 }) acc2) acc : Db).documents =
        db0.documents ∧
      (match doc.relations with
      | none => acc
      | some rels =>
        if rels.isEmpty then acc
        else
          match alistGet tmap doc.title with
          | none => acc
          | some sourceIds =>
            rels.foldl (fun (acc2 : Db) (rel : Str × Option Str × Option ℚ) =>
              if rel.1 = doc.title then acc2
              else
                match alistGet tmap rel.1 with
                | none => acc2
                | some targetIds =>
                  (sourceIds.flatMap fun sId =>
                    targetIds.map fun tId => (sId, tId)).foldl
                    (fun (acc3 : Db) (pr : Nat × Nat) =>
                      if acc3.documentRelations.any fun r =>
                          r.sourceId = pr.1 ∧ r.targetId = pr.2 then acc3
                      else
                        { acc3 with
                          documentRelations := acc3.documentRelations ++
                            [⟨acc3.nextRelId, pr.1, pr.2, rel.2.1,
                              some ((rel.2.2).getD 1)⟩],
                          nextRelId := acc3.nextRelId + 1 }) acc2) acc : Db).nextDocId =
        db0.nextDocId := by
  cases hrel : doc.relations with
  | none => exact ⟨hnsA, hd, hn⟩
  | some rels =>
    simp only []
    by_cases hemp : rels.isEmpty
    · rw [if_pos hemp]
      exact ⟨hnsA, hd, hn⟩
    · rw [if_neg hemp]
      cases hg : alistGet tmap doc.title with
      | none => exact ⟨hnsA, hd, hn⟩
      | some sourceIds =>
        exact importRelations_relFold db0 tmap hnd htm doc.title
          sourceIds (alistGet_mem _ _ _ hg) rels acc hnsA hd hn

/-- `importRelations` preserves absence of self-relations whenever document
ids are distinct and the imported-ids map is consistent; it only touches the
relation table. -/
theorem importRelations_noSelfRel (docs : List BackupDoc)
    (tmap : List (Str × List Nat)) (db0 : Db)
    (hnd : (db0.documents.map (·.id)).Nodup) (htm : TitleMapOk tmap db0)
    (hns : NoSelfRel db0) :
    NoSelfRel (importRelations docs tmap db0) ∧
      (importRelations docs tmap db0).documents = db0.documents ∧
      (importRelations docs tmap db0).nextDocId = db0.nextDocId := by
  have hfold : ∀ (docs' : List BackupDoc) (acc : Db),
      NoSelfRel acc → acc.documents = db0.documents → acc.nextDocId = db0.nextDocId →
      NoSelfRel (docs'.foldl (fun acc doc =>
        match doc.relations with
        | none => acc
        | some rels =>
          if rels.isEmpty then acc
          else
            match alistGet tmap doc.title with
            | none => acc
            | some sourceIds =>
              rels.foldl (fun acc2 rel =>
                if rel.1 = doc.title then acc2
                else
                  match alistGet tmap rel.1 with
                  | none => acc2
                  | some targetIds =>
                    (sourceIds.flatMap fun sId =>
                      targetIds.map fun tId => (sId, tId)).foldl
                      (fun acc3 pr =>
                        if acc3.documentRelations.any fun r =>
                            r.sourceId = pr.1 ∧ r.targetId = pr.2 then acc3
                        else
                          { acc3 with
                            documentRelations := acc3.documentRelations ++
                              [⟨acc3.nextRelId, pr.1, pr.2, rel.2.1,
                                some ((rel.2.2).getD 1)⟩],
                            nextRelId := acc3.nextRelId + 1 }) acc2) acc) acc) ∧
        (docs'.foldl (fun acc doc =>
          match doc.relations with
          | none => acc
          | some rels =>
            if rels.isEmpty then acc
            else
              match alistGet tmap doc.title with
              | none => acc
              | some sourceIds =>
                rels.foldl (fun acc2 rel =>
                  if rel.1 = doc.title then acc2
                  else
                    match alistGet tmap rel.1 with
                    | none => acc2
                    | some targetIds =>
                      (sourceIds.flatMap fun sId =>
                        targetIds.map fun tId => (sId, tId)).foldl
                        (fun acc3 pr =>
                          if acc3.documentRelations.any fun r =>
                              r.sourceId = pr.1 ∧ r.targetId = pr.2 then acc3
                          else
                            { acc3 with
                              documentRelations := acc3.documentRelations ++
                                [⟨acc3.nextRelId, pr.1, pr.2, rel.2.1,
                                  some ((rel.2.2).getD 1)⟩],
                              nextRelId := acc3.nextRelId + 1 }) acc2) acc) acc).documents =
          db0.documents ∧
        (docs'.foldl (fun acc doc =>
          match doc.relations with
          | none => acc
          | some rels =>
            if rels.isEmpty then acc
            else
              match alistGet tmap doc.title with
              | none => acc
              | some sourceIds =>
                rels.foldl (fun acc2 rel =>
                  if rel.1 = doc.title then acc2
                  else
                    match alistGet tmap rel.1 with
                    | none => acc2
                    | some targetIds =>
                      (sourceIds.flatMap fun sId =>
                        targetIds.map fun tId => (sId, tId)).foldl
                        (fun acc3 pr =>
                          if acc3.documentRelations.any fun r =>
                              r.sourceId = pr.1 ∧ r.targetId = pr.2 then acc3
                          else
                            { acc3 with
                              documentRelations := acc3.documentRelations ++
                                [⟨acc3.nextRelId, pr.1, pr.2, rel.2.1,
                                  some ((rel.2.2).getD 1)⟩],
                              nextRelId := acc3.nextRelId + 1 }) acc2) acc) acc).nextDocId =
          db0.nextDocId := by
    intro docs'
    induction docs' with
    | nil => intro acc hnsA hd hn; exact ⟨hnsA, hd, hn⟩
    | cons doc rest ih =>
      intro acc hnsA hd hn
      rw [List.foldl_cons]
      obtain ⟨s1, s2, s3⟩ := importRelations_step db0 tmap hnd htm doc acc hnsA hd hn
      exact ih _ s1 s2 s3
  exact hfold docs db0 hns rfl rfl

/-- `importBackup` preserves the no-self-relation invariant together with id
well-formedness — whether it completes, aborts on validation, or aborts on a
failed transaction — provided no two lines with different titles share a
content hash, and no stored row shares a content hash with a line of a
different title. -/
theorem importBackup_noSelfRel (o : InsOp → Bool) (hash : Str → Str) (db : Db)
    (docs : List BackupDoc) (dim : Option Nat)
    (hns : NoSelfRel db) (hids : IdsOk db)
    (hht : ∀ d ∈ docs, ∀ row ∈ db.documents,
      row.contentHash = d.contentHash → row.title = d.title)
    (hdis : ∀ d1 ∈ docs, ∀ d2 ∈ docs,
      d1.contentHash = d2.contentHash → d1.title = d2.title) :
    NoSelfRel (importState (importBackup o hash db docs dim)) ∧
      IdsOk (importState (importBackup o hash db docs dim)) := by
  unfold importBackup
  split
  · exact ⟨hns, hids⟩
  · obtain ⟨g1, g2, g3⟩ :=
      importDocsLoop_invariants o hash dim docs db ⟨0, 0, 0, 0⟩ hids
    cases hloop : importDocsLoop o hash dim docs db ⟨0, 0, 0, 0⟩ with
    | error e =>
      rw [hloop] at g1 g2
      exact ⟨noSelfRel_transport db _ g2 hns, g1⟩
    | ok st =>
      rw [hloop] at g1 g2 g3
      have g1' : IdsOk st.2 := g1
      have g2' : st.2.documentRelations = db.documentRelations := g2
      have g3' : ∀ row ∈ st.2.documents,
          row ∈ db.documents ∨
            ∃ d ∈ docs, row.title = d.title ∧ row.contentHash = d.contentHash := g3
      have hht2 : ∀ d ∈ docs, ∀ row ∈ st.2.documents,
          row.contentHash = d.contentHash → row.title = d.title := by
        intro d hd row hrow hh
        rcases g3' row hrow with h1 | ⟨d2, hd2, ht2, hh2⟩
        · exact hht d hd row h1 hh
        · rw [ht2]
          exact hdis d2 hd2 d hd (hh2.symm.trans hh)
      have htm : TitleMapOk (buildTitleToImportedIds st.2 docs) st.2 :=
        buildTitleToImportedIds_ok st.2 docs hht2
      have hnsSt : NoSelfRel st.2 := noSelfRel_transport db st.2 g2' hns
      obtain ⟨r1, r2, r3⟩ := importRelations_noSelfRel docs
        (buildTitleToImportedIds st.2 docs) st.2 g1'.1 htm hnsSt
      exact ⟨r1, idsOk_transport st.2 _ r2 r3 g1'⟩

/-- C6 (amended): the spec's invariant fails as stated — `importBackup` can
insert a self-relation when two backup lines with different titles share a
content hash (see the counterexample) — but it holds in its intended reading:
`ingest` never inserts a self-relation (its per-title id map only files ids of
rows actually carrying that title, so the `target.title !== sourceTitle` skip
is sound), and `importBackup` never inserts one provided distinct-title lines
and stored rows never share a content hash.  Both operations also preserve
primary-key well-formedness, so the conjunction is an inductive invariant of
every reachable state. -/
theorem ingest_import_no_self_relations :
    (∀ (hash : Str → Str) (db : Db) (docs : List Doc) (cfg : IngestConfig),
        NoSelfRel db → IdsOk db →
        NoSelfRel (ingest hash db docs cfg).2.2 ∧
          IdsOk (ingest hash db docs cfg).2.2) ∧
    (∀ (o : InsOp → Bool) (hash : Str → Str) (db : Db) (docs : List BackupDoc)
        (dim : Option Nat),
        NoSelfRel db → IdsOk db →
        (∀ d ∈ docs, ∀ row ∈ db.documents,
          row.contentHash = d.contentHash → row.title = d.title) →
        (∀ d1 ∈ docs, ∀ d2 ∈ docs,
          d1.contentHash = d2.contentHash → d1.title = d2.title) →
        NoSelfRel (importState (importBackup o hash db docs dim)) ∧
          IdsOk (importState (importBackup o hash db docs dim))) :=
  ⟨fun hash db docs cfg hns hids => ingest_noSelfRel hash db docs cfg hns hids,
   fun o hash db docs dim hns hids hht hdis =>
     importBackup_noSelfRel o hash db docs dim hns hids hht hdis⟩

theorem ingest_import_no_self_relations_witness :
    NoSelfRel (ingest (fun s => s) emptyDb [exC6Doc] exC6Cfg).2.2 ∧
      NoSelfRel (importState (importBackup (fun _ => false) (fun s => s)
        emptyDb [exBackupB] none)) :=
  ⟨(ingest_import_no_self_relations.1 (fun s => s) emptyDb [exC6Doc] exC6Cfg
      (fun r hr => absurd hr (List.not_mem_nil _))
      ⟨List.nodup_nil, fun row hrow => absurd hrow (List.not_mem_nil _)⟩).1,
   (ingest_import_no_self_relations.2 (fun _ => false) (fun s => s) emptyDb
      [exBackupB] none
      (fun r hr => absurd hr (List.not_mem_nil _))
      ⟨List.nodup_nil, fun row hrow => absurd hrow (List.not_mem_nil _)⟩
      (fun d _ row hrow => absurd hrow (List.not_mem_nil _))
      (by decide)).1⟩

theorem ufBnd_succ (p : Nat → Nat) (n : Nat) (h : ufBnd p n) : ufBnd p (n + 1) := by
  intro x
  rw [Function.iterate_succ_apply]
  exact h (p x)

theorem ufBnd_mono (p : Nat → Nat) (n m : Nat) (h : ufBnd p n) (hle : n ≤ m) :
    ufBnd p m := by
  induction m with
  | zero => rw [Nat.le_zero] at hle; exact hle ▸ h
  | succ k ih =>
    rcases Nat.lt_or_ge n (k + 1) with h1 | h1
    · exact ufBnd_succ p k (ih (Nat.lt_succ_iff.mp h1))
    · have : n = k + 1 := le_antisymm hle h1
      exact this ▸ h

/-- Two stabilisation points of the same chain agree. -/
theorem ufLimit_unique (p : Nat → Nat) (x : Nat) (m n : Nat)
    (hm : p (p^[m] x) = p^[m] x) (hn : p (p^[n] x) = p^[n] x) :
    p^[m] x = p^[n] x := by
  rcases Nat.le_total m n with h | h
  · obtain ⟨k, hk⟩ := Nat.exists_eq_add_of_le h
    subst hk
    rw [Nat.add_comm, Function.iterate_add_apply]
    exact (Function.iterate_fixed hm k).symm
  · obtain ⟨k, hk⟩ := Nat.exists_eq_add_of_le h
    subst hk
    rw [Nat.add_comm, Function.iterate_add_apply]
    exact Function.iterate_fixed hn k

theorem conn_refl (db : Db) (x : Nat) : Conn db x x := Relation.EqvGen.refl x

theorem conn_symm (db : Db) (x y : Nat) (h : Conn db x y) : Conn db y x :=
  Relation.EqvGen.symm x y h

theorem conn_trans (db : Db) (x y z : Nat) (h1 : Conn db x y) (h2 : Conn db y z) :
    Conn db x z := Relation.EqvGen.trans x y z h1 h2

/-- A node is connected to every iterate of a sound parent map. -/
theorem conn_iterate (db : Db) (p : Nat → Nat) (hs : ufSound db p) (n x : Nat) :
    Conn db x (p^[n] x) := by
  induction n with
  | zero => exact conn_refl db x
  | succ k ih =>
    rw [Function.iterate_succ_apply']
    exact conn_trans db _ _ _ ih (hs (p^[k] x))

/-- `findRoot` returns the chain's stabilisation point when the fuel covers
the bound. -/
theorem findRoot_eq (p : Nat → Nat) :
    ∀ (fuel n x : Nat), n ≤ fuel → p (p^[n] x) = p^[n] x →
      findRoot p fuel x = p^[n] x := by
  intro fuel
  induction fuel with
  | zero =>
    intro n x hle hstop
    rw [Nat.le_zero] at hle
    subst hle
    rfl
  | succ f ih =>
    intro n x hle hstop
    rw [findRoot]
    by_cases hfix : p x = x
    · rw [if_pos hfix]
      exact (Function.iterate_fixed hfix n).symm
    · rw [if_neg hfix]
      cases n with
      | zero => exact absurd hstop hfix
      | succ m =>
        have hstop' : p (p^[m] (p x)) = p^[m] (p x) := by
          rw [← Function.iterate_succ_apply]
          exact hstop
        rw [Function.iterate_succ_apply]
        exact ih m (p x) (Nat.succ_le_succ_iff.mp hle) hstop'

/-- Updating a soundly-connected pointer keeps the map sound. -/
theorem ufSound_update (db : Db) (p : Nat → Nat) (c v : Nat)
    (hs : ufSound db p) (hc : Conn db c v) : ufSound db (Function.update p c v) := by
  intro x
  by_cases hx : x = c
  · subst hx
    rw [Function.update_same]
    exact hc
  · rw [Function.update_noteq hx]
    exact hs x

/-- Pointing a non-root node directly at its own root changes no chain
limit and keeps every chain bounded. -/
theorem ufUpdate_compress (p : Nat → Nat) (n c root : Nat)
    (hb : ufBnd p n) (hlim : p^[n] c = root) (hcr : c ≠ root) :
    (∀ y, (Function.update p c root)^[n] y = p^[n] y) ∧
      ufBnd (Function.update p c root) n := by
  have hrootfix : p root = root := by rw [← hlim]; exact hb c
  have hzne : ∀ z, p z = z → z ≠ c := by
    intro z hz hzc
    subst hzc
    exact hcr ((Function.iterate_fixed hz n).symm.trans hlim)
  have hstep : ∀ (m y : Nat), p (p^[m] y) = p^[m] y →
      (Function.update p c root)^[m] y = p^[m] y := by
    intro m
    induction m with
    | zero => intro y _; rfl
    | succ k ih =>
      intro y hy
      by_cases hyc : y = c
      · rw [hyc]
        rw [hyc] at hy
        rw [Function.iterate_succ_apply, Function.update_same]
        have h1 : (Function.update p c root)^[k] root = root := by
          have h0 : Function.update p c root root = root := by
            rw [Function.update_noteq (Ne.symm hcr)]
            exact hrootfix
          exact Function.iterate_fixed h0 k
        rw [h1]
        have hstopn : p (p^[n] c) = p^[n] c := by
          rw [hlim]
          exact hlim ▸ (hb c)
        exact ((ufLimit_unique p c (k + 1) n hy hstopn).trans hlim).symm
      · rw [Function.iterate_succ_apply, Function.update_noteq hyc,
          Function.iterate_succ_apply]
        have hy' : p (p^[k] (p y)) = p^[k] (p y) := by
          rw [← Function.iterate_succ_apply]
          exact hy
        exact ih (p y) hy'
  refine ⟨fun y => hstep n y (hb y), ?_⟩
  intro y
  rw [hstep n y (hb y)]
  have hne : p^[n] y ≠ c := hzne _ (hb y)
  rw [Function.update_noteq hne]
  exact hb y

/-- Pointing one root at another collapses exactly that root's class. -/
theorem ufUpdate_union (p : Nat → Nat) (n ra rb : Nat)
    (hb : ufBnd p n) (hra : p ra = ra) (hrb : p rb = rb) (hne : ra ≠ rb) :
    (∀ y, (Function.update p ra rb)^[n + 1] y =
      (if p^[n] y = ra then rb else p^[n] y)) ∧
      ufBnd (Function.update p ra rb) (n + 1) := by
  have hq_rb : Function.update p ra rb rb = rb := by
    rw [Function.update_noteq (Ne.symm hne)]
    exact hrb
  have hstep : ∀ (m y : Nat), p (p^[m] y) = p^[m] y →
      (Function.update p ra rb)^[m + 1] y = (if p^[m] y = ra then rb else p^[m] y) := by
    intro m
    induction m with
    | zero =>
      intro y hy
      simp only [Function.iterate_zero_apply] at hy
      show Function.update p ra rb ((Function.update p ra rb)^[0] y) =
        if p^[0] y = ra then rb else p^[0] y
      simp only [Function.iterate_zero_apply]
      by_cases hya : y = ra
      · rw [hya, Function.update_same, if_pos rfl]
      · rw [Function.update_noteq hya, hy, if_neg hya]
    | succ k ih =>
      intro y hy
      by_cases hya : y = ra
      · rw [hya]
        have h1 : p^[k + 1] ra = ra := Function.iterate_fixed hra (k + 1)
        rw [h1, if_pos rfl]
        rw [Function.iterate_succ_apply, Function.update_same]
        exact Function.iterate_fixed hq_rb (k + 1)
      · rw [Function.iterate_succ_apply, Function.update_noteq hya]
        have hy' : p (p^[k] (p y)) = p^[k] (p y) := by
          rw [← Function.iterate_succ_apply]
          exact hy
        rw [ih (p y) hy']
        rw [← Function.iterate_succ_apply]
  refine ⟨fun y => hstep n y (hb y), ?_⟩
  intro y
  rw [hstep n y (hb y)]
  by_cases hza : p^[n] y = ra
  · rw [if_pos hza, hq_rb]
  · rw [if_neg hza, Function.update_noteq hza]
    exact hb y

/-- Path compression changes no chain limit and keeps every chain bounded,
regardless of the fuel. -/
theorem compressPath_limits (n root : Nat) :
    ∀ (fuel : Nat) (p : Nat → Nat) (curr : Nat),
      ufBnd p n → p^[n] curr = root →
      (∀ y, (compressPath root fuel p curr)^[n] y = p^[n] y) ∧
        ufBnd (compressPath root fuel p curr) n := by
  intro fuel
  induction fuel with
  | zero => intro p curr hb _; exact ⟨fun y => rfl, hb⟩
  | succ f ih =>
    intro p curr hb hlim
    rw [compressPath]
    by_cases hc : curr = root
    · rw [if_pos hc]
      exact ⟨fun y => rfl, hb⟩
    · rw [if_neg hc]
      obtain ⟨u1, u2⟩ := ufUpdate_compress p n curr root hb hlim hc
      have hlim' : (Function.update p curr root)^[n] (p curr) = root := by
        rw [u1 (p curr), ← Function.iterate_succ_apply,
          Function.iterate_succ_apply', hlim]
        rw [← hlim]
        exact hb curr
      obtain ⟨v1, v2⟩ := ih (Function.update p curr root) (p curr) u2 hlim'
      exact ⟨fun y => (v1 y).trans (u1 y), v2⟩

/-- Path compression keeps the parent map sound. -/
theorem compressPath_sound (db : Db) (root : Nat) :
    ∀ (fuel : Nat) (p : Nat → Nat) (curr : Nat),
      ufSound db p → Conn db curr root →
      ufSound db (compressPath root fuel p curr) := by
  intro fuel
  induction fuel with
  | zero => intro p curr hs _; exact hs
  | succ f ih =>
    intro p curr hs hc
    rw [compressPath]
    by_cases hcr : curr = root
    · rw [if_pos hcr]
      exact hs
    · rw [if_neg hcr]
      refine ih _ _ (ufSound_update db p curr root hs hc) ?_
      exact conn_trans db _ _ _ (conn_symm db _ _ (hs curr)) hc

/-- `ufFind` returns the chain limit, and compresses without changing any
limit, keeping the map bounded and sound. -/
theorem ufFind_spec (db : Db) (fuel n : Nat) (p : Nat → Nat) (x : Nat)
    (hb : ufBnd p n) (hs : ufSound db p) (hle : n ≤ fuel) :
    (ufFind fuel p x).1 = p^[n] x ∧
      (∀ y, (ufFind fuel p x).2^[n] y = p^[n] y) ∧
      ufBnd (ufFind fuel p x).2 n ∧
      ufSound db (ufFind fuel p x).2 := by
  have hroot : findRoot p fuel x = p^[n] x := findRoot_eq p fuel n x hle (hb x)
  have hlim : p^[n] x = findRoot p fuel x := hroot.symm
  obtain ⟨c1, c2⟩ := compressPath_limits n (findRoot p fuel x) fuel p x hb hlim
  have hsound : ufSound db (compressPath (findRoot p fuel x) fuel p x) :=
    compressPath_sound db (findRoot p fuel x) fuel p x hs
      (hroot ▸ conn_iterate db p hs n x)
  exact ⟨hroot, c1, c2, hsound⟩

/-- `ufUnion` collapses the two chain limits, raises the bound by one, and
stays sound (the two arguments being connected). -/
theorem ufUnion_spec (db : Db) (fuel n : Nat) (p : Nat → Nat) (a b : Nat)
    (hb : ufBnd p n) (hs : ufSound db p) (hab : Conn db a b) (hle : n ≤ fuel) :
    ufBnd (ufUnion fuel p a b) (n + 1) ∧
      ufSound db (ufUnion fuel p a b) ∧
      (∀ y, (ufUnion fuel p a b)^[n + 1] y =
        (if p^[n] y = p^[n] a then p^[n] b else p^[n] y)) := by
  obtain ⟨fa1, faL, faB, faS⟩ := ufFind_spec db fuel n p a hb hs hle
  set pa := (ufFind fuel p a).2 with hpa
  obtain ⟨fb1, fbL, fbB, fbS⟩ := ufFind_spec db fuel n pa b faB faS hle
  set pb := (ufFind fuel pa b).2 with hpb
  have fb1' : (ufFind fuel pa b).1 = p^[n] b := by
    rw [fb1]
    exact faL b
  have hpbL : ∀ y, pb^[n] y = p^[n] y := fun y => (fbL y).trans (faL y)
  have hfixa : p (p^[n] a) = p^[n] a := hb a
  have hfixb : p (p^[n] b) = p^[n] b := hb b
  have hpb_ra : pb (p^[n] a) = p^[n] a := by
    have h1 : pb^[n] (p^[n] a) = p^[n] a := by
      rw [hpbL]
      exact Function.iterate_fixed hfixa n
    have h2 := fbB (p^[n] a)
    rw [h1] at h2
    exact h2
  have hpb_rb : pb (p^[n] b) = p^[n] b := by
    have h1 : pb^[n] (p^[n] b) = p^[n] b := by
      rw [hpbL]
      exact Function.iterate_fixed hfixb n
    have h2 := fbB (p^[n] b)
    rw [h1] at h2
    exact h2
  have hconn_ab : Conn db (p^[n] a) (p^[n] b) :=
    conn_trans db _ _ _
      (conn_trans db _ _ _ (conn_symm db _ _ (conn_iterate db p hs n a)) hab)
      (conn_iterate db p hs n b)
  have key : ufBnd (if (ufFind fuel p a).1 ≠ (ufFind fuel pa b).1 then
        Function.update pb (ufFind fuel p a).1 (ufFind fuel pa b).1 else pb) (n + 1) ∧
      ufSound db (if (ufFind fuel p a).1 ≠ (ufFind fuel pa b).1 then
        Function.update pb (ufFind fuel p a).1 (ufFind fuel pa b).1 else pb) ∧
      (∀ y, (if (ufFind fuel p a).1 ≠ (ufFind fuel pa b).1 then
          Function.update pb (ufFind fuel p a).1 (ufFind fuel pa b).1 else pb)^[n + 1] y =
        (if p^[n] y = p^[n] a then p^[n] b else p^[n] y)) := by
    rw [fa1, fb1']
    by_cases hne : p^[n] a = p^[n] b
    · rw [if_neg (by simpa using hne)]
      refine ⟨ufBnd_succ pb n fbB, fbS, ?_⟩
      intro y
      have h1 : pb^[n + 1] y = p^[n] y := by
        rw [Function.iterate_succ_apply', fbB y, hpbL y]
      rw [h1]
      by_cases hy : p^[n] y = p^[n] a
      · rw [if_pos hy, hy]
        exact hne
      · rw [if_neg hy]
    · rw [if_pos (by simpa using hne)]
      obtain ⟨u1, u2⟩ := ufUpdate_union pb n (p^[n] a) (p^[n] b) fbB hpb_ra hpb_rb hne
      refine ⟨u2, ?_, ?_⟩
      · exact ufSound_update db pb _ _ fbS hconn_ab
      · intro y
        rw [u1 y, hpbL y]
  exact key

/-- The union loop over relation rows: the final map is bounded and sound,
limit-equalities are preserved, and every processed relation is merged. -/
theorem unionLoop_spec (db : Db) (fuel : Nat) :
    ∀ (rels : List RelRow) (p : Nat → Nat) (n : Nat),
      (∀ r ∈ rels, r ∈ db.documentRelations) → ufBnd p n → ufSound db p →
      n + rels.length ≤ fuel →
      ufBnd (rels.foldl (fun p r => ufUnion fuel p r.sourceId r.targetId) p)
          (n + rels.length) ∧
        ufSound db (rels.foldl (fun p r => ufUnion fuel p r.sourceId r.targetId) p) ∧
        (∀ y z, p^[n] y = p^[n] z →
          (rels.foldl (fun p r => ufUnion fuel p r.sourceId r.targetId) p)^[n + rels.length] y =
            (rels.foldl (fun p r => ufUnion fuel p r.sourceId r.targetId) p)^[n + rels.length] z) ∧
        (∀ r ∈ rels,
          (rels.foldl (fun p r => ufUnion fuel p r.sourceId r.targetId) p)^[n + rels.length] r.sourceId =
            (rels.foldl (fun p r => ufUnion fuel p r.sourceId r.targetId) p)^[n + rels.length] r.targetId) := by
  intro rels
  induction rels with
  | nil =>
    intro p n _ hb hs _
    simp only [List.foldl_nil, List.length_nil, Nat.add_zero]
    exact ⟨hb, hs, fun y z h => h, fun r hr => absurd hr (List.not_mem_nil _)⟩
  | cons r rest ih =>
    intro p n hsub hb hs hle
    rw [List.foldl_cons]
    have harith : n + (r :: rest).length = n + 1 + rest.length := by
      simp only [List.length_cons]
      omega
    have hle1 : n ≤ fuel := by
      simp only [List.length_cons] at hle
      omega
    have hle2 : n + 1 + rest.length ≤ fuel := by
      simp only [List.length_cons] at hle
      omega
    have hab : Conn db r.sourceId r.targetId :=
      Relation.EqvGen.rel _ _ ⟨r, hsub r (List.mem_cons_self _ _), Or.inl ⟨rfl, rfl⟩⟩
    obtain ⟨b1, s1, l1⟩ := ufUnion_spec db fuel n p r.sourceId r.targetId hb hs hab hle1
    set q1 := ufUnion fuel p r.sourceId r.targetId with hq1
    obtain ⟨B, S, Pres, Merged⟩ := ih q1 (n + 1)
      (fun x hx => hsub x (List.mem_cons_of_mem _ hx)) b1 s1 hle2
    rw [harith]
    have hq1merge : q1^[n + 1] r.sourceId = q1^[n + 1] r.targetId := by
      rw [l1 r.sourceId, l1 r.targetId, if_pos rfl]
      by_cases hbb : p^[n] r.targetId = p^[n] r.sourceId
      · rw [if_pos hbb]
      · rw [if_neg hbb]
    refine ⟨B, S, ?_, ?_⟩
    · intro y z h
      refine Pres y z ?_
      rw [l1 y, l1 z, h]
    · intro x hx
      rcases List.mem_cons.mp hx with h1 | h1
      · subst h1
        exact Pres x.sourceId x.targetId hq1merge
      · exact Merged x h1

theorem alistGet_cons [DecidableEq κ] (kv : κ × β) (m : List (κ × β)) (k : κ) :
    alistGet (kv :: m) k = if kv.1 = k then some kv.2 else alistGet m k := by
  unfold alistGet
  by_cases h : kv.1 = k
  · rw [List.find?_cons_of_pos _ (by simpa using h), if_pos h]
    rfl
  · rw [List.find?_cons_of_neg _ (by simpa using h), if_neg h]

theorem alistGet_of_mem [DecidableEq κ] :
    ∀ (m : List (κ × β)) (k : κ) (v : β), (m.map (·.1)).Nodup → (k, v) ∈ m →
      alistGet m k = some v := by
  intro m
  induction m with
  | nil => intro k v _ h; cases h
  | cons kv rest ih =>
    intro k v hnd h
    rw [alistGet_cons]
    rcases List.mem_cons.mp h with h1 | h1
    · rw [← h1]
      simp
    · have hk : kv.1 ≠ k := by
        intro he
        have : k ∈ rest.map (·.1) := List.mem_map.mpr ⟨(k, v), h1, rfl⟩
        rw [List.map_cons] at hnd
        rw [← he] at this
        exact (List.nodup_cons.mp hnd).1 this
      rw [if_neg hk]
      exact ih k v (List.nodup_cons.mp (List.map_cons _ _ _ ▸ hnd)).2 h1

theorem alistGet_set_self [DecidableEq κ] :
    ∀ (m : List (κ × β)) (k : κ) (v : β), alistGet (alistSet m k v) k = some v := by
  intro m k v
  unfold alistSet
  by_cases hp : m.any fun kv => kv.1 = k
  · rw [if_pos hp]
    induction m with
    | nil => cases hp
    | cons kv rest ih =>
      rw [List.map_cons]
      by_cases hk : kv.1 = k
      · rw [if_pos hk, alistGet_cons, if_pos rfl]
      · rw [if_neg hk, alistGet_cons, if_neg hk]
        rw [List.any_cons] at hp
        rcases Bool.or_eq_true_iff.mp hp with h | h
        · exact absurd (of_decide_eq_true h) hk
        · exact ih h
  · rw [if_neg hp]
    induction m with
    | nil => rw [List.nil_append, alistGet_cons, if_pos rfl]
    | cons kv rest ih =>
      rw [List.cons_append, alistGet_cons]
      rw [List.any_cons] at hp
      have hk : kv.1 ≠ k := by
        intro he
        exact hp (by simp [he])
      rw [if_neg hk]
      refine ih ?_
      intro hc
      exact hp (by simp [hc])

theorem alistGet_set_other [DecidableEq κ] :
    ∀ (m : List (κ × β)) (k : κ) (v : β) (k' : κ), k' ≠ k →
      alistGet (alistSet m k v) k' = alistGet m k' := by
  intro m k v k' hne
  unfold alistSet
  by_cases hp : m.any fun kv => kv.1 = k
  · rw [if_pos hp]
    clear hp
    induction m with
    | nil => rfl
    | cons kv rest ih =>
      rw [List.map_cons, alistGet_cons]
      by_cases hk : kv.1 = k
      · rw [if_pos hk]
        rw [alistGet_cons]
        have h1 : (k, v).1 ≠ k' := fun h => hne h.symm
        rw [if_neg h1]
        have h2 : kv.1 ≠ k' := by rw [hk]; exact fun h => hne h.symm
        rw [if_neg h2]
        exact ih
      · rw [if_neg hk, alistGet_cons]
        by_cases hk' : kv.1 = k'
        · rw [if_pos hk', if_pos hk']
        · rw [if_neg hk', if_neg hk']
          exact ih
  · rw [if_neg hp]
    clear hp
    induction m with
    | nil =>
      rw [List.nil_append, alistGet_cons]
      have h1 : (k, v).1 ≠ k' := fun h => hne h.symm
      rw [if_neg h1]
    | cons kv rest ih =>
      rw [List.cons_append, alistGet_cons, alistGet_cons]
      by_cases hk' : kv.1 = k'
      · rw [if_pos hk', if_pos hk']
      · rw [if_neg hk', if_neg hk']
        exact ih

theorem alistSet_keys_present [DecidableEq κ] (m : List (κ × β)) (k : κ) (v : β)
    (hp : m.any fun kv => kv.1 = k) :
    (alistSet m k v).map (·.1) = m.map (·.1) := by
  unfold alistSet
  rw [if_pos hp, List.map_map]
  refine List.map_congr_left ?_
  intro kv _
  by_cases hk : kv.1 = k
  · simp [hk]
  · simp [hk]

theorem alistSet_keys_absent [DecidableEq κ] (m : List (κ × β)) (k : κ) (v : β)
    (hp : ¬ m.any fun kv => kv.1 = k) :
    (alistSet m k v).map (·.1) = m.map (·.1) ++ [k] := by
  unfold alistSet
  rw [if_neg hp, List.map_append]
  rfl

theorem alistGet_isSome_iff [DecidableEq κ] :
    ∀ (m : List (κ × β)) (k : κ),
      (alistGet m k).isSome = true ↔ (m.any fun kv => kv.1 = k) = true := by
  intro m
  induction m with
  | nil => intro k; simp [alistGet]
  | cons kv rest ih =>
    intro k
    rw [alistGet_cons, List.any_cons]
    by_cases hk : kv.1 = k
    · simp [hk]
    · simp only [if_neg hk, Bool.or_eq_true, decide_eq_true_eq]
      rw [ih k]
      simp [hk]

theorem alistGet_none_iff [DecidableEq κ] (m : List (κ × β)) (k : κ) :
    alistGet m k = none ↔ ¬ (m.any fun kv => kv.1 = k) = true := by
  rw [← alistGet_isSome_iff]
  cases alistGet m k <;> simp

/-- The numbering pass: the root map grows by the unseen roots, keeps
distinct keys (which are limit fixpoints) and distinct sequential values,
and threads the parent map without changing limits. -/
theorem assignRoots_spec (fuel K : Nat) (L : Nat → Nat) (hK : K ≤ fuel)
    (hLidem : ∀ y, L (L y) = L y) :
    ∀ (ids : List Nat) (p : Nat → Nat) (m : List (Nat × Nat)) (nid : Nat),
      ufBnd p K → (∀ y, p^[K] y = L y) →
      ((m.map (·.1)).Nodup) → ((m.map (·.2)).Nodup) →
      (∀ kv ∈ m, kv.2 < nid) → (∀ kv ∈ m, L kv.1 = kv.1) →
      (∃ ext, (assignRoots fuel ids p m nid).1 = m ++ ext) ∧
        ((assignRoots fuel ids p m nid).1.map (·.1)).Nodup ∧
        ((assignRoots fuel ids p m nid).1.map (·.2)).Nodup ∧
        (∀ kv ∈ (assignRoots fuel ids p m nid).1, kv.2 < (assignRoots fuel ids p m nid).2.1) ∧
        (∀ kv ∈ (assignRoots fuel ids p m nid).1, L kv.1 = kv.1) ∧
        (∀ k, (∃ v, (k, v) ∈ (assignRoots fuel ids p m nid).1) ↔
          (∃ v, (k, v) ∈ m) ∨ ∃ i ∈ ids, L i = k) ∧
        ufBnd (assignRoots fuel ids p m nid).2.2 K ∧
        (∀ y, (assignRoots fuel ids p m nid).2.2^[K] y = L y) := by
  intro ids
  induction ids with
  | nil =>
    intro p m nid hb hL h1 h2 h3 h4
    rw [assignRoots]
    refine ⟨⟨[], by simp⟩, h1, h2, h3, h4, ?_, hb, hL⟩
    intro k
    simp
  | cons id rest ih =>
    intro p m nid hb hL h1 h2 h3 h4
    rw [assignRoots]
    have hf1 : (ufFind fuel p id).1 = L id := by
      have := findRoot_eq p fuel K id hK (hb id)
      rw [hL id] at this
      exact this
    obtain ⟨c1, c2⟩ := compressPath_limits K (findRoot p fuel id) fuel p id hb
      (by rw [hL id, ← hf1]; rfl)
    have hf2L : ∀ y, (ufFind fuel p id).2^[K] y = L y := fun y => (c1 y).trans (hL y)
    have hf2B : ufBnd (ufFind fuel p id).2 K := c2
    rw [hf1]
    cases hget : alistGet m (L id) with
    | some c =>
      obtain ⟨E, N1, N2, B1, B2, KC, PB, PL⟩ := ih (ufFind fuel p id).2 m nid hf2B hf2L h1 h2 h3 h4
      refine ⟨E, N1, N2, B1, B2, ?_, PB, PL⟩
      intro k
      rw [KC k]
      constructor
      · rintro (h | ⟨i, hi, he⟩)
        · exact Or.inl h
        · exact Or.inr ⟨i, List.mem_cons_of_mem _ hi, he⟩
      · rintro (h | ⟨i, hi, he⟩)
        · exact Or.inl h
        · rcases List.mem_cons.mp hi with h5 | h5
          · subst h5
            exact Or.inl ⟨c, (he ▸ alistGet_mem m (L i) c hget)⟩
          · exact Or.inr ⟨i, h5, he⟩
    | none =>
      have habs : ¬ (m.any fun kv => kv.1 = L id) = true := (alistGet_none_iff m (L id)).mp hget
      have hset : alistSet m (L id) nid = m ++ [(L id, nid)] := by
        unfold alistSet
        rw [if_neg habs]
      have h1' : ((alistSet m (L id) nid).map (·.1)).Nodup := by
        rw [alistSet_keys_absent m (L id) nid habs]
        rw [List.nodup_append]
        refine ⟨h1, List.nodup_singleton _, ?_⟩
        intro a ha hb'
        rw [List.mem_singleton] at hb'
        subst hb'
        obtain ⟨kv, hkv, hkve⟩ := List.mem_map.mp ha
        exact habs (List.any_eq_true.mpr ⟨kv, hkv, by simpa using hkve⟩)
      have h2' : ((alistSet m (L id) nid).map (·.2)).Nodup := by
        rw [hset, List.map_append]
        simp only [List.map_cons, List.map_nil]
        rw [List.nodup_append]
        refine ⟨h2, List.nodup_singleton _, ?_⟩
        intro a ha hb'
        rw [List.mem_singleton] at hb'
        subst hb'
        obtain ⟨kv, hkv, hkve⟩ := List.mem_map.mp ha
        have := h3 kv hkv
        omega
      have h3' : ∀ kv ∈ alistSet m (L id) nid, kv.2 < nid + 1 := by
        intro kv hkv
        rw [hset] at hkv
        rcases List.mem_append.mp hkv with h | h
        · have := h3 kv h
          omega
        · rw [List.mem_singleton] at h
          subst h
          omega
      have h4' : ∀ kv ∈ alistSet m (L id) nid, L kv.1 = kv.1 := by
        intro kv hkv
        rw [hset] at hkv
        rcases List.mem_append.mp hkv with h | h
        · exact h4 kv h
        · rw [List.mem_singleton] at h
          subst h
          exact hLidem id
      obtain ⟨E, N1, N2, B1, B2, KC, PB, PL⟩ := ih (ufFind fuel p id).2
        (alistSet m (L id) nid) (nid + 1) hf2B hf2L h1' h2' h3' h4'
      refine ⟨?_, N1, N2, B1, B2, ?_, PB, PL⟩
      · obtain ⟨ext, hext⟩ := E
        refine ⟨(L id, nid) :: ext, ?_⟩
        rw [hext, hset]
        simp
      · intro k
        rw [KC k]
        constructor
        · rintro (⟨v, hv⟩ | ⟨i, hi, he⟩)
          · rw [hset] at hv
            rcases List.mem_append.mp hv with h | h
            · exact Or.inl ⟨v, h⟩
            · rw [List.mem_singleton] at h
              have : k = L id := congrArg Prod.fst h
              exact Or.inr ⟨id, List.mem_cons_self _ _, this.symm⟩
          · exact Or.inr ⟨i, List.mem_cons_of_mem _ hi, he⟩
        · rintro (⟨v, hv⟩ | ⟨i, hi, he⟩)
          · exact Or.inl ⟨v, by rw [hset]; exact List.mem_append_left _ hv⟩
          · rcases List.mem_cons.mp hi with h5 | h5
            · subst h5
              exact Or.inl ⟨nid, by rw [hset, he]; exact List.mem_append_right _ (List.mem_singleton.mpr rfl)⟩
            · exact Or.inr ⟨i, h5, he⟩

/-- Every pair in an updated association list with a present key. -/
theorem alistSet_mem_self [DecidableEq κ] (m : List (κ × β)) (k : κ) (v : β) :
    (k, v) ∈ alistSet m k v :=
  alistGet_mem _ _ _ (alistGet_set_self m k v)

/-- Updating a present key keeps the other entries and rewrites that one. -/
theorem alistSet_mem_of_mem_present [DecidableEq κ] (m : List (κ × β)) (k : κ)
    (v : β) (kv : κ × β) (hp : (m.any fun kv => kv.1 = k) = true)
    (h : kv ∈ m) (hne : kv.1 ≠ k) : kv ∈ alistSet m k v := by
  unfold alistSet
  rw [if_pos hp]
  rw [List.mem_map]
  exact ⟨kv, h, by rw [if_neg hne]⟩

/-- The grouping pass files every id under its root's community id. -/
theorem groupCommunities_spec (fuel K : Nat) (L : Nat → Nat) (hK : K ≤ fuel)
    (rootToId : List (Nat × Nat)) :
    ∀ (ids : List Nat) (p : Nat → Nat) (acc : List (Nat × List Nat)),
      ufBnd p K → (∀ y, p^[K] y = L y) →
      (∀ i ∈ ids, ∃ v, (L i, v) ∈ rootToId) →
      ((acc.map (·.1)).Nodup) →
      (∀ e ∈ acc, ∀ i ∈ e.2, alistGet rootToId (L i) = some e.1) →
      (((groupCommunities fuel rootToId ids p acc).1.map (·.1)).Nodup) ∧
        (∀ e ∈ (groupCommunities fuel rootToId ids p acc).1, ∀ i ∈ e.2,
          alistGet rootToId (L i) = some e.1) ∧
        (∀ c i, (∃ l, (c, l) ∈ acc ∧ i ∈ l) →
          ∃ l, (c, l) ∈ (groupCommunities fuel rootToId ids p acc).1 ∧ i ∈ l) ∧
        (∀ i ∈ ids, ∀ c, alistGet rootToId (L i) = some c →
          ∃ l, (c, l) ∈ (groupCommunities fuel rootToId ids p acc).1 ∧ i ∈ l) := by
  intro ids
  induction ids with
  | nil =>
    intro p acc _ _ _ hk ha
    rw [groupCommunities]
    exact ⟨hk, ha, fun c i h => h, fun i hi => absurd hi (List.not_mem_nil _)⟩
  | cons id rest ih =>
    intro p acc hb hL hcov hk ha
    rw [groupCommunities]
    have hf1 : (ufFind fuel p id).1 = L id := by
      have := findRoot_eq p fuel K id hK (hb id)
      rw [hL id] at this
      exact this
    obtain ⟨c1, c2⟩ := compressPath_limits K (findRoot p fuel id) fuel p id hb
      (by rw [hL id, ← hf1]; rfl)
    have hf2L : ∀ y, (ufFind fuel p id).2^[K] y = L y := fun y => (c1 y).trans (hL y)
    have hf2B : ufBnd (ufFind fuel p id).2 K := c2
    rw [hf1]
    obtain ⟨v0, hv0⟩ := hcov id (List.mem_cons_self _ _)
    have hsome : (alistGet rootToId (L id)).isSome = true := by
      rw [alistGet_isSome_iff]
      exact List.any_eq_true.mpr ⟨(L id, v0), hv0, by simp⟩
    obtain ⟨c, hc⟩ := Option.isSome_iff_exists.mp hsome
    rw [hc]
    simp only []
    have hcov' : ∀ i ∈ rest, ∃ v, (L i, v) ∈ rootToId :=
      fun i hi => hcov i (List.mem_cons_of_mem _ hi)
    cases hgacc : alistGet acc c with
    | some existing =>
      have hpresent : (acc.any fun kv => kv.1 = c) = true := by
        have := alistGet_mem acc c existing hgacc
        exact List.any_eq_true.mpr ⟨(c, existing), this, by simp⟩
      have hmemnew : (c, existing ++ [id]) ∈ alistSet acc c (existing ++ [id]) :=
        alistSet_mem_self _ _ _
      have hk' : (((alistSet acc c (existing ++ [id])).map (·.1)).Nodup) := by
        rw [alistSet_keys_present acc c _ hpresent]
        exact hk
      have ha' : ∀ e ∈ alistSet acc c (existing ++ [id]), ∀ i ∈ e.2,
          alistGet rootToId (L i) = some e.1 := by
        intro e he i hi
        rcases alistSet_mem acc c _ e he with h | h
        · exact ha e h i hi
        · subst h
          rcases List.mem_append.mp hi with h | h
          · exact ha (c, existing) (alistGet_mem acc c existing hgacc) i h
          · rw [List.mem_singleton] at h
            subst h
            exact hc
      obtain ⟨N, A, P, C⟩ := ih (ufFind fuel p id).2 (alistSet acc c (existing ++ [id]))
        hf2B hf2L hcov' hk' ha'
      have hstep : ∀ c0 i, (∃ l, (c0, l) ∈ acc ∧ i ∈ l) →
          ∃ l, (c0, l) ∈ alistSet acc c (existing ++ [id]) ∧ i ∈ l := by
        intro c0 i ⟨l, hl, hil⟩
        by_cases hc0 : c0 = c
        · subst hc0
          have : (c0, l) = (c0, existing) :=
            List.inj_on_of_nodup_map hk hl (alistGet_mem acc c0 existing hgacc) rfl
          have hle : l = existing := by
            injection this
          refine ⟨existing ++ [id], hmemnew, ?_⟩
          rw [← hle]
          exact List.mem_append_left _ hil
        · exact ⟨l, alistSet_mem_of_mem_present acc c _ (c0, l) hpresent hl hc0, hil⟩
      refine ⟨N, A, ?_, ?_⟩
      · intro c0 i h
        exact P c0 i (hstep c0 i h)
      · intro i hi c0 hc0
        rcases List.mem_cons.mp hi with h | h
        · rw [h] at hc0
          have hcc : c = c0 := by
            have h2 := hc.symm.trans hc0
            injection h2
          rw [← hcc]
          refine P c i ⟨existing ++ [id], hmemnew, ?_⟩
          rw [h]
          exact List.mem_append_right _ (List.mem_singleton.mpr rfl)
        · exact C i h c0 hc0
    | none =>
      have habs : ¬ (acc.any fun kv => kv.1 = c) = true := (alistGet_none_iff acc c).mp hgacc
      have hset : alistSet acc c [id] = acc ++ [(c, [id])] := by
        unfold alistSet
        rw [if_neg habs]
      have hk' : (((alistSet acc c [id]).map (·.1)).Nodup) := by
        rw [alistSet_keys_absent acc c _ habs]
        rw [List.nodup_append]
        refine ⟨hk, List.nodup_singleton _, ?_⟩
        intro a hma hmb
        rw [List.mem_singleton] at hmb
        subst hmb
        obtain ⟨kv, hkv, hkve⟩ := List.mem_map.mp hma
        exact habs (List.any_eq_true.mpr ⟨kv, hkv, by simpa using hkve⟩)
      have ha' : ∀ e ∈ alistSet acc c [id], ∀ i ∈ e.2,
          alistGet rootToId (L i) = some e.1 := by
        intro e he i hi
        rw [hset] at he
        rcases List.mem_append.mp he with h | h
        · exact ha e h i hi
        · rw [List.mem_singleton] at h
          subst h
          rw [List.mem_singleton] at hi
          subst hi
          exact hc
      obtain ⟨N, A, P, C⟩ := ih (ufFind fuel p id).2 (alistSet acc c [id])
        hf2B hf2L hcov' hk' ha'
      have hstep : ∀ c0 i, (∃ l, (c0, l) ∈ acc ∧ i ∈ l) →
          ∃ l, (c0, l) ∈ alistSet acc c [id] ∧ i ∈ l := by
        intro c0 i ⟨l, hl, hil⟩
        exact ⟨l, by rw [hset]; exact List.mem_append_left _ hl, hil⟩
      refine ⟨N, A, ?_, ?_⟩
      · intro c0 i h
        exact P c0 i (hstep c0 i h)
      · intro i hi c0 hc0
        rcases List.mem_cons.mp hi with h | h
        · rw [h] at hc0
          have hcc : c = c0 := by
            have h2 := hc.symm.trans hc0
            injection h2
          rw [← hcc]
          refine P c i ⟨[id], ?_, by rw [h]; exact List.mem_singleton.mpr rfl⟩
          rw [hset]
          exact List.mem_append_right _ (List.mem_singleton.mpr rfl)
        · exact C i h c0 hc0

/-- The batches of `chunksOf` concatenate back to the original list. -/
theorem chunksOfGo_flatten (n : Nat) (hn : 1 ≤ n) :
    ∀ (fuel : Nat) (l : List α), l.length ≤ fuel →
      (chunksOfGo n fuel l).flatten = l := by
  intro fuel
  induction fuel with
  | zero =>
    intro l hl
    rw [Nat.le_zero, List.length_eq_zero] at hl
    subst hl
    rfl
  | succ f ih =>
    intro l hl
    cases l with
    | nil => rfl
    | cons a rest =>
      show (List.take n (a :: rest) :: chunksOfGo n f ((a :: rest).drop n)).flatten =
        a :: rest
      rw [List.flatten_cons]
      rw [ih ((a :: rest).drop n)
        (by simp only [List.length_drop, List.length_cons] at hl ⊢; omega)]
      exact List.take_append_drop n (a :: rest)

theorem chunksOf_flatten (n : Nat) (hn : 1 ≤ n) (l : List α) :
    (chunksOf n l).flatten = l :=
  chunksOfGo_flatten n hn l.length l le_rfl

/-- Batched community update, viewed per document row. -/
theorem updateCommunity_batches (c : Nat) :
    ∀ (batches : List (List Nat)) (db : Db),
      (batches.foldl (fun acc2 batch => updateCommunity acc2 batch c) db).documents =
        db.documents.map (fun d =>
          if d.id ∈ batches.flatten then { d with communityId := some c } else d) := by
  intro batches
  induction batches with
  | nil =>
    intro db
    simp
  | cons b bs ih =>
    intro db
    rw [List.foldl_cons, ih (updateCommunity db b c)]
    unfold updateCommunity
    rw [List.map_map]
    refine List.map_congr_left ?_
    intro d _
    simp only [Function.comp_apply, List.flatten_cons, List.mem_append]
    by_cases hm : d.id ∈ b
    · rw [if_pos hm]
      simp only []
      rw [if_pos (Or.inl hm)]
      by_cases hm2 : d.id ∈ bs.flatten
      · rw [if_pos hm2]
      · rw [if_neg hm2]
    · rw [if_neg hm]
      by_cases hm2 : d.id ∈ bs.flatten
      · rw [if_pos hm2, if_pos (Or.inr hm2)]
      · rw [if_neg hm2, if_neg (by rintro (h | h); exact hm h; exact hm2 h)]

/-- The write-back loop, viewed per document row. -/
theorem writeCommunities_docs :
    ∀ (groups : List (Nat × List Nat)) (db : Db),
      (writeCommunities db groups).documents =
        db.documents.map (fun d => groups.foldl (fun d g =>
          if d.id ∈ g.2 then { d with communityId := some g.1 } else d) d) := by
  intro groups
  induction groups with
  | nil =>
    intro db
    simp [writeCommunities]
  | cons g rest ih =>
    intro db
    rw [writeCommunities, List.foldl_cons]
    have h1 := ih ((chunksOf 500 g.2).foldl (fun acc2 batch => updateCommunity acc2 batch g.1) db)
    rw [writeCommunities] at h1
    rw [h1, updateCommunity_batches g.1 (chunksOf 500 g.2) db]
    rw [chunksOf_flatten 500 (by omega) g.2]
    rw [List.map_map]
    refine List.map_congr_left ?_
    intro d _
    simp only [Function.comp_apply, List.foldl_cons]

/-- A row untouched by every group is unchanged by the row fold. -/
theorem rowFold_stable :
    ∀ (groups : List (Nat × List Nat)) (d : DocRow),
      (∀ g ∈ groups, d.id ∈ g.2 → { d with communityId := some g.1 } = d) →
      groups.foldl (fun d g =>
        if d.id ∈ g.2 then { d with communityId := some g.1 } else d) d = d := by
  intro groups
  induction groups with
  | nil => intro d _; rfl
  | cons g rest ih =>
    intro d hstab
    rw [List.foldl_cons]
    by_cases hm : d.id ∈ g.2
    · rw [if_pos hm, hstab g (List.mem_cons_self _ _) hm]
      exact ih d (fun g' hg' => hstab g' (List.mem_cons_of_mem _ hg'))
    · rw [if_neg hm]
      exact ih d (fun g' hg' => hstab g' (List.mem_cons_of_mem _ hg'))

/-- A row contained in groups that all carry community id `c` ends up with
community id `c`. -/
theorem rowFold_value (c : Nat) :
    ∀ (groups : List (Nat × List Nat)) (d : DocRow),
      (∃ l, (c, l) ∈ groups ∧ d.id ∈ l) →
      (∀ g ∈ groups, d.id ∈ g.2 → g.1 = c) →
      groups.foldl (fun d g =>
        if d.id ∈ g.2 then { d with communityId := some g.1 } else d) d =
        { d with communityId := some c } := by
  intro groups
  induction groups with
  | nil =>
    rintro d ⟨l, hl, _⟩ _
    exact absurd hl (List.not_mem_nil _)
  | cons g rest ih =>
    rintro d ⟨l, hl, hdl⟩ huniq
    rw [List.foldl_cons]
    by_cases hm : d.id ∈ g.2
    · rw [if_pos hm, huniq g (List.mem_cons_self _ _) hm]
      refine rowFold_stable rest { d with communityId := some c } ?_
      intro g' hg' hm'
      have : g'.1 = c := huniq g' (List.mem_cons_of_mem _ hg') hm'
      rw [this]
    · rw [if_neg hm]
      rcases List.mem_cons.mp hl with h | h
      · exfalso
        have : d.id ∈ g.2 := by
          rw [← h] at hm ⊢
          exact hdl
        exact hm this
      · exact ih d ⟨l, h, hdl⟩ (fun g' hg' => huniq g' (List.mem_cons_of_mem _ hg'))

/-- C1: after `detectCommunities`, two document rows carry the same
`community_id` exactly when their ids are connected in the undirected
relation graph, and the returned count is the number of connected
components touching the document table. -/
theorem detectCommunities_correct (db : Db) :
    (∀ r1 ∈ (detectCommunities db).2.documents,
      ∀ r2 ∈ (detectCommunities db).2.documents,
        (r1.communityId = r2.communityId ↔ Conn db r1.id r2.id)) ∧
      ∃ reps : List Nat,
        reps.length = (detectCommunities db).1 ∧
        reps.Pairwise (fun a b => ¬ Conn db a b) ∧
        (∀ a ∈ reps, ∃ row ∈ db.documents, Conn db a row.id) ∧
        (∀ row ∈ db.documents, ∃ a ∈ reps, Conn db a row.id) := by
  by_cases hemp : db.documents.isEmpty = true
  · have hdocs : db.documents = [] := List.isEmpty_iff.mp hemp
    have hdc : detectCommunities db = (0, db) := by
      unfold detectCommunities
      rw [if_pos hemp]
    rw [hdc]
    constructor
    · intro r1 hr1
      rw [hdocs] at hr1
      exact absurd hr1 (List.not_mem_nil _)
    · refine ⟨[], rfl, List.Pairwise.nil, ?_, ?_⟩
      · intro a ha
        exact absurd ha (List.not_mem_nil _)
      · intro row hrow
        rw [hdocs] at hrow
        exact absurd hrow (List.not_mem_nil _)
  · set allIds := db.documents.map (·.id) with hallIds
    set relRows := db.documentRelations with hrelRows
    set fuel := allIds.length + 2 * relRows.length + 1 with hfuel
    set parent1 := relRows.foldl (fun p r => ufUnion fuel p r.sourceId r.targetId)
      (fun x => x) with hparent1
    set asg := assignRoots fuel allIds parent1 [] 0 with hasg
    set grp := groupCommunities fuel asg.1 allIds asg.2.2 [] with hgrp
    have hdc1 : (detectCommunities db).1 = asg.1.length := by
      unfold detectCommunities
      rw [if_neg hemp]
    have hdc2 : (detectCommunities db).2 = writeCommunities db grp.1 := by
      unfold detectCommunities
      rw [if_neg hemp]
    set K := relRows.length with hK
    have hKfuel : K ≤ fuel := by
      rw [hfuel]
      omega
    have hb0 : ufBnd (fun x => x) 0 := fun x => rfl
    have hs0 : ufSound db (fun x => x) := fun x => conn_refl db x
    obtain ⟨B1, S1, _, Merged⟩ := unionLoop_spec db fuel relRows (fun x => x) 0
      (fun r hr => hr) hb0 hs0 (by omega)
    rw [Nat.zero_add] at B1 Merged
    set L := fun y => parent1^[K] y with hLdef
    have hLfun : ∀ y, parent1^[K] y = L y := fun y => rfl
    have hLidem : ∀ y, L (L y) = L y := by
      intro y
      exact Function.iterate_fixed (B1 y) K
    have hconn : ∀ y z, Conn db y z ↔ L y = L z := by
      intro y z
      constructor
      · intro h
        induction h with
        | rel a b hr =>
          obtain ⟨r, hrmem, hcase⟩ := hr
          rcases hcase with ⟨ha, hb⟩ | ⟨ha, hb⟩
          · rw [← ha, ← hb]
            exact Merged r hrmem
          · rw [← ha, ← hb]
            exact (Merged r hrmem).symm
        | refl a => rfl
        | symm a b _ ih => exact ih.symm
        | trans a b c _ _ ih1 ih2 => exact ih1.trans ih2
      · intro h
        have h1 : Conn db y (L y) := conn_iterate db parent1 S1 K y
        have h2 : Conn db z (L z) := conn_iterate db parent1 S1 K z
        rw [h] at h1
        exact conn_trans db _ _ _ h1 (conn_symm db _ _ h2)
    obtain ⟨_, N1, N2, _, B2a, KC, PB, PL⟩ := assignRoots_spec fuel K L hKfuel hLidem
      allIds parent1 [] 0 B1 hLfun List.nodup_nil List.nodup_nil
      (fun kv hkv => absurd hkv (List.not_mem_nil _))
      (fun kv hkv => absurd hkv (List.not_mem_nil _))
    have KC' : ∀ k, (∃ v, (k, v) ∈ asg.1) ↔ ∃ i ∈ allIds, L i = k := by
      intro k
      rw [KC k]
      constructor
      · rintro (⟨v, hv⟩ | h)
        · exact absurd hv (List.not_mem_nil _)
        · exact h
      · intro h
        exact Or.inr h
    have hcov : ∀ i ∈ allIds, ∃ v, (L i, v) ∈ asg.1 :=
      fun i hi => (KC' (L i)).mpr ⟨i, hi, rfl⟩
    obtain ⟨GN, GA, _, GC⟩ := groupCommunities_spec fuel K L hKfuel asg.1
      allIds asg.2.2 [] PB PL hcov List.nodup_nil
      (fun e he => absurd he (List.not_mem_nil _))
    have hrowlookup : ∀ d ∈ db.documents, ∃ c, alistGet asg.1 (L d.id) = some c := by
      intro d hd
      have hmem : d.id ∈ allIds := List.mem_map.mpr ⟨d, hd, rfl⟩
      obtain ⟨v, hv⟩ := hcov d.id hmem
      have : (alistGet asg.1 (L d.id)).isSome = true := by
        rw [alistGet_isSome_iff]
        exact List.any_eq_true.mpr ⟨(L d.id, v), hv, by simp⟩
      exact Option.isSome_iff_exists.mp this
    have hrowval : ∀ d ∈ db.documents, ∀ c, alistGet asg.1 (L d.id) = some c →
        grp.1.foldl (fun d g =>
          if d.id ∈ g.2 then { d with communityId := some g.1 } else d) d =
          { d with communityId := some c } := by
      intro d hd c hc
      have hmem : d.id ∈ allIds := List.mem_map.mpr ⟨d, hd, rfl⟩
      refine rowFold_value c grp.1 d (GC d.id hmem c hc) ?_
      intro g hg hm
      have h3 := GA g hg d.id hm
      rw [hc] at h3
      injection h3 with h4
      exact h4.symm
    constructor
    · intro r1 hr1 r2 hr2
      rw [hdc2, writeCommunities_docs grp.1 db] at hr1 hr2
      obtain ⟨d1, hd1, he1⟩ := List.mem_map.mp hr1
      obtain ⟨d2, hd2, he2⟩ := List.mem_map.mp hr2
      obtain ⟨c1, hc1⟩ := hrowlookup d1 hd1
      obtain ⟨c2, hc2⟩ := hrowlookup d2 hd2
      have hv1 := hrowval d1 hd1 c1 hc1
      have hv2 := hrowval d2 hd2 c2 hc2
      rw [hv1] at he1
      rw [hv2] at he2
      have hid1 : r1.id = d1.id := by rw [← he1]
      have hid2 : r2.id = d2.id := by rw [← he2]
      have hcid1 : r1.communityId = some c1 := by rw [← he1]
      have hcid2 : r2.communityId = some c2 := by rw [← he2]
      rw [hid1, hid2, hcid1, hcid2, hconn d1.id d2.id]
      constructor
      · intro h
        have hc12 : c1 = c2 := by injection h
        have hm1 : (L d1.id, c1) ∈ asg.1 := alistGet_mem _ _ _ hc1
        have hm2 : (L d2.id, c2) ∈ asg.1 := alistGet_mem _ _ _ hc2
        rw [hc12] at hm1
        have : (L d1.id, c2) = (L d2.id, c2) :=
          List.inj_on_of_nodup_map N2 hm1 hm2 rfl
        injection this
      · intro h
        rw [h] at hc1
        rw [hc1] at hc2
        injection hc2 with h2
        rw [h2]
    · refine ⟨asg.1.map (·.1), ?_, ?_, ?_, ?_⟩
      · rw [hdc1, List.length_map]
      · have hne : (asg.1.map (·.1)).Pairwise (fun a b => a ≠ b) := N1
        refine hne.imp_of_mem ?_
        intro a b ha hb hab hcab
        obtain ⟨kva, hkva, hkvae⟩ := List.mem_map.mp ha
        obtain ⟨kvb, hkvb, hkvbe⟩ := List.mem_map.mp hb
        have hLa : L a = a := by
          rw [← hkvae]
          exact B2a kva hkva
        have hLb : L b = b := by
          rw [← hkvbe]
          exact B2a kvb hkvb
        have := (hconn a b).mp hcab
        rw [hLa, hLb] at this
        exact hab this
      · intro a ha
        obtain ⟨kv, hkv, hkve⟩ := List.mem_map.mp ha
        have hkey : ∃ v, (kv.1, v) ∈ asg.1 := ⟨kv.2, hkv⟩
        obtain ⟨i, hi, hie⟩ := (KC' kv.1).mp hkey
        obtain ⟨row, hrow, hrowe⟩ := List.mem_map.mp hi
        refine ⟨row, hrow, ?_⟩
        have h1 : Conn db i (L i) := conn_iterate db parent1 S1 K i
        rw [hie, hkve] at h1
        rw [hrowe]
        exact conn_symm db _ _ h1
      · intro row hrow
        have hmem : row.id ∈ allIds := List.mem_map.mpr ⟨row, hrow, rfl⟩
        obtain ⟨v, hv⟩ := hcov row.id hmem
        refine ⟨L row.id, List.mem_map.mpr ⟨(L row.id, v), hv, rfl⟩, ?_⟩
        exact conn_symm db _ _ (conn_iterate db parent1 S1 K row.id)

theorem detectCommunities_correct_witness :
    ∃ r1 ∈ (detectCommunities exC1Db).2.documents,
      ∃ r2 ∈ (detectCommunities exC1Db).2.documents,
        r1.id = 1 ∧ r2.id = 2 ∧ r1.communityId = r2.communityId := by
  have h := (detectCommunities_correct exC1Db).1
  refine ⟨⟨1, "a".data, "x".data, "hx".data, [], some 0⟩, by decide,
    ⟨2, "b".data, "y".data, "hy".data, [], some 0⟩, by decide, rfl, rfl, ?_⟩
  refine (h _ (by decide) _ (by decide)).mpr ?_
  exact Relation.EqvGen.rel 1 2
    ⟨⟨1, 1, 2, none, none⟩, List.mem_singleton.mpr rfl, Or.inl ⟨rfl, rfl⟩⟩
